import Mathlib

/-!
Verification of the grid-pathfinding engine and ghost scheduler of the
Chase-PacMan repository.

The embedding models:
* `utils/game_utils.py`: `is_valid_move`, `get_neighbors`, `find_initial_positions`;
* `algorithms/search_algorithms.py`: the `SearchAlgorithm` object state and the
  four `search` methods (BFS, DFS, UCS, A*);
* `game.py`: the ghost-scheduler ticks of `PacmanGame.update_ghosts` for
  levels 1, 5 and 6, and `PacmanGame.reset_game`.

Positions are integer pairs (Python tuples `(x, y)`), the maze is a list of
rows of cell tags (1 = wall).  Python dictionaries are modelled as
association lists updated by consing (the newest binding shadows older
ones), sets as duplicate-free lists, and `heapq` as a list kept sorted by
the lexicographic order Python uses on `(f, g, position)` tuples.  The
wall-clock and memory measurements of a `search` call are nondeterministic
inputs, passed as explicit arguments `tdelta` and `mdelta`.  Search loops
recurse on an explicit fuel which is proved sufficient, so the embedded
functions compute exactly what the Python loops do.
-/


/-- A position, as the Python tuple `(x, y)` of ints. -/
abbrev Pos : Type := Int × Int

/-- The maze layout: a list of rows of cell tags (`MAZE_LAYOUT`). -/
abbrev Maze : Type := List (List Nat)

/-- Cell tag at `(x, y)`; out-of-range reads default to a wall tag.  The
algorithms only read cells after the bounds checks of `is_valid_move`, so the
default is never observed on rectangular mazes. -/
def mazeCell (m : Maze) (x y : Int) : Nat :=
  (m.getD y.toNat []).getD x.toNat 1

/-- `MAZE_LAYOUT` is rectangular: every row has the length of row 0
(the data-model assumption under which the Python code is defined). -/
def MazeRect (m : Maze) : Prop :=
  ∀ r ∈ m, r.length = (m.headD []).length

instance (m : Maze) : Decidable (MazeRect m) := by
  unfold MazeRect; infer_instance

/-- `is_valid_move` from `utils/game_utils.py`: in bounds and not a wall. -/
def is_valid_move (m : Maze) (x y : Int) : Bool :=
  decide (0 ≤ x) && decide (x < ((m.headD []).length : Int)) &&
  decide (0 ≤ y) && decide (y < (m.length : Int)) &&
  decide (mazeCell m x y ≠ 1)

/-- The fixed neighbor direction list: Up, Right, Down, Left. -/
def directions : List (Int × Int) := [(0, -1), (1, 0), (0, 1), (-1, 0)]

/-- `get_neighbors` from `utils/game_utils.py`: the valid 4-adjacent cells,
in Up, Right, Down, Left order. -/
def get_neighbors (m : Maze) (x y : Int) : List Pos :=
  (directions.map (fun d => (x + d.1, y + d.2))).filter
    (fun p => is_valid_move m p.1 p.2)

/-- One admissible move of the search graph: `v` is produced by
`get_neighbors` at `u`. -/
def isStep (m : Maze) (u v : Pos) : Prop :=
  v ∈ get_neighbors m u.1 u.2

instance (m : Maze) (u v : Pos) : Decidable (isStep m u v) :=
  inferInstanceAs (Decidable (v ∈ get_neighbors m u.1 u.2))

/-- A path of the specification: nonempty, starts at `s`, ends at `t`, and
each consecutive pair is an admissible move. -/
def PathFrom (m : Maze) (s t : Pos) (p : List Pos) : Prop :=
  p ≠ [] ∧ p.head? = some s ∧ p.getLast? = some t ∧ List.Chain' (isStep m) p

/-- `t` is reachable from `s` in the maze graph. -/
def Reachable (m : Maze) (s t : Pos) : Prop :=
  ∃ p, PathFrom m s t p

/-- `k` is the true shortest-path edge count from `s` to `t`. -/
def IsShortestLen (m : Maze) (s t : Pos) (k : Nat) : Prop :=
  (∃ p, PathFrom m s t p ∧ p.length = k + 1) ∧
  ∀ p, PathFrom m s t p → k + 1 ≤ p.length

/-- Lookup in an association list (Python dict read). -/
def alookup {α : Type} : List (Pos × α) → Pos → Option α
  | [], _ => none
  | (k', v) :: rest, k => if k' = k then some v else alookup rest k

/-- Parent-pointer map: `None` marks the start node (Python
`parent[start] = None`). -/
abbrev PMap : Type := List (Pos × Option Pos)

/-- Accumulated-cost map `cost_so_far`. -/
abbrev CMap : Type := List (Pos × Nat)

/-- The walk of the Python reconstruction loop
`while current: path.append(current); current = parent.get(current)`,
with explicit fuel; the fuel is irrelevant on the acyclic parent maps the
algorithms build. -/
def walkParents (pm : PMap) : Nat → Pos → List Pos
  | 0, c => [c]
  | fuel + 1, c =>
    match alookup pm c with
    | some (some p) => c :: walkParents pm fuel p
    | _ => [c]

/-- The mutable state of a `SearchAlgorithm` object
(`SearchAlgorithm.__init__`). -/
structure SearchAlgorithm where
  maze : Maze
  expanded_nodes : Nat
  search_time : Int
  memory_usage : Int

/-- `SearchAlgorithm.__init__(maze)`: counters start at zero. -/
def SearchAlgorithm.init (maze : Maze) : SearchAlgorithm :=
  { maze := maze, expanded_nodes := 0, search_time := 0, memory_usage := 0 }

/-- The dictionary returned by `SearchAlgorithm.get_stats`. -/
structure SearchStats where
  expanded_nodes : Nat
  search_time : Int
  memory_usage : Int
deriving DecidableEq

/-- `SearchAlgorithm.get_stats`. -/
def SearchAlgorithm.get_stats (a : SearchAlgorithm) : SearchStats :=
  { expanded_nodes := a.expanded_nodes, search_time := a.search_time,
    memory_usage := a.memory_usage }

/-! ### The BFS / DFS loop

BFS (`BFSAlgorithm.search`) and DFS (`DFSAlgorithm.search`) run the same
loop body; the only difference is which end of the frontier list is popped
(`deque.popleft()` versus `list.pop()`).  Both push at the tail
(`queue.append` / `stack.append`). -/

/-- State of the BFS/DFS loop.  `tracePops` records the sequence of popped
cells (instrumentation only: it influences nothing else). -/
structure BDState where
  frontier : List Pos
  visited : List Pos
  parent : PMap
  expanded : Nat
  tracePops : List Pos

/-- Pop from the frontier: head for the BFS queue, last element for the DFS
stack. -/
def bdPop (lifo : Bool) (f : List Pos) : Option (Pos × List Pos) :=
  if lifo then
    match f.getLast? with
    | some c => some (c, f.dropLast)
    | none => none
  else
    match f with
    | [] => none
    | c :: rest => some (c, rest)

/-- The neighbor loop of BFS/DFS: each not-yet-visited neighbor is appended
to the frontier, marked visited, and given a parent pointer. -/
def bdVisit (c : Pos) : List Pos → List Pos × List Pos × PMap → List Pos × List Pos × PMap
  | [], acc => acc
  | n :: ns, (f, vis, pm) =>
    if n ∈ vis then bdVisit c ns (f, vis, pm)
    else bdVisit c ns (f ++ [n], n :: vis, (n, some c) :: pm)

/-- The BFS/DFS `while queue:` loop.  Returns the `found` flag (whether the
loop ended by popping the goal) and the final state. -/
def bdLoop (m : Maze) (goal : Pos) (lifo : Bool) : Nat → BDState → Bool × BDState
  | 0, s => (false, s)
  | fuel + 1, s =>
    match bdPop lifo s.frontier with
    | none => (false, s)
    | some (c, rest) =>
      if c = goal then
        (true, { frontier := rest, visited := s.visited, parent := s.parent,
                 expanded := s.expanded + 1, tracePops := s.tracePops ++ [c] })
      else
        let fvp := bdVisit c (get_neighbors m c.1 c.2) (rest, s.visited, s.parent)
        bdLoop m goal lifo fuel
          { frontier := fvp.1, visited := fvp.2.1, parent := fvp.2.2,
            expanded := s.expanded + 1, tracePops := s.tracePops ++ [c] }

/-- All cells of the rectangular grid of a maze. -/
def allCells (m : Maze) : List Pos :=
  (List.range m.length).flatMap (fun (y : Nat) =>
    (List.range (m.headD []).length).map (fun (x : Nat) => ((x : Int), (y : Int))))

/-- The list of valid (in-bounds, non-wall) cells of a maze. -/
def validCells (m : Maze) : List Pos :=
  (allCells m).filter (fun p => is_valid_move m p.1 p.2)

/-- Fuel sufficient for the BFS/DFS loop: each iteration pops one element
and each enqueue marks a fresh valid cell visited. -/
def bdFuel (m : Maze) : Nat := (validCells m).length + 2

/-- `BFSAlgorithm.search`.  `G` is the module-level `MAZE_LAYOUT` read by
`get_neighbors`; `a` is the object state (whose `maze` field, the
constructor argument, is never read); `tdelta` and `mdelta` are the
measured wall-clock and memory deltas of this call. -/
def BFSAlgorithm.search (G : Maze) (a : SearchAlgorithm) (tdelta mdelta : Int)
    (start goal : Pos) : List Pos × SearchStats × SearchAlgorithm :=
  let s0 : BDState :=
    { frontier := [start], visited := [start], parent := [(start, none)],
      expanded := a.expanded_nodes, tracePops := [] }
  let r := bdLoop G goal false (bdFuel G) s0
  let s1 := r.2
  let path :=
    if (alookup s1.parent goal).isSome ∨ goal = start then
      (walkParents s1.parent s1.parent.length goal).reverse
    else []
  let a' : SearchAlgorithm :=
    { maze := a.maze, expanded_nodes := s1.expanded,
      search_time := tdelta, memory_usage := mdelta }
  (path, a'.get_stats, a')

/-- `DFSAlgorithm.search`: same loop with a LIFO frontier; the path is
reconstructed only when the `found` flag was set. -/
def DFSAlgorithm.search (G : Maze) (a : SearchAlgorithm) (tdelta mdelta : Int)
    (start goal : Pos) : List Pos × SearchStats × SearchAlgorithm :=
  let s0 : BDState :=
    { frontier := [start], visited := [start], parent := [(start, none)],
      expanded := a.expanded_nodes, tracePops := [] }
  let r := bdLoop G goal true (bdFuel G) s0
  let s1 := r.2
  let path :=
    if r.1 then (walkParents s1.parent s1.parent.length goal).reverse else []
  let a' : SearchAlgorithm :=
    { maze := a.maze, expanded_nodes := s1.expanded,
      search_time := tdelta, memory_usage := mdelta }
  (path, a'.get_stats, a')

/-! ### The UCS / A* loop

`UCSAlgorithm.search` and `AStarAlgorithm.search` run the same loop; UCS is
the instance whose heuristic is constantly `0` (its pushed entries
`(new_cost, new_cost, n)` coincide with `(g + h n, g, n)` for `h = 0`). -/

/-- A heap entry `(f, g, position)` as pushed by UCS/A*. -/
abbrev HEntry : Type := Nat × Nat × Pos

/-- The lexicographic order Python uses to compare `(f, g, (x, y))` tuples
in `heapq`. -/
def entryLE (e1 e2 : HEntry) : Prop :=
  e1.1 < e2.1 ∨ (e1.1 = e2.1 ∧ (e1.2.1 < e2.2.1 ∨ (e1.2.1 = e2.2.1 ∧
    (e1.2.2.1 < e2.2.2.1 ∨ (e1.2.2.1 = e2.2.2.1 ∧ e1.2.2.2 ≤ e2.2.2.2)))))

instance : DecidableRel entryLE := fun e1 e2 =>
  inferInstanceAs (Decidable (e1.1 < e2.1 ∨ (e1.1 = e2.1 ∧ (e1.2.1 < e2.2.1 ∨
    (e1.2.1 = e2.2.1 ∧ (e1.2.2.1 < e2.2.2.1 ∨ (e1.2.2.1 = e2.2.2.1 ∧
      e1.2.2.2 ≤ e2.2.2.2)))))))

/-- Insert into the sorted list modelling the binary heap: the heap's only
observable behavior is that `heappop` returns a least entry. -/
def heapInsert (e : HEntry) : List HEntry → List HEntry
  | [] => [e]
  | x :: xs => if entryLE e x then e :: x :: xs else x :: heapInsert e xs

/-- State of the UCS/A* loop.  `tracePops` records each popped entry
together with whether its cell was already visited (a stale entry) and
whether it triggered the goal break (instrumentation only). -/
structure HState where
  heap : List HEntry
  visited : List Pos
  parent : PMap
  cost : CMap
  expanded : Nat
  tracePops : List (HEntry × Bool × Bool)

/-- The relaxation loop over the neighbors of the expanded cell `c`:
`new_cost = cost_so_far[current] + 1`, and a neighbor is (re)pushed exactly
when it has no recorded cost or a strictly larger one. -/
def hRelax (m : Maze) (h : Pos → Nat) (c : Pos) :
    List Pos → List HEntry × PMap × CMap → List HEntry × PMap × CMap
  | [], acc => acc
  | n :: ns, (hp, pm, cost) =>
    let new_cost := (alookup cost c).getD 0 + 1
    let upd :=
      match alookup cost n with
      | none => true
      | some cn => decide (new_cost < cn)
    if upd then
      hRelax m h c ns
        (heapInsert (new_cost + h n, new_cost, n) hp, (n, some c) :: pm, (n, new_cost) :: cost)
    else hRelax m h c ns (hp, pm, cost)

/-- The UCS/A* `while priority_queue:` loop: goal test at pop time (before
the visited check), lazy discarding of stale entries, expansion of
not-yet-visited cells. -/
def hLoop (m : Maze) (goal : Pos) (h : Pos → Nat) : Nat → HState → HState
  | 0, s => s
  | fuel + 1, s =>
    match s.heap with
    | [] => s
    | (f, g, c) :: rest =>
      if c = goal then
        { s with heap := rest, tracePops := s.tracePops ++ [((f, g, c), decide (c ∈ s.visited), true)] }
      else if c ∈ s.visited then
        hLoop m goal h fuel
          { s with heap := rest, tracePops := s.tracePops ++ [((f, g, c), true, false)] }
      else
        let hpc := hRelax m h c (get_neighbors m c.1 c.2) (rest, s.parent, s.cost)
        hLoop m goal h fuel
          { heap := hpc.1, visited := c :: s.visited, parent := hpc.2.1,
            cost := hpc.2.2, expanded := s.expanded + 1,
            tracePops := s.tracePops ++ [((f, g, c), false, false)] }

/-- Fuel sufficient for the UCS/A* loop (proved below via a potential
argument: every recorded cost is below `(validCells m).length + 2`). -/
def hFuel (m : Maze) : Nat :=
  ((validCells m).length + 2) * ((validCells m).length + 2)

/-- The common body of `UCSAlgorithm.search` and `AStarAlgorithm.search`,
parameterized by the heuristic used in the pushed `f` keys. -/
def hSearch (G : Maze) (h : Pos → Nat) (a : SearchAlgorithm) (tdelta mdelta : Int)
    (start goal : Pos) : List Pos × SearchStats × SearchAlgorithm :=
  let s0 : HState :=
    { heap := [(h start, 0, start)], visited := [], parent := [(start, none)],
      cost := [(start, 0)], expanded := a.expanded_nodes, tracePops := [] }
  let s1 := hLoop G goal h (hFuel G) s0
  let path :=
    if (alookup s1.parent goal).isSome then
      (walkParents s1.parent s1.parent.length goal).reverse
    else []
  let a' : SearchAlgorithm :=
    { maze := a.maze, expanded_nodes := s1.expanded,
      search_time := tdelta, memory_usage := mdelta }
  (path, a'.get_stats, a')

/-- `UCSAlgorithm.search`: the heuristic is zero, entries are
`(new_cost, new_cost, n)`. -/
def UCSAlgorithm.search (G : Maze) (a : SearchAlgorithm) (tdelta mdelta : Int)
    (start goal : Pos) : List Pos × SearchStats × SearchAlgorithm :=
  hSearch G (fun _ => 0) a tdelta mdelta start goal

/-- `AStarAlgorithm.heuristic`: Manhattan distance. -/
def AStarAlgorithm.heuristic (pos goal : Pos) : Nat :=
  ((pos.1 - goal.1).natAbs + (pos.2 - goal.2).natAbs)

/-- `AStarAlgorithm.search`: heap keys are `new_cost + heuristic`. -/
def AStarAlgorithm.search (G : Maze) (a : SearchAlgorithm) (tdelta mdelta : Int)
    (start goal : Pos) : List Pos × SearchStats × SearchAlgorithm :=
  hSearch G (fun p => AStarAlgorithm.heuristic p goal) a tdelta mdelta start goal

inductive PChain (pm : PMap) (start : Pos) : Pos → List Pos → Prop
  | base : alookup pm start = some none → PChain pm start start [start]
  | step : ∀ (v u : Pos) (l : List Pos), alookup pm v = some (some u) →
      PChain pm start u l → PChain pm start v (v :: l)

/-- Number of valid cells not yet visited. -/
def unvisCount (m : Maze) (vis : List Pos) : Nat :=
  ((validCells m).filter (fun x => decide (x ∉ vis))).length

/-- Termination measure of the BFS/DFS loop. -/
def bdMeasure (m : Maze) (s : BDState) : Nat :=
  s.frontier.length + unvisCount m s.visited

/-- Loop invariant of the BFS/DFS `while` loop (holds at the top of each
iteration). -/
structure BDInv (m : Maze) (start goal : Pos) (s : BDState) : Prop where
  startKey : alookup s.parent start = some none
  startVis : start ∈ s.visited
  keysVis : ∀ v : Pos, (alookup s.parent v).isSome ↔ v ∈ s.visited
  noneStart : ∀ v, alookup s.parent v = some none → v = start
  edge : ∀ v u, alookup s.parent v = some (some u) → isStep m u v
  parentVis : ∀ v u, alookup s.parent v = some (some u) → u ∈ s.visited
  rankEx : ∃ r : Pos → Nat, ∀ v u, alookup s.parent v = some (some u) → r u < r v
  visNodup : s.visited.Nodup
  frontSub : ∀ c ∈ s.frontier, c ∈ s.visited
  reach : ∀ v ∈ s.visited, Reachable m start v
  closed : ∀ v ∈ s.visited, v ∉ s.frontier → ∀ n ∈ get_neighbors m v.1 v.2, n ∈ s.visited
  goalFront : goal ∈ s.visited → goal ∈ s.frontier

/-- What holds of the state in which the BFS/DFS loop ends. -/
structure BDEnd (m : Maze) (start goal : Pos) (found : Bool) (s : BDState) : Prop where
  startKey : alookup s.parent start = some none
  startVis : start ∈ s.visited
  keysVis : ∀ v : Pos, (alookup s.parent v).isSome ↔ v ∈ s.visited
  noneStart : ∀ v, alookup s.parent v = some none → v = start
  edge : ∀ v u, alookup s.parent v = some (some u) → isStep m u v
  parentVis : ∀ v u, alookup s.parent v = some (some u) → u ∈ s.visited
  rankEx : ∃ r : Pos → Nat, ∀ v u, alookup s.parent v = some (some u) → r u < r v
  reach : ∀ v ∈ s.visited, Reachable m start v
  foundVis : found = true → goal ∈ s.visited
  notFound : found = false → goal ∉ s.visited ∧
    ∀ v ∈ s.visited, ∀ n ∈ get_neighbors m v.1 v.2, n ∈ s.visited

/-- The BFS distance invariant: every visited cell's parent chain realizes
its true shortest distance, and the queue consists of two consecutive
distance layers. -/
structure BfsInv (m : Maze) (start : Pos) (s : BDState) : Prop where
  distVis : ∀ v ∈ s.visited, ∃ k l, IsShortestLen m start v k ∧
    PChain s.parent start v l ∧ l.length = k + 1
  layer : ∃ (fd fd1 fd2 : List (Pos × Nat)) (d : Nat),
    fd.map Prod.fst = s.frontier ∧
    (∀ pd ∈ fd, IsShortestLen m start pd.1 pd.2) ∧
    fd = fd1 ++ fd2 ∧ (∀ pd ∈ fd1, pd.2 = d) ∧ (∀ pd ∈ fd2, pd.2 = d + 1)

/-- The loop run inside `BFSAlgorithm.search` (FIFO) / `DFSAlgorithm.search`
(LIFO), from the initial frontier, visited set and parent map. -/
def bdRun (G : Maze) (lifo : Bool) (e : Nat) (start goal : Pos) : Bool × BDState :=
  bdLoop G goal lifo (bdFuel G)
    { frontier := [start], visited := [start], parent := [(start, none)],
      expanded := e, tracePops := [] }

/-- Remaining cost potential of a cost map (for termination of the UCS/A*
loop): unrecorded cells count as the strict upper bound of any recordable
cost. -/
def hSlack (m : Maze) (cost : CMap) : Nat :=
  ((validCells m).map (fun v =>
    match alookup cost v with
    | some cv => cv
    | none => (validCells m).length + 2)).sum

/-- Termination potential of the UCS/A* loop. -/
def hPhi (m : Maze) (s : HState) : Nat := s.heap.length + hSlack m s.cost

/-- Pointwise domination between successive cost maps: every recorded cost
stays recorded and never increases. -/
def costLe (cost' cost : CMap) : Prop :=
  ∀ v cv0, alookup cost v = some cv0 → ∃ cv', alookup cost' v = some cv' ∧ cv' ≤ cv0

/-- The invariant carried through the relaxation loop of UCS/A* while the
expanded cell `c` (already in `vis`) has its neighbors processed. -/
structure HMid (m : Maze) (start : Pos) (h : Pos → Nat) (vis : List Pos) (c : Pos)
    (hp : List HEntry) (pm : PMap) (cost : CMap) : Prop where
  sorted : List.Pairwise entryLE hp
  startCost : alookup cost start = some 0
  startKey : alookup pm start = some none
  noneStart : ∀ v, alookup pm v = some none → v = start
  keysEq : ∀ v : Pos, (alookup pm v).isSome ↔ (alookup cost v).isSome
  edge : ∀ v u, alookup pm v = some (some u) → isStep m u v
  anchor : ∀ v u, alookup pm v = some (some u) → ∃ cv cu,
    alookup cost v = some cv ∧ alookup cost u = some cu ∧ cu + 1 ≤ cv
  reach : ∀ v, (alookup cost v).isSome → Reachable m start v
  costBound : ∀ v cv, alookup cost v = some cv → cv ≤ (validCells m).length + 1
  heapWf : ∀ e ∈ hp, ∃ cv, alookup cost e.2.2 = some cv ∧ cv ≤ e.2.1 ∧
    e.1 = e.2.1 + h e.2.2
  visKeys : ∀ u ∈ vis, (alookup cost u).isSome
  visDist : ∀ u ∈ vis, ∃ du, IsShortestLen m start u du ∧ alookup cost u = some du
  visRelaxExc : ∀ u ∈ vis, u ≠ c → ∀ du, alookup cost u = some du →
    ∀ n ∈ get_neighbors m u.1 u.2, ∃ cn, alookup cost n = some cn ∧ cn ≤ du + 1
  unvisHeap : ∀ v cv, alookup cost v = some cv → v ∉ vis → (cv + h v, cv, v) ∈ hp

/-- The steady-state invariant of the UCS/A* loop. -/
structure HInv (m : Maze) (start goal : Pos) (h : Pos → Nat) (s : HState) : Prop where
  sorted : List.Pairwise entryLE s.heap
  startCost : alookup s.cost start = some 0
  startKey : alookup s.parent start = some none
  noneStart : ∀ v, alookup s.parent v = some none → v = start
  keysEq : ∀ v : Pos, (alookup s.parent v).isSome ↔ (alookup s.cost v).isSome
  edge : ∀ v u, alookup s.parent v = some (some u) → isStep m u v
  anchor : ∀ v u, alookup s.parent v = some (some u) → ∃ cv cu,
    alookup s.cost v = some cv ∧ alookup s.cost u = some cu ∧ cu + 1 ≤ cv
  reach : ∀ v, (alookup s.cost v).isSome → Reachable m start v
  costBound : ∀ v cv, alookup s.cost v = some cv → cv ≤ (validCells m).length + 1
  heapWf : ∀ e ∈ s.heap, ∃ cv, alookup s.cost e.2.2 = some cv ∧ cv ≤ e.2.1 ∧
    e.1 = e.2.1 + h e.2.2
  visKeys : ∀ u ∈ s.visited, (alookup s.cost u).isSome
  visNodup : s.visited.Nodup
  visDist : ∀ u ∈ s.visited, ∃ du, IsShortestLen m start u du ∧ alookup s.cost u = some du
  visRelax : ∀ u ∈ s.visited, ∀ du, alookup s.cost u = some du →
    ∀ n ∈ get_neighbors m u.1 u.2, ∃ cn, alookup s.cost n = some cn ∧ cn ≤ du + 1
  unvisHeap : ∀ v cv, alookup s.cost v = some cv → v ∉ s.visited →
    (cv + h v, cv, v) ∈ s.heap
  goalNotVis : goal ∉ s.visited

/-- What holds of the state in which the UCS/A* loop ends. -/
structure HEnd (m : Maze) (start goal : Pos) (s : HState) : Prop where
  startKey : alookup s.parent start = some none
  noneStart : ∀ v, alookup s.parent v = some none → v = start
  keysEq : ∀ v : Pos, (alookup s.parent v).isSome ↔ (alookup s.cost v).isSome
  edge : ∀ v u, alookup s.parent v = some (some u) → isStep m u v
  anchor : ∀ v u, alookup s.parent v = some (some u) → ∃ cv cu,
    alookup s.cost v = some cv ∧ alookup s.cost u = some cu ∧ cu + 1 ≤ cv
  reach : ∀ v, (alookup s.cost v).isSome → Reachable m start v
  keyIffReach : (alookup s.cost goal).isSome ↔ Reachable m start goal
  goalKeyDist : (alookup s.cost goal).isSome →
    ∃ dg, IsShortestLen m start goal dg ∧ alookup s.cost goal = some dg

/-- The loop run inside `hSearch`, from the initial heap, parent map and
cost map. -/
def hRun (G : Maze) (hh : Pos → Nat) (e : Nat) (start goal : Pos) : HState :=
  hLoop G goal hh (hFuel G)
    { heap := [(hh start, 0, start)], visited := [], parent := [(start, none)],
      cost := [(start, 0)], expanded := e, tracePops := [] }

/-- Pops of the UCS/A* loop that are counted as expansions: neither a stale
pop nor the terminating goal pop. -/
def hCountNew (dtr : List (HEntry × Bool × Bool)) : Nat :=
  (dtr.filter (fun x => !x.2.1 && !x.2.2)).length

inductive GhostColor : Type
  | blue
  | pink
  | orange
  | red
deriving DecidableEq, Fintype

/-- Pointwise update of a per-ghost table (a Python dict entry assignment). -/
def setG {α : Type} (c : GhostColor) (v : α) (f : GhostColor → α) : GhostColor → α :=
  fun c' => if c' = c then v else f c'

/-- The game state fields read or written by the embedded methods. -/
structure GameState where
  maze : Maze
  original_maze : Maze
  pacman_pos : Option Pos
  ghost_positions : GhostColor → Option Pos
  ghost_paths : GhostColor → List Pos
  ghost_algorithms : GhostColor → SearchAlgorithm
  current_path : List Pos
  stats : SearchStats

/-- The row-major scan of `find_initial_positions`: each cell position with
its tag, iterating every row by its own length. -/
def scanCells (m : Maze) : List (Pos × Nat) :=
  (List.range m.length).flatMap (fun (y : Nat) =>
    (List.range (m.getD y []).length).map (fun (x : Nat) =>
      (((x : Int), (y : Int)), (m.getD y []).getD x 1)))

/-- `find_initial_positions` (`utils/game_utils.py`): the last cell tagged 5
becomes Pac-Man's spawn (each hit overwrites the previous); the first four
cells tagged 4 are assigned to blue, pink, orange, red in scan order. -/
def find_initial_positions (m : Maze) : Option Pos × (GhostColor → Option Pos) :=
  let cells := scanCells m
  let pac := ((cells.filter (fun pc => pc.2 == 5)).map Prod.fst).getLast?
  let gs := (cells.filter (fun pc => pc.2 == 4)).map Prod.fst
  (pac, fun c => match c with
    | .blue => gs.get? 0
    | .pink => gs.get? 1
    | .orange => gs.get? 2
    | .red => gs.get? 3)

/-- `PacmanGame.reset_game`: restores `MAZE_LAYOUT` from the stored original
layout, re-derives the spawn positions, zeroes the stats and clears the
cached paths.  The `ghost_algorithms` objects are not touched. -/
def reset_game (s : GameState) : GameState :=
  let m' := s.original_maze
  let fp := find_initial_positions m'
  { s with maze := m',
           pacman_pos := fp.1,
           ghost_positions := fp.2,
           stats := { expanded_nodes := 0, search_time := 0, memory_usage := 0 },
           current_path := [],
           ghost_paths := fun _ => [] }

/-- The `search` call dispatched through `self.ghost_algorithms[color]`
(blue: BFS, pink: DFS, orange: UCS, red: A*). -/
def ghost_algorithm_search (c : GhostColor) (G : Maze) (a : SearchAlgorithm)
    (tdelta mdelta : Int) (start goal : Pos) :
    List Pos × SearchStats × SearchAlgorithm :=
  match c with
  | .blue => BFSAlgorithm.search G a tdelta mdelta start goal
  | .pink => DFSAlgorithm.search G a tdelta mdelta start goal
  | .orange => UCSAlgorithm.search G a tdelta mdelta start goal
  | .red => AStarAlgorithm.search G a tdelta mdelta start goal

/-- Level 1 tick body (lines 432-453): replan with a fresh `BFSAlgorithm`
when the cached path is absent or has length at most 1, then advance the
blue ghost one step along the path. -/
def update_ghosts_level1 (tdelta mdelta : Int) (s : GameState) :
    Option GameState := do
  let s ←
    if s.current_path.length ≤ 1 then do
      let gp ← s.ghost_positions .blue
      let pp ← s.pacman_pos
      let r := BFSAlgorithm.search s.maze (SearchAlgorithm.init s.maze)
        tdelta mdelta gp pp
      pure { s with current_path := r.1, stats := r.2.1 }
    else pure s
  if h : 1 < s.current_path.length then
    pure { s with
      ghost_positions :=
        setG .blue (some (s.current_path.get ⟨1, h⟩)) s.ghost_positions,
      current_path := s.current_path.tail }
  else
    pure s

/-- Phase 1 of the level-5 tick (lines 521-532): for each active ghost in
order, replan through its persistent algorithm object when its cached path
has length at most 1, then record its proposed next cell `path[1]` when the
path has length greater than 1.  Returns the updated state and the
`new_positions` association list in insertion order. -/
def level5_phase1 (tm : GhostColor → Int × Int) :
    List GhostColor → GameState → List (GhostColor × Pos) →
      Option (GameState × List (GhostColor × Pos))
  | [], s, props => some (s, props)
  | c :: cs, s, props => do
    let s ←
      if (s.ghost_paths c).length ≤ 1 then do
        let gp ← s.ghost_positions c
        let pp ← s.pacman_pos
        let r := ghost_algorithm_search c s.maze (s.ghost_algorithms c)
          (tm c).1 (tm c).2 gp pp
        pure { s with
          ghost_paths := setG c r.1 s.ghost_paths,
          ghost_algorithms := setG c r.2.2 s.ghost_algorithms,
          stats := if c = .blue then r.2.1 else s.stats }
      else pure s
    let props :=
      if h : 1 < (s.ghost_paths c).length then
        props ++ [(c, (s.ghost_paths c).get ⟨1, h⟩)]
      else props
    level5_phase1 tm cs s props

/-- The no-conflict commit of the level-5 tick (lines 536-539): every
proposing ghost moves to its proposed cell and pops the consumed path head. -/
def level5_commitAll : List (GhostColor × Pos) → GameState → GameState
  | [], s => s
  | (c, np) :: rest, s =>
    level5_commitAll rest
      { s with
        ghost_positions := setG c (some np) s.ghost_positions,
        ghost_paths := setG c (s.ghost_paths c).tail s.ghost_paths }

/-- The conflict branch of the level-5 tick (lines 540-545): a ghost is
committed only when its proposed cell differs from every earlier ghost's
proposal (`positions[:index]`); a blocked ghost is left entirely unchanged. -/
def level5_commitConflict :
    List (GhostColor × Pos) → List Pos → GameState → GameState
  | [], _, s => s
  | (c, np) :: rest, earlier, s =>
    let s' :=
      if np ∈ earlier then s
      else
        { s with
          ghost_positions := setG c (some np) s.ghost_positions,
          ghost_paths := setG c (s.ghost_paths c).tail s.ghost_paths }
    level5_commitConflict rest (earlier ++ [np]) s'

/-- Level 5 tick body (lines 517-545). -/
def update_ghosts_level5 (active : List GhostColor)
    (tm : GhostColor → Int × Int) (s : GameState) : Option GameState := do
  let (s1, props) ← level5_phase1 tm active s []
  let positions := props.map Prod.snd
  if positions.Nodup then
    pure (level5_commitAll props s1)
  else
    pure (level5_commitConflict props [] s1)

/-- The per-ghost loop of the level-6 tick (lines 552-581).  `pp` is
`pacman_pos_tuple`, captured before the loop.  The second component is
`none` when the loop hit the capture branch (`reset_game()` followed by
`return`), and otherwise the `new_positions` list to commit. -/
def level6_loop (tm : GhostColor → Int × Int) (pp : Pos) :
    List GhostColor → GameState → List (GhostColor × Pos) → List Pos →
      Option (GameState × Option (List (GhostColor × Pos)))
  | [], s, props, _ => some (s, some props)
  | c :: cs, s, props, occupied => do
    let s ←
      if (s.ghost_paths c).length ≤ 1 then do
        let gp ← s.ghost_positions c
        let pacp ← s.pacman_pos
        let r := ghost_algorithm_search c s.maze (s.ghost_algorithms c)
          (tm c).1 (tm c).2 gp pacp
        pure { s with
          ghost_paths := setG c r.1 s.ghost_paths,
          ghost_algorithms := setG c r.2.2 s.ghost_algorithms,
          stats := if c = .blue then r.2.1 else s.stats }
      else pure s
    if h : 1 < (s.ghost_paths c).length then
      let np := (s.ghost_paths c).get ⟨1, h⟩
      if np ∈ occupied then
        level6_loop tm pp cs
          { s with ghost_paths := setG c [] s.ghost_paths } props occupied
      else if np = pp then
        pure (reset_game s, none)
      else
        level6_loop tm pp cs s (props ++ [(c, np)]) (occupied ++ [np])
    else
      level6_loop tm pp cs s props occupied

/-- Level 6 tick body (lines 546-586): the capture branch resets the game
and returns immediately; otherwise the surviving proposals are committed. -/
def update_ghosts_level6 (active : List GhostColor)
    (tm : GhostColor → Int × Int) (s : GameState) : Option GameState := do
  let pp ← s.pacman_pos
  let r ← level6_loop tm pp active s [] []
  match r with
  | (s1, none) => pure s1
  | (s1, some props) => pure (level5_commitAll props s1)

/-- The spec's cached-path invariant: a non-empty cached path starts at its
ghost's current position. -/
def PathsHeadInv (s : GameState) : Prop :=
  ∀ c, s.ghost_paths c ≠ [] → (s.ghost_paths c).head? = s.ghost_positions c

/-- The same invariant for the single shared `current_path` of levels 1-4,
whose agent is the blue ghost. -/
def CurrentHeadInv (s : GameState) : Prop :=
  s.current_path ≠ [] → s.current_path.head? = s.ghost_positions .blue

/-- Proposals recorded in phase 1: each is the second cell of its ghost's
(then longer than 1) cached path. -/
def propsConsistent (s : GameState) (props : List (GhostColor × Pos)) : Prop :=
  ∀ cp ∈ props, ∃ h : 1 < (s.ghost_paths cp.1).length,
    cp.2 = (s.ghost_paths cp.1).get ⟨1, h⟩

/-! ### The claims -/

def chain'b (m : Maze) : List Pos → Bool
  | x :: y :: rest => decide (isStep m x y) && chain'b m (y :: rest)
  | _ => true

def chain'bDec (m : Maze) (p : List Pos) : Decidable (List.Chain' (isStep m) p) :=
  decidable_of_iff (chain'b m p = true) (by
    induction p with
    | nil => simp [chain'b]
    | cons x rest ih =>
      cases rest with
      | nil => simp [chain'b]
      | cons y rest2 =>
        rw [List.chain'_cons]
        simp only [chain'b, Bool.and_eq_true, decide_eq_true_eq]
        rw [ih])

instance (m : Maze) (p : List Pos) : Decidable (List.Chain' (isStep m) p) :=
  chain'bDec m p

instance (m : Maze) (s t : Pos) (p : List Pos) : Decidable (PathFrom m s t p) :=
  inferInstanceAs (Decidable (p ≠ [] ∧ p.head? = some s ∧ p.getLast? = some t ∧
    List.Chain' (isStep m) p))

/-- A level-5 tick state in which blue (first in order) and pink both
propose moving into cell `(2, 0)`. -/
def tick5Example : GameState :=
  { maze := [[0, 0, 0, 0, 0]], original_maze := [[0, 0, 0, 0, 0]],
    pacman_pos := some (4, 0),
    ghost_positions := fun c => match c with
      | .blue => some (1, 0)
      | .pink => some (3, 0)
      | _ => none,
    ghost_paths := fun c => match c with
      | .blue => [(1, 0), (2, 0)]
      | .pink => [(3, 0), (2, 0)]
      | _ => [],
    ghost_algorithms := fun _ => SearchAlgorithm.init [[0, 0, 0, 0, 0]],
    current_path := [],
    stats := { expanded_nodes := 0, search_time := 0, memory_usage := 0 } }

/-- A level-6 tick state in which blue's next path cell is Pac-Man's
current position; the stored original maze has spawn tags (5 for Pac-Man,
4 for the blue ghost). -/
def tick6Example : GameState :=
  { maze := [[0, 0], [0, 1]], original_maze := [[5, 0], [4, 1]],
    pacman_pos := some (1, 0),
    ghost_positions := fun c => match c with
      | .blue => some (0, 0)
      | _ => none,
    ghost_paths := fun c => match c with
      | .blue => [(0, 0), (1, 0)]
      | _ => [],
    ghost_algorithms := fun _ => SearchAlgorithm.init [[0, 0], [0, 1]],
    current_path := [(9, 9)],
    stats := { expanded_nodes := 7, search_time := 0, memory_usage := 0 } }

instance (s : GameState) : Decidable (PathsHeadInv s) :=
  inferInstanceAs (Decidable (∀ c, s.ghost_paths c ≠ [] →
    (s.ghost_paths c).head? = s.ghost_positions c))

instance (s : GameState) : Decidable (CurrentHeadInv s) :=
  inferInstanceAs (Decidable (s.current_path ≠ [] →
    s.current_path.head? = s.ghost_positions .blue))

/-- A state for exercising the level-1 and level-5 ticks: the blue ghost
sits at the head of both cached paths. -/
def c6Example : GameState :=
  { tick5Example with current_path := [(1, 0), (2, 0)] }

def c6ExampleT1 : GameState :=
  { c6Example with
    ghost_positions := setG .blue (some (2, 0)) c6Example.ghost_positions,
    current_path := [(2, 0)] }

def c6ExampleT5 : GameState :=
  { c6Example with
    ghost_positions := setG .blue (some (2, 0)) c6Example.ghost_positions,
    ghost_paths := setG .blue [(2, 0)] c6Example.ghost_paths }

/-! ### Theorems -/

/-! ### Basic lemmas: association lists, the heap order, valid cells -/

theorem alookup_cons_self {α : Type} (l : List (Pos × α)) (k : Pos) (v : α) :
    alookup ((k, v) :: l) k = some v := by
  simp [alookup]

theorem alookup_cons_ne {α : Type} (l : List (Pos × α)) (k k' : Pos) (v : α)
    (h : k' ≠ k) : alookup ((k', v) :: l) k = alookup l k := by
  simp [alookup, h]

theorem alookup_isSome_mem_keys {α : Type} :
    ∀ (l : List (Pos × α)) (k : Pos), (alookup l k).isSome → k ∈ l.map Prod.fst
  | [], k, h => by simp [alookup] at h
  | (k', v) :: rest, k, h => by
    by_cases hk : k' = k
    · subst hk; simp
    · rw [alookup_cons_ne _ _ _ _ hk] at h
      exact List.mem_cons_of_mem _ (alookup_isSome_mem_keys rest k h)

theorem entryLE_total (a b : HEntry) : entryLE a b ∨ entryLE b a := by
  unfold entryLE; omega

theorem entryLE_trans {a b c : HEntry} (h1 : entryLE a b) (h2 : entryLE b c) :
    entryLE a c := by
  unfold entryLE at *; omega

theorem entryLE_fst {a b : HEntry} (h : entryLE a b) : a.1 ≤ b.1 := by
  unfold entryLE at h; omega

theorem mem_heapInsert (e x : HEntry) :
    ∀ l : List HEntry, x ∈ heapInsert e l ↔ x = e ∨ x ∈ l
  | [] => by simp [heapInsert]
  | y :: ys => by
    by_cases h : entryLE e y
    · simp only [heapInsert, if_pos h, List.mem_cons]
    · simp only [heapInsert, if_neg h, List.mem_cons, mem_heapInsert e x ys]
      tauto

theorem length_heapInsert (e : HEntry) :
    ∀ l : List HEntry, (heapInsert e l).length = l.length + 1
  | [] => by simp [heapInsert]
  | y :: ys => by
    by_cases h : entryLE e y
    · simp [heapInsert, h]
    · simp [heapInsert, h, length_heapInsert e ys]

theorem pairwise_heapInsert (e : HEntry) :
    ∀ l : List HEntry, List.Pairwise entryLE l →
      List.Pairwise entryLE (heapInsert e l)
  | [], _ => by simp [heapInsert]
  | y :: ys, hp => by
    rcases List.pairwise_cons.mp hp with ⟨hy, hys⟩
    unfold heapInsert
    by_cases h : entryLE e y
    · simp only [if_pos h]
      refine List.pairwise_cons.mpr ⟨?_, hp⟩
      intro z hz
      rcases List.mem_cons.mp hz with rfl | hz
      · exact h
      · exact entryLE_trans h (hy z hz)
    · simp only [if_neg h]
      refine List.pairwise_cons.mpr ⟨?_, pairwise_heapInsert e ys hys⟩
      intro z hz
      rcases (mem_heapInsert e z ys).mp hz with rfl | hz
      · rcases entryLE_total z y with h' | h'
        · exact absurd h' h
        · exact h'
      · exact hy z hz

theorem mem_allCells (m : Maze) (p : Pos) :
    p ∈ allCells m ↔
      0 ≤ p.1 ∧ p.1 < ((m.headD []).length : Int) ∧ 0 ≤ p.2 ∧ p.2 < (m.length : Int) := by
  rcases p with ⟨px, py⟩
  unfold allCells
  simp only [List.mem_flatMap, List.mem_map, List.mem_range, Prod.mk.injEq]
  constructor
  · rintro ⟨y, hy, x, hx, h1, h2⟩
    omega
  · rintro ⟨h1, h2, h3, h4⟩
    exact ⟨py.toNat, by omega, px.toNat, by omega, by omega, by omega⟩

theorem allCells_nodup (m : Maze) : (allCells m).Nodup := by
  unfold allCells
  rw [List.nodup_flatMap]
  constructor
  · intro y _
    refine List.Nodup.map ?_ (List.nodup_range _)
    intro x x' hxx
    simpa using hxx
  · have h1 : List.Pairwise (· ≠ ·) (List.range m.length) :=
      List.nodup_range _
    refine h1.imp ?_
    intro y y' hne p hp hp'
    simp only [List.mem_map, List.mem_range] at hp hp'
    rcases hp with ⟨x, _, hx⟩
    rcases hp' with ⟨x', _, hx'⟩
    apply hne
    rw [← hx] at hx'
    have h2 := congrArg Prod.snd hx'
    simp only [Nat.cast_inj] at h2
    omega

theorem validCells_nodup (m : Maze) : (validCells m).Nodup :=
  (allCells_nodup m).filter _

theorem mem_validCells (m : Maze) (p : Pos) :
    p ∈ validCells m ↔ is_valid_move m p.1 p.2 = true := by
  unfold validCells
  rw [List.mem_filter]
  constructor
  · exact fun h => h.2
  · intro hv
    refine ⟨?_, hv⟩
    rw [mem_allCells]
    unfold is_valid_move at hv
    simp only [Bool.and_eq_true, decide_eq_true_eq] at hv
    tauto

theorem valid_of_mem_neighbors {m : Maze} {x y : Int} {n : Pos}
    (h : n ∈ get_neighbors m x y) : is_valid_move m n.1 n.2 = true := by
  unfold get_neighbors at h
  exact (List.mem_filter.mp h).2

theorem isStep_valid {m : Maze} {u v : Pos} (h : isStep m u v) :
    is_valid_move m v.1 v.2 = true :=
  valid_of_mem_neighbors h

theorem isStep_mem_validCells {m : Maze} {u v : Pos} (h : isStep m u v) :
    v ∈ validCells m :=
  (mem_validCells m v).mpr (isStep_valid h)

theorem mem_neighbors_iff {m : Maze} {x y : Int} {n : Pos} :
    n ∈ get_neighbors m x y ↔
      is_valid_move m n.1 n.2 = true ∧
      ((n.1 = x ∧ n.2 = y - 1) ∨ (n.1 = x + 1 ∧ n.2 = y) ∨
       (n.1 = x ∧ n.2 = y + 1) ∨ (n.1 = x - 1 ∧ n.2 = y)) := by
  unfold get_neighbors directions
  rcases n with ⟨nx, ny⟩
  rw [List.mem_filter]
  simp only [List.map_cons, List.map_nil, List.mem_cons, List.mem_singleton,
    Prod.mk.injEq, List.not_mem_nil, or_false, decide_eq_true_eq]
  constructor
  · rintro ⟨h1, h2⟩
    exact ⟨h2, by rcases h1 with ⟨h, h'⟩ | ⟨h, h'⟩ | ⟨h, h'⟩ | ⟨h, h'⟩ <;> omega⟩
  · rintro ⟨h2, h1⟩
    exact ⟨by rcases h1 with ⟨h, h'⟩ | ⟨h, h'⟩ | ⟨h, h'⟩ | ⟨h, h'⟩ <;> omega, h2⟩

theorem isStep_ne {m : Maze} {u v : Pos} (h : isStep m u v) : v ≠ u := by
  rcases mem_neighbors_iff.mp h with ⟨_, hd⟩
  rcases u with ⟨ux, uy⟩; rcases v with ⟨vx, vy⟩
  intro h1
  rw [Prod.mk.injEq] at h1
  simp only at hd
  omega

theorem isStep_manhattan {m : Maze} {u v : Pos} (h : isStep m u v) :
    (u.1 - v.1).natAbs + (u.2 - v.2).natAbs = 1 := by
  rcases mem_neighbors_iff.mp h with ⟨_, hd⟩
  rcases u with ⟨ux, uy⟩; rcases v with ⟨vx, vy⟩
  simp only at *
  omega

/-! ### Path lemmas -/

theorem pathFrom_singleton (m : Maze) (s : Pos) : PathFrom m s s [s] := by
  refine ⟨by simp, by simp, by simp, by simp⟩

theorem reachable_self (m : Maze) (s : Pos) : Reachable m s s :=
  ⟨[s], pathFrom_singleton m s⟩

theorem pathFrom_length_pos {m : Maze} {s t : Pos} {p : List Pos}
    (h : PathFrom m s t p) : 1 ≤ p.length := by
  rcases h with ⟨h1, -, -, -⟩
  cases p
  · exact absurd rfl h1
  · simp

theorem pathFrom_snoc {m : Maze} {s t n : Pos} {p : List Pos}
    (h : PathFrom m s t p) (hs : isStep m t n) : PathFrom m s n (p ++ [n]) := by
  rcases h with ⟨h1, h2, h3, h4⟩
  refine ⟨by simp, ?_, ?_, ?_⟩
  · cases p
    · exact absurd rfl h1
    · simpa using h2
  · simp
  · rw [List.chain'_append]
    refine ⟨h4, by simp, ?_⟩
    intro x hx y hy
    simp only [List.head?_cons, Option.mem_def, Option.some.injEq] at hy
    subst hy
    rw [h3] at hx
    simp only [Option.mem_def, Option.some.injEq] at hx
    subst hx
    exact hs

theorem reachable_step {m : Maze} {s t n : Pos} (h : Reachable m s t)
    (hs : isStep m t n) : Reachable m s n := by
  rcases h with ⟨p, hp⟩
  exact ⟨p ++ [n], pathFrom_snoc hp hs⟩

theorem pathFrom_trans {m : Maze} {s y t : Pos} {p₁ p₂ : List Pos}
    (h1 : PathFrom m s y p₁) (h2 : PathFrom m y t p₂) :
    PathFrom m s t (p₁ ++ p₂.tail) ∧
      (p₁ ++ p₂.tail).length + 1 = p₁.length + p₂.length := by
  rcases h2 with ⟨h2a, h2b, h2c, h2d⟩
  rcases p₂ with _ | ⟨y', rest⟩
  · exact absurd rfl h2a
  simp only [List.head?_cons, Option.some.injEq] at h2b
  subst h2b
  rcases h1 with ⟨h1a, h1b, h1c, h1d⟩
  constructor
  · refine ⟨by simp [h1a], ?_, ?_, ?_⟩
    · rcases p₁ with _ | ⟨a, t₁⟩
      · exact absurd rfl h1a
      · simpa using h1b
    · rcases rest with _ | ⟨r, rest'⟩
      · simp only [List.getLast?_singleton, Option.some.injEq] at h2c
        subst h2c
        simpa using h1c
      · rw [List.getLast?_append_of_ne_nil _ (by simp)]
        simpa using h2c
    · rw [List.chain'_append]
      refine ⟨h1d, (List.chain'_cons'.mp h2d).2, ?_⟩
      intro x hx r hr
      rw [h1c] at hx
      simp only [Option.mem_def, Option.some.injEq] at hx
      subst hx
      exact (List.chain'_cons'.mp h2d).1 r hr
  · simp only [List.tail_cons, List.length_append, List.length_cons]
    omega

theorem pathFrom_split {m : Maze} {s t : Pos} {p p₁ p₂ : List Pos} {y : Pos}
    (h : PathFrom m s t p) (hsplit : p = p₁ ++ y :: p₂) :
    PathFrom m s y (p₁ ++ [y]) ∧ PathFrom m y t (y :: p₂) := by
  rcases h with ⟨h1, h2, h3, h4⟩
  subst hsplit
  have hch := List.chain'_append.mp (show List.Chain' (isStep m) ((p₁ ++ [y]) ++ p₂) by
    simpa using h4)
  constructor
  · refine ⟨by simp, ?_, by simp, hch.1⟩
    rcases p₁ with _ | ⟨a, t₁⟩
    · simpa using h2
    · simpa using h2
  · refine ⟨by simp, by simp, ?_, (List.chain'_append.mp h4).2.1⟩
    rw [List.getLast?_append_of_ne_nil _ (by simp)] at h3
    exact h3

theorem shortest_exists {m : Maze} {s t : Pos} (h : Reachable m s t) :
    ∃ k, IsShortestLen m s t k := by
  classical
  rcases h with ⟨p, hp⟩
  set S : Set Nat := {n | ∃ q, PathFrom m s t q ∧ q.length = n + 1} with hS
  have hne : S.Nonempty := by
    refine ⟨p.length - 1, p, hp, ?_⟩
    have := pathFrom_length_pos hp
    omega
  refine ⟨sInf S, ?_, ?_⟩
  · exact Nat.sInf_mem hne
  · intro q hq
    have hmem : q.length - 1 ∈ S := by
      refine ⟨q, hq, ?_⟩
      have := pathFrom_length_pos hq
      omega
    have := Nat.sInf_le hmem
    have := pathFrom_length_pos hq
    omega

theorem shortest_unique {m : Maze} {s t : Pos} {k k' : Nat}
    (h : IsShortestLen m s t k) (h' : IsShortestLen m s t k') : k = k' := by
  rcases h.1 with ⟨p, hp, hl⟩
  rcases h'.1 with ⟨p', hp', hl'⟩
  have := h.2 p' hp'
  have := h'.2 p hp
  omega

theorem shortest_self (m : Maze) (s : Pos) : IsShortestLen m s s 0 := by
  refine ⟨⟨[s], pathFrom_singleton m s, by simp⟩, ?_⟩
  intro p hp
  exact pathFrom_length_pos hp

theorem shortest_reachable {m : Maze} {s t : Pos} {k : Nat}
    (h : IsShortestLen m s t k) : Reachable m s t := by
  rcases h.1 with ⟨p, hp, -⟩
  exact ⟨p, hp⟩

theorem shortest_le_succ_of_step {m : Maze} {s u v : Pos} {d k : Nat}
    (hu : IsShortestLen m s u d) (hs : isStep m u v)
    (hv : IsShortestLen m s v k) : k ≤ d + 1 := by
  rcases hu.1 with ⟨p, hp, hl⟩
  have h2 := pathFrom_snoc hp hs
  have := hv.2 _ h2
  simp at this
  omega

theorem exists_first_not_mem (A : Pos → Prop) :
    ∀ p : List Pos, (∃ x ∈ p, ¬A x) →
      ∃ p₁ y p₂, p = p₁ ++ y :: p₂ ∧ (∀ x ∈ p₁, A x) ∧ ¬A y := by
  classical
  intro p
  induction p with
  | nil => rintro ⟨x, hx, -⟩; simp at hx
  | cons a rest ih =>
    intro hex
    by_cases ha : A a
    · have hex' : ∃ x ∈ rest, ¬A x := by
        rcases hex with ⟨x, hx, hnx⟩
        rcases List.mem_cons.mp hx with rfl | hx
        · exact absurd ha hnx
        · exact ⟨x, hx, hnx⟩
      rcases ih hex' with ⟨p₁, y, p₂, heq, hall, hy⟩
      exact ⟨a :: p₁, y, p₂, by simp [heq], by
        intro x hx
        rcases List.mem_cons.mp hx with rfl | hx
        · exact ha
        · exact hall x hx, hy⟩
    · exact ⟨[], a, rest, by simp, by simp, ha⟩

theorem shortest_split {m : Maze} {s t : Pos} {k : Nat} {p p₁ p₂ : List Pos} {y : Pos}
    (h : IsShortestLen m s t k) (hp : PathFrom m s t p) (hl : p.length = k + 1)
    (hsplit : p = p₁ ++ y :: p₂) : IsShortestLen m s y p₁.length := by
  rcases pathFrom_split hp hsplit with ⟨hpre, hsuf⟩
  refine ⟨⟨p₁ ++ [y], hpre, by simp⟩, ?_⟩
  intro q hq
  have hcat := pathFrom_trans hq hsuf
  have := h.2 _ hcat.1
  have hlen : p.length = p₁.length + 1 + p₂.length := by
    simp only [hsplit, List.length_append, List.length_cons]
    omega
  have h2 := hcat.2
  simp only [List.length_cons] at h2
  omega

theorem not_nodup_split {α : Type} [DecidableEq α] :
    ∀ l : List α, ¬l.Nodup → ∃ (a : α) (l₁ l₂ l₃ : List α), l = l₁ ++ a :: l₂ ++ a :: l₃
  | [], h => absurd List.nodup_nil h
  | b :: t, h => by
    by_cases hb : b ∈ t
    · rcases List.append_of_mem hb with ⟨l₂, l₃, rfl⟩
      exact ⟨b, [], l₂, l₃, by simp⟩
    · have ht : ¬t.Nodup := by
        intro ht
        exact h (List.nodup_cons.mpr ⟨hb, ht⟩)
      rcases not_nodup_split t ht with ⟨a, l₁, l₂, l₃, rfl⟩
      exact ⟨a, b :: l₁, l₂, l₃, by simp⟩

theorem chain'_shorten {R : Pos → Pos → Prop} :
    ∀ fuel : Nat, ∀ p : List Pos, p.length ≤ fuel → List.Chain' R p →
      ∃ q : List Pos, List.Chain' R q ∧ q.Nodup ∧ q.head? = p.head? ∧
        q.getLast? = p.getLast? ∧ q.length ≤ p.length
  | 0, p, hf, hc => by
    have : p = [] := by
      cases p
      · rfl
      · simp at hf
    subst this
    exact ⟨[], by simp, by simp, rfl, rfl, le_refl _⟩
  | fuel + 1, p, hf, hc => by
    by_cases hnd : p.Nodup
    · exact ⟨p, hc, hnd, rfl, rfl, le_refl _⟩
    rcases not_nodup_split p hnd with ⟨a, l₁, l₂, l₃, rfl⟩
    have hc1 : List.Chain' R ((l₁ ++ [a]) ++ l₂ ++ a :: l₃) := by
      simpa using hc
    have hpre : List.Chain' R (l₁ ++ [a]) := by
      rw [List.append_assoc] at hc1
      exact (List.chain'_append.mp hc1).1
    have hsuf : List.Chain' R (a :: l₃) := by
      have hc2 : List.Chain' R ((l₁ ++ a :: l₂) ++ a :: l₃) := by
        simpa using hc
      exact (List.chain'_append.mp hc2).2.1
    have hshort : List.Chain' R (l₁ ++ a :: l₃) := by
      have : l₁ ++ a :: l₃ = (l₁ ++ [a]) ++ l₃ := by simp
      rw [this, List.chain'_append]
      refine ⟨hpre, (List.chain'_cons'.mp hsuf).2, ?_⟩
      intro x hx y hy
      rw [List.getLast?_append_of_ne_nil _ (by simp)] at hx
      simp only [List.getLast?_singleton, Option.mem_def, Option.some.injEq] at hx
      subst hx
      exact (List.chain'_cons'.mp hsuf).1 y hy
    have hlt : (l₁ ++ a :: l₃).length ≤ fuel := by
      simp only [List.length_append, List.length_cons] at hf ⊢
      omega
    rcases chain'_shorten fuel (l₁ ++ a :: l₃) hlt hshort with
      ⟨q, hq1, hq2, hq3, hq4, hq5⟩
    refine ⟨q, hq1, hq2, ?_, ?_, ?_⟩
    · rw [hq3]
      rcases l₁ with _ | ⟨x, t₁⟩ <;> simp
    · rw [hq4]
      have e2 : l₁ ++ a :: l₂ ++ a :: l₃ = (l₁ ++ a :: l₂) ++ a :: l₃ := by simp
      rw [e2, List.getLast?_append_of_ne_nil _ (by simp),
        List.getLast?_append_of_ne_nil _ (by simp)]
    · simp only [List.length_append, List.length_cons] at hq5 ⊢
      omega

theorem pathFrom_nodup {m : Maze} {s t : Pos} {p : List Pos}
    (h : PathFrom m s t p) :
    ∃ q, PathFrom m s t q ∧ q.Nodup ∧ q.length ≤ p.length := by
  rcases h with ⟨h1, h2, h3, h4⟩
  rcases chain'_shorten p.length p (le_refl _) h4 with ⟨q, hq1, hq2, hq3, hq4, hq5⟩
  refine ⟨q, ⟨?_, by rw [hq3]; exact h2, by rw [hq4]; exact h3, hq1⟩, hq2, hq5⟩
  intro hq
  subst hq
  rw [List.head?_nil] at hq3
  rw [← hq3] at h2
  cases p
  · exact h1 rfl
  · simp at h2

theorem chain'_tail_valid {m : Maze} :
    ∀ p : List Pos, List.Chain' (isStep m) p → ∀ x ∈ p.tail, x ∈ validCells m := by
  intro p
  induction p with
  | nil => intro _ x hx; simp at hx
  | cons a rest ih =>
    intro hc x hx
    simp only [List.tail_cons] at hx
    rcases rest with _ | ⟨b, t⟩
    · simp at hx
    · rcases List.mem_cons.mp hx with rfl | hx'
      · exact isStep_mem_validCells (List.chain'_cons.mp hc).1
      · exact ih (List.chain'_cons.mp hc).2 x (by simpa using hx')

theorem pathFrom_mem_valid {m : Maze} {s t : Pos} {p : List Pos}
    (h : PathFrom m s t p) : ∀ x ∈ p, x = s ∨ x ∈ validCells m := by
  intro x hx
  rcases h with ⟨h1, h2, -, h4⟩
  rcases p with _ | ⟨a, rest⟩
  · exact absurd rfl h1
  simp only [List.head?_cons, Option.some.injEq] at h2
  subst h2
  rcases List.mem_cons.mp hx with rfl | hx'
  · exact Or.inl rfl
  · exact Or.inr (chain'_tail_valid _ h4 x (by simpa using hx'))

theorem nodup_subset_length {α : Type} [DecidableEq α] {q l : List α}
    (hq : q.Nodup) (hsub : ∀ x ∈ q, x ∈ l) : q.length ≤ l.length := by
  calc q.length = q.toFinset.card := (List.toFinset_card_of_nodup hq).symm
    _ ≤ l.toFinset.card := by
        apply Finset.card_le_card
        intro x hx
        rw [List.mem_toFinset] at hx ⊢
        exact hsub x hx
    _ ≤ l.length := List.toFinset_card_le l

theorem shortest_le_validCells {m : Maze} {s t : Pos} {k : Nat}
    (h : IsShortestLen m s t k) : k ≤ (validCells m).length := by
  rcases h.1 with ⟨p, hp, hl⟩
  rcases pathFrom_nodup hp with ⟨q, hq, hnd, hqle⟩
  have hmin := h.2 q hq
  have hsub : ∀ x ∈ q, x ∈ s :: validCells m := by
    intro x hx
    rcases pathFrom_mem_valid hq x hx with rfl | hv
    · exact List.mem_cons_self _ _
    · exact List.mem_cons_of_mem _ hv
  have := nodup_subset_length hnd hsub
  simp only [List.length_cons] at this
  omega

theorem chain'_heuristic_le {m : Maze} {h : Pos → Nat}
    (hcons : ∀ u v, isStep m u v → h u ≤ h v + 1) :
    ∀ p : List Pos, List.Chain' (isStep m) p →
      ∀ a ∈ p.head?, ∀ b ∈ p.getLast?, h a ≤ (p.length - 1) + h b := by
  intro p
  induction p with
  | nil => intro _ a ha; simp at ha
  | cons x rest ih =>
    intro hc a ha b hb
    simp only [List.head?_cons, Option.mem_def, Option.some.injEq] at ha
    subst ha
    rcases rest with _ | ⟨y, t⟩
    · simp only [List.getLast?_singleton, Option.mem_def, Option.some.injEq] at hb
      subst hb
      simp
    · have h1 := (List.chain'_cons.mp hc).1
      have h2 : h y ≤ ((y :: t).length - 1) + h b :=
        ih (List.chain'_cons.mp hc).2 y (by simp) b (by simpa using hb)
      have h3 := hcons _ _ h1
      simp only [List.length_cons] at h2 ⊢
      omega

theorem manhattan_consistent {m : Maze} {goal u v : Pos} (h : isStep m u v) :
    AStarAlgorithm.heuristic u goal ≤ AStarAlgorithm.heuristic v goal + 1 := by
  have := isStep_manhattan h
  unfold AStarAlgorithm.heuristic
  rcases u with ⟨ux, uy⟩; rcases v with ⟨vx, vy⟩; rcases goal with ⟨gx, gy⟩
  simp only at this ⊢
  omega

theorem zero_consistent (m : Maze) :
    ∀ u v : Pos, isStep m u v → (fun _ : Pos => (0 : Nat)) u ≤ (fun _ : Pos => (0 : Nat)) v + 1 := by
  intro u v _
  simp

/-! ### Parent chains

`PChain pm start v l` says that following the parent map from `v` produces
exactly the list `l`, ending at `start` (whose recorded parent is `None`).
The Python reconstruction loop `walkParents` computes this list. -/

theorem pchain_ne_nil {pm : PMap} {start v : Pos} {l : List Pos}
    (h : PChain pm start v l) : l ≠ [] := by
  cases h <;> simp

theorem pchain_head {pm : PMap} {start v : Pos} {l : List Pos}
    (h : PChain pm start v l) : l.head? = some v := by
  cases h <;> simp

theorem pchain_last {pm : PMap} {start v : Pos} {l : List Pos}
    (h : PChain pm start v l) : l.getLast? = some start := by
  induction h with
  | base _ => simp
  | step v u l _ hc ih =>
    have := pchain_ne_nil hc
    rcases l with _ | ⟨a, t⟩
    · exact absurd rfl this
    · simpa using ih

theorem pchain_mem_keys {pm : PMap} {start v : Pos} {l : List Pos}
    (h : PChain pm start v l) : ∀ x ∈ l, (alookup pm x).isSome := by
  induction h with
  | base hb => intro x hx; simp only [List.mem_singleton] at hx; subst hx; simp [hb]
  | step v u l hv hc ih =>
    intro x hx
    rcases List.mem_cons.mp hx with rfl | hx
    · simp [hv]
    · exact ih x hx

theorem pchain_len {pm : PMap} {start v : Pos} {l : List Pos}
    (h : PChain pm start v l) : 1 ≤ l.length := by
  have := pchain_ne_nil h
  cases l
  · exact absurd rfl this
  · simp

/-- `walkParents` computes the parent chain once the fuel covers its length. -/
theorem pchain_walk {pm : PMap} {start : Pos} :
    ∀ {v : Pos} {l : List Pos}, PChain pm start v l →
      ∀ fuel : Nat, l.length ≤ fuel + 1 → walkParents pm fuel v = l := by
  intro v l h
  induction h with
  | base hb =>
    intro fuel _
    cases fuel with
    | zero => simp [walkParents]
    | succ f => simp [walkParents, hb]
  | step v u l hv hc ih =>
    intro fuel hf
    have h1 := pchain_len hc
    cases fuel with
    | zero => simp only [List.length_cons] at hf; omega
    | succ f =>
      simp only [walkParents, hv]
      rw [ih f (by simp only [List.length_cons] at hf; omega)]

/-- A parent chain is a reversed path: consecutive elements are linked
backwards by the edge relation recorded in the map. -/
theorem pchain_chain' {pm : PMap} {start : Pos} {m : Maze}
    (hedge : ∀ v u, alookup pm v = some (some u) → isStep m u v) :
    ∀ {v : Pos} {l : List Pos}, PChain pm start v l →
      List.Chain' (fun a b => isStep m b a) l := by
  intro v l h
  induction h with
  | base _ => simp
  | step v u l hv hc ih =>
    rcases l with _ | ⟨a, t⟩
    · exact absurd rfl (pchain_ne_nil hc)
    · have ha : a = u := by
        have := pchain_head hc
        simpa using this
      subst ha
      exact List.chain'_cons.mpr ⟨hedge _ _ hv, ih⟩

/-- The reversed parent chain is a genuine path from `start` to `v`. -/
theorem pchain_pathFrom {pm : PMap} {start : Pos} {m : Maze} {v : Pos} {l : List Pos}
    (hedge : ∀ v u, alookup pm v = some (some u) → isStep m u v)
    (h : PChain pm start v l) : PathFrom m start v l.reverse := by
  refine ⟨by simpa using pchain_ne_nil h, ?_, ?_, ?_⟩
  · rw [List.head?_reverse]
    exact pchain_last h
  · rw [List.getLast?_reverse]
    exact pchain_head h
  · rw [List.chain'_reverse]
    exact pchain_chain' hedge h

/-- Ranked parent maps produce duplicate-free chains. -/
theorem pchain_nodup {pm : PMap} {start : Pos} {r : Pos → Nat}
    (hrank : ∀ v u, alookup pm v = some (some u) → r u < r v) :
    ∀ {v : Pos} {l : List Pos}, PChain pm start v l → l.Nodup ∧ ∀ x ∈ l, r x ≤ r v := by
  intro v l h
  induction h with
  | base _ => simp
  | step v u l hv hc ih =>
    have hu := hrank v u hv
    have hru : ∀ x ∈ l, r x ≤ r u := ih.2
    constructor
    · rw [List.nodup_cons]
      refine ⟨?_, ih.1⟩
      intro hvl
      have := hru v hvl
      omega
    · intro x hx
      rcases List.mem_cons.mp hx with rfl | hx
      · exact le_refl _
      · have := hru x hx
        omega

/-- Extending the map with a fresh key preserves existing chains. -/
theorem pchain_extend {pm : PMap} {start n : Pos} {w : Option Pos}
    (hn : alookup pm n = none) :
    ∀ {v : Pos} {l : List Pos}, PChain pm start v l → PChain ((n, w) :: pm) start v l := by
  intro v l h
  induction h with
  | base hb =>
    refine PChain.base ?_
    rw [alookup_cons_ne]
    · exact hb
    · intro he; rw [he] at hn; rw [hn] at hb; cases hb
  | step v u l hv hc ih =>
    refine PChain.step v u l ?_ ih
    rw [alookup_cons_ne]
    · exact hv
    · intro he; rw [he] at hn; rw [hn] at hv; cases hv

/-- Existence of parent chains for every key of a ranked, anchored map. -/
theorem pchain_exists {pm : PMap} {start : Pos} {r : Pos → Nat}
    (hrank : ∀ v u, alookup pm v = some (some u) → r u < r v)
    (hclosed : ∀ v u, alookup pm v = some (some u) → (alookup pm u).isSome)
    (hnone : ∀ v, alookup pm v = some none → v = start) :
    ∀ v, (alookup pm v).isSome → ∃ l, PChain pm start v l := by
  have H : ∀ n : Nat, ∀ v : Pos, (alookup pm v).isSome → r v ≤ n →
      ∃ l, PChain pm start v l := by
    intro n
    induction n with
    | zero =>
      intro v hv hle
      match hvv : alookup pm v with
      | some none =>
        have := hnone v hvv
        subst this
        exact ⟨[v], PChain.base hvv⟩
      | some (some u) =>
        have h1 := hrank v u hvv
        omega
      | none => rw [hvv] at hv; cases hv
    | succ n ih =>
      intro v hv hle
      match hvv : alookup pm v with
      | some none =>
        have := hnone v hvv
        subst this
        exact ⟨[v], PChain.base hvv⟩
      | some (some u) =>
        have h1 := hrank v u hvv
        have h2 := hclosed v u hvv
        rcases ih u h2 (by omega) with ⟨l, hl⟩
        exact ⟨v :: l, PChain.step v u l hvv hl⟩
      | none => rw [hvv] at hv; cases hv
  intro v hv
  exact H (r v) v hv (le_refl _)

/-- The chain of a ranked map fits in fuel `pm.length`: its elements are
distinct keys of the map. -/
theorem pchain_length_le {pm : PMap} {start : Pos} {r : Pos → Nat}
    (hrank : ∀ v u, alookup pm v = some (some u) → r u < r v)
    {v : Pos} {l : List Pos} (h : PChain pm start v l) : l.length ≤ pm.length := by
  have hnd := (pchain_nodup hrank h).1
  have hsub : ∀ x ∈ l, x ∈ pm.map Prod.fst := by
    intro x hx
    exact alookup_isSome_mem_keys pm x (pchain_mem_keys h x hx)
  have := nodup_subset_length hnd hsub
  simpa using this

/-! ### Facts about the BFS/DFS loop -/

theorem bdPop_none {lifo : Bool} {f : List Pos} :
    bdPop lifo f = none ↔ f = [] := by
  cases lifo <;> unfold bdPop <;> rcases f with _ | ⟨a, t⟩ <;>
    simp [List.getLast?_eq_getLast_of_ne_nil]

theorem bdPop_some {lifo : Bool} {f : List Pos} {c : Pos} {rest : List Pos}
    (h : bdPop lifo f = some (c, rest)) :
    c ∈ f ∧ (∀ x ∈ rest, x ∈ f) ∧ (∀ x ∈ f, x = c ∨ x ∈ rest) ∧
      f.length = rest.length + 1 := by
  cases lifo
  · unfold bdPop at h
    rcases f with _ | ⟨a, t⟩
    · simp at h
    · simp only [Bool.false_eq_true, if_false] at h
      cases h
      refine ⟨by simp, by intro x hx; simp [hx], by intro x hx; simpa using hx, by simp⟩
  · unfold bdPop at h
    simp only [if_true] at h
    rcases hf : f.getLast? with _ | a
    · rw [hf] at h; simp at h
    · rw [hf] at h
      simp only [Option.some.injEq, Prod.mk.injEq] at h
      rcases h with ⟨rfl, rfl⟩
      have hdl := List.dropLast_append_getLast? a hf
      constructor
      · rw [← hdl]; simp
      constructor
      · intro x hx; rw [← hdl]; exact List.mem_append_left _ hx
      constructor
      · intro x hx
        rw [← hdl] at hx
        rcases List.mem_append.mp hx with h1 | h1
        · exact Or.inr h1
        · simp only [List.mem_singleton] at h1; exact Or.inl h1
      · rw [← hdl]; simp

theorem bdPop_fifo {f : List Pos} {c : Pos} {rest : List Pos} :
    bdPop false f = some (c, rest) ↔ f = c :: rest := by
  unfold bdPop
  rcases f with _ | ⟨a, t⟩ <;> simp

/-- Removing one fresh element of a duplicate-free list from the
complement count. -/
theorem count_filter_cons {l : List Pos} (hl : l.Nodup) {n : Pos} {vis : List Pos}
    (hn : n ∈ l) (hnv : n ∉ vis) :
    (l.filter (fun x => decide (x ∉ n :: vis))).length + 1 =
      (l.filter (fun x => decide (x ∉ vis))).length := by
  induction l with
  | nil => simp at hn
  | cons a t ih =>
    rcases List.nodup_cons.mp hl with ⟨hat, ht⟩
    rcases List.mem_cons.mp hn with rfl | hn'
    · have h1 : (decide (n ∉ n :: vis)) = false := by simp
      have h2 : (decide (n ∉ vis)) = true := by simpa using hnv
      simp only [List.filter_cons, h1, h2, if_false, if_true, List.length_cons]
      have : t.filter (fun x => decide (x ∉ n :: vis)) = t.filter (fun x => decide (x ∉ vis)) := by
        apply List.filter_congr
        intro x hx
        have hxa : x ≠ n := by intro h0; subst h0; exact hat hx
        simp [hxa]
      rw [this]
      simp
    · have hna : a ≠ n := by intro h0; subst h0; exact hat hn'
      by_cases hav : a ∈ vis
      · have h1 : (decide (a ∉ n :: vis)) = false := by simp [hav]
        have h2 : (decide (a ∉ vis)) = false := by simpa using hav
        simp only [List.filter_cons, h1, h2, if_false]
        exact ih ht hn'
      · have h1 : (decide (a ∉ n :: vis)) = true := by simp [hav, hna]
        have h2 : (decide (a ∉ vis)) = true := by simpa using hav
        simp only [List.filter_cons, h1, h2, if_true, List.length_cons]
        have := ih ht hn'
        omega

/-- A parent map whose relevant lookups are preserved preserves chains. -/
theorem pchain_congr {pm0 pm1 : PMap} {start : Pos}
    (hpres : ∀ x, (alookup pm0 x).isSome → alookup pm1 x = alookup pm0 x) :
    ∀ {v : Pos} {l : List Pos}, PChain pm0 start v l → PChain pm1 start v l := by
  intro v l h
  induction h with
  | base hb => exact PChain.base (by rw [hpres start (by simp [hb])]; exact hb)
  | step v u l hv hc ih => exact PChain.step v u l (by rw [hpres v (by simp [hv])]; exact hv) ih

theorem bdVisit_vis_sub (c : Pos) :
    ∀ (ns f vis : List Pos) (pm : PMap),
      ∀ v ∈ vis, v ∈ (bdVisit c ns (f, vis, pm)).2.1
  | [], f, vis, pm => by intro v hv; simpa [bdVisit] using hv
  | n :: ns, f, vis, pm => by
    intro v hv
    by_cases h : n ∈ vis
    · simpa [bdVisit, h] using bdVisit_vis_sub c ns f vis pm v hv
    · simpa [bdVisit, h] using
        bdVisit_vis_sub c ns (f ++ [n]) (n :: vis) ((n, some c) :: pm) v
          (List.mem_cons_of_mem _ hv)

theorem bdVisit_cover (c : Pos) :
    ∀ (ns f vis : List Pos) (pm : PMap),
      ∀ n ∈ ns, n ∈ (bdVisit c ns (f, vis, pm)).2.1
  | [], f, vis, pm => by intro n hn; simp at hn
  | n :: ns, f, vis, pm => by
    intro x hx
    by_cases h : n ∈ vis
    · rcases List.mem_cons.mp hx with rfl | hx'
      · simpa [bdVisit, h] using bdVisit_vis_sub c ns f vis pm x h
      · simpa [bdVisit, h] using bdVisit_cover c ns f vis pm x hx'
    · rcases List.mem_cons.mp hx with rfl | hx'
      · simpa [bdVisit, h] using
          bdVisit_vis_sub c ns (f ++ [x]) (x :: vis) ((x, some c) :: pm) x
            (List.mem_cons_self _ _)
      · simpa [bdVisit, h] using
          bdVisit_cover c ns (f ++ [n]) (n :: vis) ((n, some c) :: pm) x hx'

theorem bdVisit_origin (c : Pos) :
    ∀ (ns f vis : List Pos) (pm : PMap),
      ∀ v ∈ (bdVisit c ns (f, vis, pm)).2.1, v ∈ vis ∨ v ∈ ns
  | [], f, vis, pm => by intro v hv; simp [bdVisit] at hv; exact Or.inl hv
  | n :: ns, f, vis, pm => by
    intro v hv
    by_cases h : n ∈ vis
    · rcases bdVisit_origin c ns f vis pm v (by simpa [bdVisit, h] using hv) with h1 | h1
      · exact Or.inl h1
      · exact Or.inr (List.mem_cons_of_mem _ h1)
    · rcases bdVisit_origin c ns (f ++ [n]) (n :: vis) ((n, some c) :: pm) v
        (by simpa [bdVisit, h] using hv) with h1 | h1
      · rcases List.mem_cons.mp h1 with rfl | h1
        · exact Or.inr (List.mem_cons_self _ _)
        · exact Or.inl h1
      · exact Or.inr (List.mem_cons_of_mem _ h1)

theorem bdVisit_oldPm (c : Pos) :
    ∀ (ns f vis : List Pos) (pm : PMap),
      ∀ v ∈ vis, alookup (bdVisit c ns (f, vis, pm)).2.2 v = alookup pm v
  | [], f, vis, pm => by intro v _; simp [bdVisit]
  | n :: ns, f, vis, pm => by
    intro v hv
    by_cases h : n ∈ vis
    · simpa [bdVisit, h] using bdVisit_oldPm c ns f vis pm v hv
    · have hne : n ≠ v := by intro h0; subst h0; exact h hv
      have := bdVisit_oldPm c ns (f ++ [n]) (n :: vis) ((n, some c) :: pm) v
        (List.mem_cons_of_mem _ hv)
      simp only [bdVisit, if_neg h]
      rw [this, alookup_cons_ne _ _ _ _ hne]

theorem bdVisit_keysVis (c : Pos) :
    ∀ (ns f vis : List Pos) (pm : PMap),
      (∀ v : Pos, (alookup pm v).isSome ↔ v ∈ vis) →
      ∀ v : Pos, (alookup (bdVisit c ns (f, vis, pm)).2.2 v).isSome ↔
        v ∈ (bdVisit c ns (f, vis, pm)).2.1
  | [], f, vis, pm => by intro hK v; simpa [bdVisit] using hK v
  | n :: ns, f, vis, pm => by
    intro hK v
    by_cases h : n ∈ vis
    · simpa [bdVisit, h] using bdVisit_keysVis c ns f vis pm hK v
    · have hK' : ∀ v : Pos, (alookup ((n, some c) :: pm) v).isSome ↔ v ∈ n :: vis := by
        intro w
        by_cases hw : n = w
        · subst hw; simp [alookup_cons_self]
        · rw [alookup_cons_ne _ _ _ _ hw]
          rw [hK w]
          simp only [List.mem_cons]
          constructor
          · exact Or.inr
          · rintro (rfl | hw')
            · exact absurd rfl hw
            · exact hw'
      simpa [bdVisit, h] using
        bdVisit_keysVis c ns (f ++ [n]) (n :: vis) ((n, some c) :: pm) hK' v

theorem bdVisit_newPm (c : Pos) :
    ∀ (ns f vis : List Pos) (pm : PMap),
      ∀ (v u : Pos), alookup (bdVisit c ns (f, vis, pm)).2.2 v = some (some u) →
        alookup pm v = some (some u) ∨ (u = c ∧ v ∈ ns)
  | [], f, vis, pm => by intro v u hv; simp [bdVisit] at hv; exact Or.inl hv
  | n :: ns, f, vis, pm => by
    intro v u hv
    by_cases h : n ∈ vis
    · rcases bdVisit_newPm c ns f vis pm v u (by simpa [bdVisit, h] using hv) with h1 | h1
      · exact Or.inl h1
      · exact Or.inr ⟨h1.1, List.mem_cons_of_mem _ h1.2⟩
    · rcases bdVisit_newPm c ns (f ++ [n]) (n :: vis) ((n, some c) :: pm) v u
        (by simpa [bdVisit, h] using hv) with h1 | h1
      · by_cases hnv : n = v
        · subst hnv
          rw [alookup_cons_self] at h1
          cases h1
          exact Or.inr ⟨rfl, List.mem_cons_self _ _⟩
        · rw [alookup_cons_ne _ _ _ _ hnv] at h1
          exact Or.inl h1
      · exact Or.inr ⟨h1.1, List.mem_cons_of_mem _ h1.2⟩

theorem bdVisit_nonePm (c : Pos) :
    ∀ (ns f vis : List Pos) (pm : PMap),
      ∀ v : Pos, alookup (bdVisit c ns (f, vis, pm)).2.2 v = some none →
        alookup pm v = some none
  | [], f, vis, pm => by intro v hv; simpa [bdVisit] using hv
  | n :: ns, f, vis, pm => by
    intro v hv
    by_cases h : n ∈ vis
    · exact bdVisit_nonePm c ns f vis pm v (by simpa [bdVisit, h] using hv)
    · have h1 := bdVisit_nonePm c ns (f ++ [n]) (n :: vis) ((n, some c) :: pm) v
        (by simpa [bdVisit, h] using hv)
      by_cases hnv : n = v
      · subst hnv
        rw [alookup_cons_self] at h1
        cases h1
      · rw [alookup_cons_ne _ _ _ _ hnv] at h1
        exact h1

theorem bdVisit_nodup (c : Pos) :
    ∀ (ns f vis : List Pos) (pm : PMap),
      vis.Nodup → (bdVisit c ns (f, vis, pm)).2.1.Nodup
  | [], f, vis, pm => by intro hv; simpa [bdVisit] using hv
  | n :: ns, f, vis, pm => by
    intro hv
    by_cases h : n ∈ vis
    · simpa [bdVisit, h] using bdVisit_nodup c ns f vis pm hv
    · simpa [bdVisit, h] using
        bdVisit_nodup c ns (f ++ [n]) (n :: vis) ((n, some c) :: pm)
          (List.nodup_cons.mpr ⟨h, hv⟩)

theorem bdVisit_front (c : Pos) :
    ∀ (ns f vis : List Pos) (pm : PMap),
      ∀ v : Pos, v ∈ (bdVisit c ns (f, vis, pm)).1 ↔
        v ∈ f ∨ (v ∈ (bdVisit c ns (f, vis, pm)).2.1 ∧ v ∉ vis)
  | [], f, vis, pm => by
    intro v
    simp only [bdVisit]
    tauto
  | n :: ns, f, vis, pm => by
    intro v
    by_cases h : n ∈ vis
    · rw [show (bdVisit c (n :: ns) (f, vis, pm)) = bdVisit c ns (f, vis, pm) by
        simp [bdVisit, h]]
      exact bdVisit_front c ns f vis pm v
    · rw [show (bdVisit c (n :: ns) (f, vis, pm)) =
        bdVisit c ns (f ++ [n], n :: vis, (n, some c) :: pm) by simp [bdVisit, h]]
      have ih := bdVisit_front c ns (f ++ [n]) (n :: vis) ((n, some c) :: pm) v
      have hnv1 : n ∈ (bdVisit c ns (f ++ [n], n :: vis, (n, some c) :: pm)).2.1 :=
        bdVisit_vis_sub c ns _ _ _ n (List.mem_cons_self _ _)
      have hsub := bdVisit_vis_sub c ns (f ++ [n]) (n :: vis) ((n, some c) :: pm)
      rw [ih]
      simp only [List.mem_append, List.mem_cons, List.not_mem_nil, or_false]
      constructor
      · rintro ((hf | rfl) | ⟨hv1, hv2⟩)
        · exact Or.inl hf
        · exact Or.inr ⟨hnv1, h⟩
        · exact Or.inr ⟨hv1, fun hv => hv2 (Or.inr hv)⟩
      · rintro (hf | ⟨hv1, hv2⟩)
        · exact Or.inl (Or.inl hf)
        · by_cases hvn : v = n
          · exact Or.inl (Or.inr hvn)
          · exact Or.inr ⟨hv1, by rintro (h0 | h0); exact hvn h0; exact hv2 h0⟩

theorem bdVisit_measure (m : Maze) (c : Pos) :
    ∀ (ns f vis : List Pos) (pm : PMap),
      (∀ n ∈ ns, n ∈ validCells m) →
      (bdVisit c ns (f, vis, pm)).1.length +
          unvisCount m (bdVisit c ns (f, vis, pm)).2.1 ≤
        f.length + unvisCount m vis
  | [], f, vis, pm => by intro _; simp [bdVisit]
  | n :: ns, f, vis, pm => by
    intro hval
    by_cases h : n ∈ vis
    · simpa [bdVisit, h] using
        bdVisit_measure m c ns f vis pm (fun x hx => hval x (List.mem_cons_of_mem _ hx))
    · have ih := bdVisit_measure m c ns (f ++ [n]) (n :: vis) ((n, some c) :: pm)
        (fun x hx => hval x (List.mem_cons_of_mem _ hx))
      have hcnt : unvisCount m (n :: vis) + 1 = unvisCount m vis :=
        count_filter_cons (validCells_nodup m) (hval n (List.mem_cons_self _ _)) h
      have heq : (bdVisit c (n :: ns) (f, vis, pm)) =
          bdVisit c ns (f ++ [n], n :: vis, (n, some c) :: pm) := by simp [bdVisit, h]
      rw [heq]
      simp only [List.length_append, List.length_singleton] at ih
      omega

theorem bdLoop_succ_none (m : Maze) (goal : Pos) (lifo : Bool) (fuel : Nat)
    (s : BDState) (h : bdPop lifo s.frontier = none) :
    bdLoop m goal lifo (fuel + 1) s = (false, s) := by
  simp [bdLoop, h]

theorem bdLoop_succ_goal (m : Maze) (goal : Pos) (lifo : Bool) (fuel : Nat)
    (s : BDState) (c : Pos) (rest : List Pos)
    (h : bdPop lifo s.frontier = some (c, rest)) (hc : c = goal) :
    bdLoop m goal lifo (fuel + 1) s =
      (true, { frontier := rest, visited := s.visited, parent := s.parent,
               expanded := s.expanded + 1, tracePops := s.tracePops ++ [c] }) := by
  simp [bdLoop, h, hc]

theorem bdLoop_succ_step (m : Maze) (goal : Pos) (lifo : Bool) (fuel : Nat)
    (s : BDState) (c : Pos) (rest : List Pos)
    (h : bdPop lifo s.frontier = some (c, rest)) (hc : c ≠ goal) :
    bdLoop m goal lifo (fuel + 1) s =
      bdLoop m goal lifo fuel
        { frontier := (bdVisit c (get_neighbors m c.1 c.2) (rest, s.visited, s.parent)).1,
          visited := (bdVisit c (get_neighbors m c.1 c.2) (rest, s.visited, s.parent)).2.1,
          parent := (bdVisit c (get_neighbors m c.1 c.2) (rest, s.visited, s.parent)).2.2,
          expanded := s.expanded + 1, tracePops := s.tracePops ++ [c] } := by
  simp [bdLoop, h, hc]

/-- One expansion step preserves the BFS/DFS loop invariant. -/
theorem bdStep_inv {m : Maze} {start goal : Pos} {s : BDState} {c : Pos}
    {rest : List Pos} (inv : BDInv m start goal s)
    (hpop : c ∈ s.frontier ∧ (∀ x ∈ rest, x ∈ s.frontier) ∧
      (∀ x ∈ s.frontier, x = c ∨ x ∈ rest))
    (hc : c ≠ goal) :
    BDInv m start goal
      { frontier := (bdVisit c (get_neighbors m c.1 c.2) (rest, s.visited, s.parent)).1,
        visited := (bdVisit c (get_neighbors m c.1 c.2) (rest, s.visited, s.parent)).2.1,
        parent := (bdVisit c (get_neighbors m c.1 c.2) (rest, s.visited, s.parent)).2.2,
        expanded := s.expanded + 1, tracePops := s.tracePops ++ [c] } := by
  obtain ⟨hcf, hrest, hsplit⟩ := hpop
  set ns := get_neighbors m c.1 c.2 with hns
  have hcv : c ∈ s.visited := inv.frontSub c hcf
  have hstep : ∀ n ∈ ns, isStep m c n := fun n hn => hn
  constructor
  case startKey =>
    rw [bdVisit_oldPm c ns rest s.visited s.parent start inv.startVis]
    exact inv.startKey
  case startVis =>
    exact bdVisit_vis_sub c ns rest s.visited s.parent start inv.startVis
  case keysVis =>
    exact bdVisit_keysVis c ns rest s.visited s.parent inv.keysVis
  case noneStart =>
    intro v hv
    exact inv.noneStart v (bdVisit_nonePm c ns rest s.visited s.parent v hv)
  case edge =>
    intro v u hv
    rcases bdVisit_newPm c ns rest s.visited s.parent v u hv with h1 | ⟨heq, h2⟩
    · exact inv.edge v u h1
    · rw [heq]; exact hstep v h2
  case parentVis =>
    intro v u hv
    rcases bdVisit_newPm c ns rest s.visited s.parent v u hv with h1 | ⟨heq, h2⟩
    · exact bdVisit_vis_sub c ns rest s.visited s.parent u (inv.parentVis v u h1)
    · rw [heq]; exact bdVisit_vis_sub c ns rest s.visited s.parent c hcv
  case rankEx =>
    rcases inv.rankEx with ⟨r, hr⟩
    refine ⟨fun v => if v ∈ s.visited then r v else r c + 1, ?_⟩
    intro v u hv
    by_cases hvv : v ∈ s.visited
    · rw [bdVisit_oldPm c ns rest s.visited s.parent v hvv] at hv
      have hu : u ∈ s.visited := inv.parentVis v u hv
      simp only [if_pos hvv, if_pos hu]
      exact hr v u hv
    · rcases bdVisit_newPm c ns rest s.visited s.parent v u hv with h1 | ⟨heq, h2⟩
      · exact absurd ((inv.keysVis v).mp (by simp [h1])) hvv
      · rw [heq]
        simp only [if_neg hvv, if_pos hcv]
        omega
  case visNodup =>
    exact bdVisit_nodup c ns rest s.visited s.parent inv.visNodup
  case frontSub =>
    intro x hx
    rcases (bdVisit_front c ns rest s.visited s.parent x).mp hx with h1 | h1
    · exact bdVisit_vis_sub c ns rest s.visited s.parent x (inv.frontSub x (hrest x h1))
    · exact h1.1
  case reach =>
    intro v hv
    rcases bdVisit_origin c ns rest s.visited s.parent v hv with h1 | h1
    · exact inv.reach v h1
    · exact reachable_step (inv.reach c hcv) (hstep v h1)
  case closed =>
    intro v hv hvf n hn
    rcases bdVisit_origin c ns rest s.visited s.parent v hv with h1 | h1
    · by_cases hvc : v = c
      · rw [hvc] at hn
        exact bdVisit_cover c ns rest s.visited s.parent n hn
      · have hvnotf : v ∉ s.frontier := by
          intro hvf0
          rcases hsplit v hvf0 with rfl | hvr
          · exact hvc rfl
          · exact hvf ((bdVisit_front c ns rest s.visited s.parent v).mpr (Or.inl hvr))
        exact bdVisit_vis_sub c ns rest s.visited s.parent n
          (inv.closed v h1 hvnotf n hn)
    · by_cases hvv : v ∈ s.visited
      · by_cases hvc : v = c
        · rw [hvc] at hn
          exact bdVisit_cover c ns rest s.visited s.parent n hn
        · have hvnotf : v ∉ s.frontier := by
            intro hvf0
            rcases hsplit v hvf0 with rfl | hvr
            · exact hvc rfl
            · exact hvf ((bdVisit_front c ns rest s.visited s.parent v).mpr (Or.inl hvr))
          exact bdVisit_vis_sub c ns rest s.visited s.parent n
            (inv.closed v hvv hvnotf n hn)
      · exact absurd ((bdVisit_front c ns rest s.visited s.parent v).mpr
          (Or.inr ⟨hv, hvv⟩)) hvf
  case goalFront =>
    intro hg
    rcases bdVisit_origin c ns rest s.visited s.parent goal hg with h1 | h1
    · by_cases hgv : goal ∈ s.visited
      · have := inv.goalFront hgv
        rcases hsplit goal this with h2 | h2
        · exact absurd h2.symm hc
        · exact (bdVisit_front c ns rest s.visited s.parent goal).mpr (Or.inl h2)
      · exact absurd h1 hgv
    · by_cases hgv : goal ∈ s.visited
      · have := inv.goalFront hgv
        rcases hsplit goal this with h2 | h2
        · exact absurd h2.symm hc
        · exact (bdVisit_front c ns rest s.visited s.parent goal).mpr (Or.inl h2)
      · exact (bdVisit_front c ns rest s.visited s.parent goal).mpr (Or.inr ⟨hg, hgv⟩)

/-- The BFS/DFS loop, run with fuel at least the measure, ends in a state
satisfying `BDEnd`. -/
theorem bdLoop_inv (m : Maze) (start goal : Pos) (lifo : Bool) :
    ∀ (fuel : Nat) (s : BDState), BDInv m start goal s → bdMeasure m s ≤ fuel →
      BDEnd m start goal (bdLoop m goal lifo fuel s).1 (bdLoop m goal lifo fuel s).2 := by
  intro fuel
  induction fuel with
  | zero =>
    intro s inv hm
    have hf : s.frontier = [] := by
      have : s.frontier.length = 0 := by
        unfold bdMeasure at hm; omega
      exact List.length_eq_zero.mp this
    simp only [bdLoop]
    refine ⟨inv.startKey, inv.startVis, inv.keysVis, inv.noneStart, inv.edge,
      inv.parentVis, inv.rankEx, inv.reach, by simp, ?_⟩
    intro _
    constructor
    · intro hg
      have := inv.goalFront hg
      rw [hf] at this
      simp at this
    · intro v hv n hn
      exact inv.closed v hv (by rw [hf]; simp) n hn
  | succ fuel ih =>
    intro s inv hm
    match hpop : bdPop lifo s.frontier with
    | none =>
      have hf : s.frontier = [] := bdPop_none.mp hpop
      rw [bdLoop_succ_none m goal lifo fuel s hpop]
      refine ⟨inv.startKey, inv.startVis, inv.keysVis, inv.noneStart, inv.edge,
        inv.parentVis, inv.rankEx, inv.reach, by simp, ?_⟩
      intro _
      constructor
      · intro hg
        have := inv.goalFront hg
        rw [hf] at this
        simp at this
      · intro v hv n hn
        exact inv.closed v hv (by rw [hf]; simp) n hn
    | some (c, rest) =>
      obtain ⟨hcf, hrest, hsplit, hlen⟩ := bdPop_some hpop
      by_cases hc : c = goal
      · rw [bdLoop_succ_goal m goal lifo fuel s c rest hpop hc]
        refine ⟨inv.startKey, inv.startVis, inv.keysVis, inv.noneStart, inv.edge,
          inv.parentVis, inv.rankEx, inv.reach, ?_, by simp⟩
        intro _
        rw [← hc]
        exact inv.frontSub c hcf
      · rw [bdLoop_succ_step m goal lifo fuel s c rest hpop hc]
        have hinv' := bdStep_inv inv ⟨hcf, hrest, hsplit⟩ hc
        have hval : ∀ n ∈ get_neighbors m c.1 c.2, n ∈ validCells m := by
          intro n hn
          exact isStep_mem_validCells (show isStep m c n from hn)
        have hmeas := bdVisit_measure m c (get_neighbors m c.1 c.2) rest s.visited
          s.parent hval
        have hm' : bdMeasure m
            { frontier := (bdVisit c (get_neighbors m c.1 c.2) (rest, s.visited, s.parent)).1,
              visited := (bdVisit c (get_neighbors m c.1 c.2) (rest, s.visited, s.parent)).2.1,
              parent := (bdVisit c (get_neighbors m c.1 c.2) (rest, s.visited, s.parent)).2.2,
              expanded := s.expanded + 1, tracePops := s.tracePops ++ [c] } ≤ fuel := by
          unfold bdMeasure at hm ⊢
          simp only at hmeas ⊢
          omega
        exact ih _ hinv' hm'

/-- A visited set that contains the start and is closed under neighbor
expansion contains everything reachable. -/
theorem closed_reachable {m : Maze} {start t : Pos} {vis : List Pos}
    (hs : start ∈ vis)
    (hcl : ∀ v ∈ vis, ∀ n ∈ get_neighbors m v.1 v.2, n ∈ vis)
    (hr : Reachable m start t) : t ∈ vis := by
  rcases hr with ⟨p, hp⟩
  rcases hp with ⟨h1, h2, h3, h4⟩
  have key : ∀ q : List Pos, List.Chain' (isStep m) q →
      ∀ a ∈ q.head?, a ∈ vis → ∀ x ∈ q, x ∈ vis := by
    intro q
    induction q with
    | nil => intro _ a ha; simp at ha
    | cons a rest ih =>
      intro hc b hb hbv x hx
      simp only [List.head?_cons, Option.mem_def, Option.some.injEq] at hb
      rw [← hb] at hbv
      rcases List.mem_cons.mp hx with rfl | hx'
      · exact hbv
      · rcases rest with _ | ⟨y, t'⟩
        · simp at hx'
        · have hy : y ∈ vis := hcl a hbv y (List.chain'_cons.mp hc).1
          exact ih (List.chain'_cons.mp hc).2 y (by simp) hy x hx'
  have ht : t ∈ p := List.mem_of_mem_getLast? h3
  rcases p with _ | ⟨a, q⟩
  · exact absurd rfl h1
  · simp only [List.head?_cons, Option.some.injEq] at h2
    rw [← h2] at hs
    exact key _ h4 a (by simp) hs t ht

/-- In the end state, the `found` flag is equivalent to the goal being a key
of the parent map. -/
theorem bdEnd_found_iff {m : Maze} {start goal : Pos} {found : Bool} {s : BDState}
    (e : BDEnd m start goal found s) :
    (found = true) ↔ (alookup s.parent goal).isSome := by
  constructor
  · intro h
    exact (e.keysVis goal).mpr (e.foundVis h)
  · intro h
    cases found
    · exact absurd ((e.keysVis goal).mp h) (e.notFound rfl).1
    · rfl

/-- In the end state, `found` decides reachability. -/
theorem bdEnd_found_reach {m : Maze} {start goal : Pos} {found : Bool} {s : BDState}
    (e : BDEnd m start goal found s) :
    (found = true) ↔ Reachable m start goal := by
  constructor
  · intro h
    exact e.reach goal (e.foundVis h)
  · intro h
    cases found
    · rcases e.notFound rfl with ⟨hng, hcl⟩
      exact absurd (closed_reachable e.startVis hcl h) hng
    · rfl

/-- In a found end state, the Python reconstruction produces a shortest
possible representation of the recorded chain: a duplicate-free path from
start to goal. -/
theorem bdEnd_walk {m : Maze} {start goal : Pos} {found : Bool} {s : BDState}
    (e : BDEnd m start goal found s) (h : (alookup s.parent goal).isSome) :
    ∃ l, PChain s.parent start goal l ∧
      walkParents s.parent s.parent.length goal = l ∧
      PathFrom m start goal l.reverse ∧ l.reverse.Nodup := by
  rcases e.rankEx with ⟨r, hr⟩
  have hclosed : ∀ v u, alookup s.parent v = some (some u) → (alookup s.parent u).isSome :=
    fun v u hv => (e.keysVis u).mpr (e.parentVis v u hv)
  rcases pchain_exists hr hclosed e.noneStart goal h with ⟨l, hl⟩
  refine ⟨l, hl, ?_, pchain_pathFrom e.edge hl, ?_⟩
  · exact pchain_walk hl s.parent.length (by
      have := pchain_length_le hr hl
      omega)
  · rw [List.nodup_reverse]
    exact (pchain_nodup hr hl).1

/-! ### BFS optimality -/

theorem bdVisit_struct (c : Pos) :
    ∀ (ns f vis : List Pos) (pm : PMap),
      ∃ added : List Pos, (bdVisit c ns (f, vis, pm)).1 = f ++ added ∧
        ∀ x ∈ added, x ∈ ns ∧ x ∉ vis
  | [], f, vis, pm => ⟨[], by simp [bdVisit], by simp⟩
  | n :: ns, f, vis, pm => by
    by_cases h : n ∈ vis
    · rcases bdVisit_struct c ns f vis pm with ⟨added, h1, h2⟩
      refine ⟨added, by simpa [bdVisit, h] using h1, ?_⟩
      intro x hx
      exact ⟨List.mem_cons_of_mem _ (h2 x hx).1, (h2 x hx).2⟩
    · rcases bdVisit_struct c ns (f ++ [n]) (n :: vis) ((n, some c) :: pm) with
        ⟨added, h1, h2⟩
      refine ⟨n :: added, ?_, ?_⟩
      · simp only [bdVisit, if_neg h]
        rw [h1]
        simp
      · intro x hx
        rcases List.mem_cons.mp hx with rfl | hx'
        · exact ⟨List.mem_cons_self _ _, h⟩
        · refine ⟨List.mem_cons_of_mem _ (h2 x hx').1, ?_⟩
          intro hxv
          exact (h2 x hx').2 (List.mem_cons_of_mem _ hxv)

/-- A cell first visited during the expansion of `c` records `c` as parent. -/
theorem bdVisit_addedPm (c : Pos) (ns f vis : List Pos) (pm : PMap)
    (hK : ∀ v : Pos, (alookup pm v).isSome ↔ v ∈ vis) :
    ∀ v, v ∈ (bdVisit c ns (f, vis, pm)).2.1 → v ∉ vis →
      alookup (bdVisit c ns (f, vis, pm)).2.2 v = some (some c) := by
  intro v hv hnv
  have hsome : (alookup (bdVisit c ns (f, vis, pm)).2.2 v).isSome :=
    (bdVisit_keysVis c ns f vis pm hK v).mpr hv
  match hl : alookup (bdVisit c ns (f, vis, pm)).2.2 v with
  | some none =>
    have := bdVisit_nonePm c ns f vis pm v hl
    exact absurd ((hK v).mp (by simp [this])) hnv
  | some (some u) =>
    rcases bdVisit_newPm c ns f vis pm v u hl with h1 | ⟨heq, -⟩
    · exact absurd ((hK v).mp (by simp [h1])) hnv
    · rw [heq]
  | none => rw [hl] at hsome; cases hsome

theorem layer_min {fd fd1 fd2 fdt : List (Pos × Nat)} {d : Nat} {pd0 : Pos × Nat}
    (hfd : fd = pd0 :: fdt) (hblocks : fd = fd1 ++ fd2)
    (h1 : ∀ pd ∈ fd1, pd.2 = d) (h2 : ∀ pd ∈ fd2, pd.2 = d + 1) :
    ∀ pd ∈ fd, pd0.2 ≤ pd.2 := by
  intro pd hpd
  rcases fd1 with _ | ⟨q, t1⟩
  · simp only [List.nil_append] at hblocks
    have hpd0 : pd0.2 = d + 1 := h2 pd0 (by rw [← hblocks, hfd]; simp)
    have hpdv : pd.2 = d + 1 := h2 pd (by rw [← hblocks]; exact hpd)
    omega
  · have hq : q = pd0 := by
      rw [hblocks] at hfd
      have h0 := congrArg List.head? hfd.symm
      simp only [List.cons_append, List.head?_cons, Option.some.injEq] at h0
      exact h0.symm
    have hpd0 : pd0.2 = d := by
      rw [← hq]
      exact h1 q (List.mem_cons_self _ _)
    rw [hblocks] at hpd
    rcases List.mem_append.mp hpd with h | h
    · have := h1 pd h; omega
    · have := h2 pd h; omega

/-- The central BFS claim: a fresh (unvisited) neighbor of the dequeued cell
`c` has true distance exactly `dist c + 1`. -/
theorem bfs_newDist {m : Maze} {start c : Pos} {dc : Nat} {vis front : List Pos}
    (hstartv : start ∈ vis)
    (hreachc : Reachable m start c)
    (hdistc : IsShortestLen m start c dc)
    (hclosed : ∀ v ∈ vis, v ∉ front → ∀ x ∈ get_neighbors m v.1 v.2, x ∈ vis)
    (hfront : ∀ u ∈ front, ∀ du, IsShortestLen m start u du → dc ≤ du)
    {n : Pos} (hn : isStep m c n) (hnv : n ∉ vis) :
    IsShortestLen m start n (dc + 1) := by
  have hreachn : Reachable m start n := reachable_step hreachc hn
  rcases shortest_exists hreachn with ⟨k, hk⟩
  have hkub : k ≤ dc + 1 := by
    rcases hdistc.1 with ⟨pc, hpc, hpcl⟩
    have := hk.2 _ (pathFrom_snoc hpc hn)
    simp only [List.length_append, List.length_singleton] at this
    omega
  have hklb : ¬(k ≤ dc) := by
    intro hkle
    rcases hk.1 with ⟨p, hp, hpl⟩
    have hex : ∃ x ∈ p, ¬(x ∈ vis) := by
      refine ⟨n, ?_, hnv⟩
      exact List.mem_of_mem_getLast? hp.2.2.1
    rcases exists_first_not_mem (· ∈ vis) p hex with ⟨p₁, y, p₂, hsplit, hall, hy⟩
    rcases List.eq_nil_or_concat p₁ with rfl | ⟨p₁', u, rfl⟩
    · have : y = start := by
        have := hp.2.1
        rw [hsplit] at this
        simpa using this
      rw [this] at hy
      exact hy hstartv
    · have hsplit2 : p = p₁' ++ u :: y :: p₂ := by
        rw [hsplit]; simp
      have hu : u ∈ vis := hall u (by simp)
      have hdu := shortest_split hk hp hpl hsplit2
      have hstepuy : isStep m u y := by
        have hsuf := (pathFrom_split hp hsplit2).2
        exact (List.chain'_cons.mp hsuf.2.2.2).1
      have hufront : u ∈ front := by
        by_contra hun
        exact hy (hclosed u hu hun y hstepuy)
      have hdclb := hfront u hufront _ hdu
      have hlen : p.length = p₁'.length + 2 + p₂.length := by
        rw [hsplit2]; simp; omega
      omega
  have hkeq : k = dc + 1 := by omega
  rw [← hkeq]
  exact hk

theorem map_fst_pair {β : Type} (k : β) :
    ∀ l : List Pos, (l.map (fun x => (x, k))).map Prod.fst = l
  | [] => rfl
  | a :: t => by simp only [List.map_cons, map_fst_pair k t]

/-- Through the whole (FIFO) BFS loop, every visited cell's recorded parent
chain has length exactly its true shortest distance plus one. -/
theorem bfsLoop_dist (m : Maze) (start goal : Pos) :
    ∀ (fuel : Nat) (s : BDState), BDInv m start goal s → BfsInv m start s →
      bdMeasure m s ≤ fuel →
      ∀ v ∈ (bdLoop m goal false fuel s).2.visited,
        ∃ k l, IsShortestLen m start v k ∧
          PChain (bdLoop m goal false fuel s).2.parent start v l ∧ l.length = k + 1 := by
  intro fuel
  induction fuel with
  | zero =>
    intro s inv binv hm
    simpa only [bdLoop] using binv.distVis
  | succ fuel ih =>
    intro s inv binv hm
    match hpop : bdPop false s.frontier with
    | none =>
      rw [bdLoop_succ_none m goal false fuel s hpop]
      exact binv.distVis
    | some (c, rest) =>
      have hfr : s.frontier = c :: rest := bdPop_fifo.mp hpop
      by_cases hc : c = goal
      · rw [bdLoop_succ_goal m goal false fuel s c rest hpop hc]
        exact binv.distVis
      · rw [bdLoop_succ_step m goal false fuel s c rest hpop hc]
        obtain ⟨hcf, hrest, hsplit, hlen⟩ := bdPop_some hpop
        set ns := get_neighbors m c.1 c.2 with hns
        rcases binv.layer with ⟨fd, fd1, fd2, d, hmap, hprops, hblocks, h1, h2⟩
        rcases fd with _ | ⟨pd0, fdt⟩
        · rw [hfr] at hmap; simp at hmap
        have hpd0c : pd0.1 = c ∧ fdt.map Prod.fst = rest := by
          rw [hfr] at hmap
          simpa using hmap
        set dc := pd0.2 with hdc
        have hdistc : IsShortestLen m start c dc := by
          have := hprops pd0 (List.mem_cons_self _ _)
          rwa [hpd0c.1] at this
        have hmin := layer_min rfl hblocks h1 h2
        have hcv : c ∈ s.visited := inv.frontSub c hcf
        have hreachc : Reachable m start c := inv.reach c hcv
        have hfront : ∀ u ∈ s.frontier, ∀ du, IsShortestLen m start u du → dc ≤ du := by
          intro u hu du hdu
          have hu' : u ∈ (pd0 :: fdt).map Prod.fst := by rw [hmap]; exact hu
          rcases List.mem_map.mp hu' with ⟨pd, hpd, hpdeq⟩
          have h3 := hprops pd hpd
          rw [hpdeq] at h3
          have h4 := shortest_unique hdu h3
          have h5 := hmin pd hpd
          omega
        have newDist : ∀ n, n ∈ ns → n ∉ s.visited → IsShortestLen m start n (dc + 1) :=
          fun n hn hnv =>
            bfs_newDist inv.startVis hreachc hdistc inv.closed hfront hn hnv
        have hpres : ∀ x, (alookup s.parent x).isSome →
            alookup (bdVisit c ns (rest, s.visited, s.parent)).2.2 x = alookup s.parent x :=
          fun x hx => bdVisit_oldPm c ns rest s.visited s.parent x ((inv.keysVis x).mp hx)
        have hdistVis' : ∀ v ∈ (bdVisit c ns (rest, s.visited, s.parent)).2.1,
            ∃ k l, IsShortestLen m start v k ∧
              PChain (bdVisit c ns (rest, s.visited, s.parent)).2.2 start v l ∧
              l.length = k + 1 := by
          intro v hv
          by_cases hvv : v ∈ s.visited
          · rcases binv.distVis v hvv with ⟨k, l, hsh, hch, hl⟩
            exact ⟨k, l, hsh, pchain_congr hpres hch, hl⟩
          · have hvn : v ∈ ns := by
              rcases bdVisit_origin c ns rest s.visited s.parent v hv with h0 | h0
              · exact absurd h0 hvv
              · exact h0
            have hpm := bdVisit_addedPm c ns rest s.visited s.parent inv.keysVis v hv hvv
            rcases binv.distVis c hcv with ⟨kc, lc, hshc, hchc, hlc⟩
            have hkc : kc = dc := shortest_unique hshc hdistc
            refine ⟨dc + 1, v :: lc, newDist v hvn hvv, ?_, ?_⟩
            · exact PChain.step v c lc hpm (pchain_congr hpres hchc)
            · simp only [List.length_cons]
              omega
        rcases bdVisit_struct c ns rest s.visited s.parent with ⟨added, hstruct, haddprops⟩
        have hlayer' : ∃ (fd' fd1' fd2' : List (Pos × Nat)) (d' : Nat),
            fd'.map Prod.fst = (bdVisit c ns (rest, s.visited, s.parent)).1 ∧
            (∀ pd ∈ fd', IsShortestLen m start pd.1 pd.2) ∧
            fd' = fd1' ++ fd2' ∧ (∀ pd ∈ fd1', pd.2 = d') ∧
            (∀ pd ∈ fd2', pd.2 = d' + 1) := by
          set newfd := added.map (fun x => (x, dc + 1)) with hnewfd
          have hmap' : (fdt ++ newfd).map Prod.fst =
              (bdVisit c ns (rest, s.visited, s.parent)).1 := by
            rw [hstruct, List.map_append, hpd0c.2, hnewfd]
            congr 1
            exact map_fst_pair (dc + 1) added
          have hprops' : ∀ pd ∈ fdt ++ newfd, IsShortestLen m start pd.1 pd.2 := by
            intro pd hpd
            rcases List.mem_append.mp hpd with h0 | h0
            · exact hprops pd (List.mem_cons_of_mem _ h0)
            · rcases List.mem_map.mp h0 with ⟨x, hx, rfl⟩
              exact newDist x (haddprops x hx).1 (haddprops x hx).2
          rcases fd1 with _ | ⟨q, t1⟩
          · have hfd2 : fd2 = pd0 :: fdt := by simpa using hblocks.symm
            have hdcd : dc = d + 1 := by
              have := h2 pd0 (by rw [hfd2]; exact List.mem_cons_self _ _)
              omega
            refine ⟨fdt ++ newfd, fdt, newfd, d + 1, hmap', hprops', rfl, ?_, ?_⟩
            · intro pd hpd
              exact h2 pd (by rw [hfd2]; exact List.mem_cons_of_mem _ hpd)
            · intro pd hpd
              rcases List.mem_map.mp hpd with ⟨x, hx, rfl⟩
              omega
          · have hq : q = pd0 ∧ fdt = t1 ++ fd2 := by
              have := hblocks
              simp only [List.cons_append, List.cons.injEq] at this
              exact ⟨this.1.symm, this.2⟩
            have hdcd : dc = d := by
              have := h1 q (List.mem_cons_self _ _)
              rw [hq.1] at this
              omega
            refine ⟨fdt ++ newfd, t1, fd2 ++ newfd, d, hmap', hprops', ?_, ?_, ?_⟩
            · rw [hq.2, List.append_assoc]
            · intro pd hpd
              exact h1 pd (List.mem_cons_of_mem _ hpd)
            · intro pd hpd
              rcases List.mem_append.mp hpd with h0 | h0
              · exact h2 pd h0
              · rcases List.mem_map.mp h0 with ⟨x, hx, rfl⟩
                omega
        have hinv' := bdStep_inv inv ⟨hcf, hrest, hsplit⟩ hc
        have hbinv' : BfsInv m start
            { frontier := (bdVisit c ns (rest, s.visited, s.parent)).1,
              visited := (bdVisit c ns (rest, s.visited, s.parent)).2.1,
              parent := (bdVisit c ns (rest, s.visited, s.parent)).2.2,
              expanded := s.expanded + 1, tracePops := s.tracePops ++ [c] } :=
          ⟨hdistVis', hlayer'⟩
        have hval : ∀ n ∈ ns, n ∈ validCells m := by
          intro n hn
          exact isStep_mem_validCells (show isStep m c n from hn)
        have hmeas := bdVisit_measure m c ns rest s.visited s.parent hval
        have hm' : bdMeasure m
            { frontier := (bdVisit c ns (rest, s.visited, s.parent)).1,
              visited := (bdVisit c ns (rest, s.visited, s.parent)).2.1,
              parent := (bdVisit c ns (rest, s.visited, s.parent)).2.2,
              expanded := s.expanded + 1, tracePops := s.tracePops ++ [c] } ≤ fuel := by
          unfold bdMeasure at hm ⊢
          simp only at hmeas ⊢
          omega
        exact ih _ hinv' hbinv' hm'

/-- The BFS/DFS loop's search behavior depends only on the frontier, visited
set and parent map: the counter is merely offset by the number of pops and
the trace extended by the popped cells. -/
theorem bdLoop_canon (m : Maze) (goal : Pos) (lifo : Bool) :
    ∀ (fuel : Nat) (f vis : List Pos) (pm : PMap),
      ∃ (found : Bool) (f2 vis2 : List Pos) (pm2 : PMap) (dtr : List Pos),
        ∀ (e : Nat) (t : List Pos),
          bdLoop m goal lifo fuel ⟨f, vis, pm, e, t⟩ =
            (found, ⟨f2, vis2, pm2, e + dtr.length, t ++ dtr⟩) := by
  intro fuel
  induction fuel with
  | zero =>
    intro f vis pm
    exact ⟨false, f, vis, pm, [], by intro e t; simp [bdLoop]⟩
  | succ fuel ih =>
    intro f vis pm
    match hpop : bdPop lifo f with
    | none =>
      refine ⟨false, f, vis, pm, [], ?_⟩
      intro e t
      rw [bdLoop_succ_none m goal lifo fuel _ hpop]
      simp
    | some (c, rest) =>
      by_cases hc : c = goal
      · refine ⟨true, rest, vis, pm, [c], ?_⟩
        intro e t
        rw [bdLoop_succ_goal m goal lifo fuel _ c rest hpop hc]
        simp
      · rcases ih (bdVisit c (get_neighbors m c.1 c.2) (rest, vis, pm)).1
          (bdVisit c (get_neighbors m c.1 c.2) (rest, vis, pm)).2.1
          (bdVisit c (get_neighbors m c.1 c.2) (rest, vis, pm)).2.2 with
          ⟨found, f2, vis2, pm2, dtr, hIH⟩
        refine ⟨found, f2, vis2, pm2, c :: dtr, ?_⟩
        intro e t
        rw [bdLoop_succ_step m goal lifo fuel _ c rest hpop hc]
        rw [hIH (e + 1) (t ++ [c])]
        have h1 : e + 1 + dtr.length = e + (c :: dtr).length := by
          simp only [List.length_cons]
          omega
        have h2 : t ++ [c] ++ dtr = t ++ c :: dtr := by simp
        rw [h1, h2]

/-- Parent chains are uniquely determined by the map. -/
theorem pchain_unique {pm : PMap} {start v : Pos} {l l' : List Pos}
    (h : PChain pm start v l) (h' : PChain pm start v l') : l = l' := by
  induction h generalizing l' with
  | base hb =>
    cases h' with
    | base _ => rfl
    | step _ u l0 hv _ => rw [hb] at hv; cases hv
  | step v u l hv hc ih =>
    cases h' with
    | base hb => rw [hb] at hv; cases hv
    | step _ u' l0 hv' hc' =>
      rw [hv] at hv'
      have : u = u' := by
        cases hv'; rfl
      subst this
      rw [ih hc']

/-- The initial loop state of `BFSAlgorithm.search` / `DFSAlgorithm.search`
satisfies the invariant. -/
theorem bdInit_inv (m : Maze) (start goal : Pos) (e : Nat) :
    BDInv m start goal
      { frontier := [start], visited := [start], parent := [(start, none)],
        expanded := e, tracePops := [] } := by
  constructor
  case startKey => exact alookup_cons_self _ _ _
  case startVis => simp
  case keysVis =>
    intro v
    by_cases h : start = v
    · subst h; simp [alookup_cons_self]
    · rw [alookup_cons_ne _ _ _ _ h]
      simp [alookup]
      intro h0
      exact h h0.symm
  case noneStart =>
    intro v hv
    by_cases h : start = v
    · exact h.symm
    · rw [alookup_cons_ne _ _ _ _ h] at hv
      simp [alookup] at hv
  case edge =>
    intro v u hv
    by_cases h : start = v
    · subst h; rw [alookup_cons_self] at hv; cases hv
    · rw [alookup_cons_ne _ _ _ _ h] at hv; simp [alookup] at hv
  case parentVis =>
    intro v u hv
    by_cases h : start = v
    · subst h; rw [alookup_cons_self] at hv; cases hv
    · rw [alookup_cons_ne _ _ _ _ h] at hv; simp [alookup] at hv
  case rankEx =>
    refine ⟨fun _ => 0, ?_⟩
    intro v u hv
    by_cases h : start = v
    · subst h; rw [alookup_cons_self] at hv; cases hv
    · rw [alookup_cons_ne _ _ _ _ h] at hv; simp [alookup] at hv
  case visNodup => simp
  case frontSub => intro c hc; simpa using hc
  case reach =>
    intro v hv
    simp only [List.mem_singleton] at hv
    subst hv
    exact reachable_self m v
  case closed =>
    intro v hv hvf
    simp only [List.mem_singleton] at hv
    subst hv
    simp at hvf
  case goalFront =>
    intro hg
    simpa using hg

/-- The initial state also satisfies the BFS distance invariant. -/
theorem bfsInit_inv (m : Maze) (start : Pos) (e : Nat) :
    BfsInv m start
      { frontier := [start], visited := [start], parent := [(start, none)],
        expanded := e, tracePops := [] } := by
  constructor
  · intro v hv
    simp only [List.mem_singleton] at hv
    subst hv
    exact ⟨0, [v], shortest_self m v, PChain.base (alookup_cons_self _ _ _), by simp⟩
  · refine ⟨[(start, 0)], [(start, 0)], [], 0, by simp, ?_, by simp, by simp, by simp⟩
    intro pd hpd
    simp only [List.mem_singleton] at hpd
    subst hpd
    exact shortest_self m start

theorem bdInit_measure (m : Maze) (start : Pos) (e : Nat) :
    bdMeasure m
      { frontier := [start], visited := [start], parent := [(start, none)],
        expanded := e, tracePops := [] } ≤ bdFuel m := by
  unfold bdMeasure bdFuel unvisCount
  have := List.length_filter_le (fun x => decide (x ∉ [start])) (validCells m)
  simp only [List.length_singleton]
  omega

theorem walkParents_ne_nil (pm : PMap) (fuel : Nat) (c : Pos) :
    walkParents pm fuel c ≠ [] := by
  cases fuel with
  | zero => simp [walkParents]
  | succ f =>
    simp only [walkParents]
    match alookup pm c with
    | some (some p) => simp
    | some none => simp
    | none => simp

theorem bdRun_end (G : Maze) (lifo : Bool) (e : Nat) (start goal : Pos) :
    BDEnd G start goal (bdRun G lifo e start goal).1 (bdRun G lifo e start goal).2 :=
  bdLoop_inv G start goal lifo (bdFuel G) _ (bdInit_inv G start goal e)
    (bdInit_measure G start e)

theorem BFS_search_path_eq (G : Maze) (a : SearchAlgorithm) (tdelta mdelta : Int)
    (start goal : Pos) :
    (BFSAlgorithm.search G a tdelta mdelta start goal).1 =
      (if (alookup (bdRun G false a.expanded_nodes start goal).2.parent goal).isSome ∨
          goal = start then
        (walkParents (bdRun G false a.expanded_nodes start goal).2.parent
          (bdRun G false a.expanded_nodes start goal).2.parent.length goal).reverse
      else []) := rfl

theorem DFS_search_path_eq (G : Maze) (a : SearchAlgorithm) (tdelta mdelta : Int)
    (start goal : Pos) :
    (DFSAlgorithm.search G a tdelta mdelta start goal).1 =
      (if (bdRun G true a.expanded_nodes start goal).1 then
        (walkParents (bdRun G true a.expanded_nodes start goal).2.parent
          (bdRun G true a.expanded_nodes start goal).2.parent.length goal).reverse
      else []) := rfl

/-- The reconstruction condition of BFS is equivalent to the `found` flag. -/
theorem bdRun_cond_iff (G : Maze) (lifo : Bool) (e : Nat) (start goal : Pos) :
    ((alookup (bdRun G lifo e start goal).2.parent goal).isSome ∨ goal = start) ↔
      (bdRun G lifo e start goal).1 = true := by
  have hend := bdRun_end G lifo e start goal
  rw [bdEnd_found_iff hend]
  constructor
  · rintro (h | rfl)
    · exact h
    · simp [hend.startKey]
  · exact Or.inl

theorem BFS_nonempty_iff (G : Maze) (a : SearchAlgorithm) (tdelta mdelta : Int)
    (start goal : Pos) :
    (BFSAlgorithm.search G a tdelta mdelta start goal).1 ≠ [] ↔
      Reachable G start goal := by
  rw [BFS_search_path_eq]
  have hend := bdRun_end G false a.expanded_nodes start goal
  by_cases h : (alookup (bdRun G false a.expanded_nodes start goal).2.parent goal).isSome ∨
      goal = start
  · rw [if_pos h]
    have hfound := (bdRun_cond_iff G false a.expanded_nodes start goal).mp h
    simp only [ne_eq, List.reverse_eq_nil_iff]
    constructor
    · intro _
      exact (bdEnd_found_reach hend).mp hfound
    · intro _
      exact walkParents_ne_nil _ _ _
  · rw [if_neg h]
    simp only [ne_eq, not_true_eq_false, false_iff]
    intro hr
    have : (bdRun G false a.expanded_nodes start goal).1 = true :=
      (bdEnd_found_reach hend).mpr hr
    exact h ((bdRun_cond_iff G false a.expanded_nodes start goal).mpr this)

theorem DFS_nonempty_iff (G : Maze) (a : SearchAlgorithm) (tdelta mdelta : Int)
    (start goal : Pos) :
    (DFSAlgorithm.search G a tdelta mdelta start goal).1 ≠ [] ↔
      Reachable G start goal := by
  rw [DFS_search_path_eq]
  have hend := bdRun_end G true a.expanded_nodes start goal
  by_cases h : (bdRun G true a.expanded_nodes start goal).1
  · rw [if_pos h]
    simp only [ne_eq, List.reverse_eq_nil_iff]
    constructor
    · intro _
      exact (bdEnd_found_reach hend).mp h
    · intro _
      exact walkParents_ne_nil _ _ _
  · rw [if_neg h]
    simp only [ne_eq, not_true_eq_false, false_iff]
    intro hr
    exact h ((bdEnd_found_reach hend).mpr hr)

theorem BFS_path_sound (G : Maze) (a : SearchAlgorithm) (tdelta mdelta : Int)
    (start goal : Pos)
    (hne : (BFSAlgorithm.search G a tdelta mdelta start goal).1 ≠ []) :
    PathFrom G start goal (BFSAlgorithm.search G a tdelta mdelta start goal).1 ∧
      (BFSAlgorithm.search G a tdelta mdelta start goal).1.Nodup := by
  have hr := (BFS_nonempty_iff G a tdelta mdelta start goal).mp hne
  have hend := bdRun_end G false a.expanded_nodes start goal
  have hfound := (bdEnd_found_reach hend).mpr hr
  have hsome := (bdEnd_found_iff hend).mp hfound
  rcases bdEnd_walk hend hsome with ⟨l, hch, hwalk, hpath, hnd⟩
  rw [BFS_search_path_eq,
    if_pos (Or.inl hsome), hwalk]
  exact ⟨hpath, hnd⟩

theorem DFS_path_sound (G : Maze) (a : SearchAlgorithm) (tdelta mdelta : Int)
    (start goal : Pos)
    (hne : (DFSAlgorithm.search G a tdelta mdelta start goal).1 ≠ []) :
    PathFrom G start goal (DFSAlgorithm.search G a tdelta mdelta start goal).1 ∧
      (DFSAlgorithm.search G a tdelta mdelta start goal).1.Nodup := by
  have hr := (DFS_nonempty_iff G a tdelta mdelta start goal).mp hne
  have hend := bdRun_end G true a.expanded_nodes start goal
  have hfound := (bdEnd_found_reach hend).mpr hr
  have hsome := (bdEnd_found_iff hend).mp hfound
  rcases bdEnd_walk hend hsome with ⟨l, hch, hwalk, hpath, hnd⟩
  rw [DFS_search_path_eq, if_pos hfound, hwalk]
  exact ⟨hpath, hnd⟩

theorem BFS_path_shortest (G : Maze) (a : SearchAlgorithm) (tdelta mdelta : Int)
    (start goal : Pos) {k : Nat} (hk : IsShortestLen G start goal k) :
    (BFSAlgorithm.search G a tdelta mdelta start goal).1.length = k + 1 := by
  have hr : Reachable G start goal := shortest_reachable hk
  have hend := bdRun_end G false a.expanded_nodes start goal
  have hfound := (bdEnd_found_reach hend).mpr hr
  have hsome := (bdEnd_found_iff hend).mp hfound
  rcases bdEnd_walk hend hsome with ⟨l, hch, hwalk, hpath, hnd⟩
  have hdist := bfsLoop_dist G start goal (bdFuel G) _ (bdInit_inv G start goal a.expanded_nodes)
    (bfsInit_inv G start a.expanded_nodes) (bdInit_measure G start a.expanded_nodes)
    goal (hend.foundVis hfound)
  rcases hdist with ⟨k', l', hsh', hch', hlen'⟩
  have hkk : k' = k := shortest_unique hsh' hk
  have hll : l = l' := pchain_unique hch hch'
  rw [BFS_search_path_eq, if_pos (Or.inl hsome), hwalk]
  simp only [List.length_reverse]
  rw [hll]
  omega

/-! ### The UCS / A* loop: invariants -/

theorem sum_lt_of_point {l : List Pos} (hl : l.Nodup) {f f' : Pos → Nat} {n : Pos}
    (hn : n ∈ l) (hdec : f' n < f n) (heq : ∀ v, v ≠ n → f' v = f v) :
    (l.map f').sum + 1 ≤ (l.map f).sum := by
  rcases List.append_of_mem hn with ⟨l₁, l₂, rfl⟩
  have hn1 : n ∉ l₁ ∧ n ∉ l₂ := by
    rw [List.nodup_append] at hl
    refine ⟨?_, ?_⟩
    · intro h0
      exact hl.2.2 h0 (List.mem_cons_self _ _)
    · exact (List.nodup_cons.mp hl.2.1).1
  have e1 : l₁.map f' = l₁.map f := by
    apply List.map_congr_left
    intro x hx
    exact heq x (fun h0 => hn1.1 (h0 ▸ hx))
  have e2 : l₂.map f' = l₂.map f := by
    apply List.map_congr_left
    intro x hx
    exact heq x (fun h0 => hn1.2 (h0 ▸ hx))
  simp only [List.map_append, List.map_cons, List.sum_append, List.sum_cons, e1, e2]
  omega

theorem costLe_refl (cost : CMap) : costLe cost cost :=
  fun v cv0 h => ⟨cv0, h, le_refl _⟩

theorem costLe_trans {c1 c2 c3 : CMap} (h12 : costLe c2 c1) (h23 : costLe c3 c2) :
    costLe c3 c1 := by
  intro v cv0 h
  rcases h12 v cv0 h with ⟨cv1, h1, hle1⟩
  rcases h23 v cv1 h1 with ⟨cv2, h2, hle2⟩
  exact ⟨cv2, h2, le_trans hle2 hle1⟩

/-- Chains of a cost-anchored parent map are no longer than the recorded
cost. -/
theorem pchain_cost_le {pm : PMap} {cost : CMap} {start : Pos}
    (hanchor : ∀ v u, alookup pm v = some (some u) → ∃ cv cu,
      alookup cost v = some cv ∧ alookup cost u = some cu ∧ cu + 1 ≤ cv) :
    ∀ {v : Pos} {l : List Pos}, PChain pm start v l →
      ∀ cv, alookup cost v = some cv → l.length ≤ cv + 1 := by
  intro v l hch
  induction hch with
  | base hb => intro cv _; simp
  | step v u l hv hc ih =>
    intro cv hcv
    rcases hanchor v u hv with ⟨cv', cu, hcv', hcu, hle⟩
    rw [hcv] at hcv'
    cases hcv'
    have := ih cu hcu
    simp only [List.length_cons]
    omega

/-- Cost anchoring gives rank decrease for the chain machinery. -/
theorem hInv_rank {pm : PMap} {cost : CMap}
    (hanchor : ∀ v u, alookup pm v = some (some u) → ∃ cv cu,
      alookup cost v = some cv ∧ alookup cost u = some cu ∧ cu + 1 ≤ cv) :
    ∀ v u, alookup pm v = some (some u) →
      (fun w => (alookup cost w).getD 0) u < (fun w => (alookup cost w).getD 0) v := by
  intro v u hv
  rcases hanchor v u hv with ⟨cv, cu, hcv, hcu, hle⟩
  simp only [hcv, hcu, Option.getD_some]
  omega

/-- Recorded costs dominate true distances. -/
theorem cost_ge_dist {m : Maze} {start : Pos} {pm : PMap} {cost : CMap}
    (hanchor : ∀ v u, alookup pm v = some (some u) → ∃ cv cu,
      alookup cost v = some cv ∧ alookup cost u = some cu ∧ cu + 1 ≤ cv)
    (hkeysEq : ∀ v : Pos, (alookup pm v).isSome ↔ (alookup cost v).isSome)
    (hnoneStart : ∀ v, alookup pm v = some none → v = start)
    (hedge : ∀ v u, alookup pm v = some (some u) → isStep m u v)
    {v : Pos} {cv : Nat} (hcv : alookup cost v = some cv)
    {k : Nat} (hk : IsShortestLen m start v k) : k ≤ cv := by
  have hclosed : ∀ v u, alookup pm v = some (some u) → (alookup pm u).isSome := by
    intro v u hv
    rcases hanchor v u hv with ⟨_, cu, _, hcu, _⟩
    exact (hkeysEq u).mpr (by simp [hcu])
  rcases pchain_exists (hInv_rank hanchor) hclosed hnoneStart v
    ((hkeysEq v).mpr (by simp [hcv])) with ⟨l, hl⟩
  have hlen := pchain_cost_le hanchor hl cv hcv
  have hpath := pchain_pathFrom hedge hl
  have := hk.2 _ hpath
  simp only [List.length_reverse] at this
  omega

/-- The Dijkstra/A* property: when a not-yet-visited cell reaches the top of
the heap, its recorded cost is its true shortest distance. -/
theorem hPop_dist {m : Maze} {start goal : Pos} {hh : Pos → Nat} {s : HState}
    (hcons : ∀ u v, isStep m u v → hh u ≤ hh v + 1)
    (inv : HInv m start goal hh s)
    {f g : Nat} {c : Pos} {rest : List HEntry}
    (hhp : s.heap = (f, g, c) :: rest) (hcnv : c ∉ s.visited) :
    ∃ dc, IsShortestLen m start c dc ∧ alookup s.cost c = some dc := by
  have hhead : (f, g, c) ∈ s.heap := by rw [hhp]; exact List.mem_cons_self _ _
  rcases inv.heapWf _ hhead with ⟨cc, hcc, hccg, hf⟩
  simp only at hcc hccg hf
  have hreach : Reachable m start c := inv.reach c (by simp [hcc])
  rcases shortest_exists hreach with ⟨k, hk⟩
  have hkub : k ≤ cc :=
    cost_ge_dist inv.anchor inv.keysEq inv.noneStart inv.edge hcc hk
  have hcclb : cc ≤ k := by
    rcases hk.1 with ⟨p, hp, hpl⟩
    have hlast : c ∈ p := List.mem_of_mem_getLast? hp.2.2.1
    rcases exists_first_not_mem (· ∈ s.visited) p ⟨c, hlast, hcnv⟩ with
      ⟨p₁, y, p₂, hpsplit, hall, hy⟩
    have hys : p₁ = [] → y = start := by
      intro h1
      rw [h1] at hpsplit
      have := hp.2.1
      rw [hpsplit] at this
      simpa using this
    have hylen : ∃ dy, dy = p₁.length ∧ IsShortestLen m start y dy ∧
        alookup s.cost y = some dy := by
      rcases List.eq_nil_or_concat p₁ with h1 | ⟨p₁', u, h1⟩
      on_goal 2 => rw [List.concat_eq_append] at h1
      · refine ⟨0, by rw [h1]; simp, ?_, ?_⟩
        · rw [hys h1]
          exact shortest_self m start
        · rw [hys h1]
          exact inv.startCost
      · rw [h1] at hpsplit hall
        have hsplit2 : p = p₁' ++ u :: y :: p₂ := by rw [hpsplit]; simp
        have hu : u ∈ s.visited := hall u (by simp)
        rcases inv.visDist u hu with ⟨du, hdush, hducost⟩
        have hdusplit := shortest_split hk hp hpl hsplit2
        have hdueq : du = p₁'.length := shortest_unique hdush hdusplit
        have hstepuy : isStep m u y := by
          have hsuf := (pathFrom_split hp hsplit2).2
          exact (List.chain'_cons.mp hsuf.2.2.2).1
        rcases inv.visRelax u hu du hducost y hstepuy with ⟨cy, hcy, hcyle⟩
        have hysplit := shortest_split hk hp hpl hpsplit
        have hyge : (p₁' ++ [u]).length ≤ cy :=
          cost_ge_dist inv.anchor inv.keysEq inv.noneStart inv.edge hcy hysplit
        have hp1len : (p₁' ++ [u]).length = p₁'.length + 1 := by simp
        have hcyeq : cy = (p₁' ++ [u]).length := by omega
        rw [h1]
        refine ⟨cy, hcyeq, ?_, hcy⟩
        rw [hcyeq]
        exact hysplit
    rcases hylen with ⟨dy, hdylen, hdysh, hdycost⟩
    have hey : (dy + hh y, dy, y) ∈ s.heap := inv.unvisHeap y dy hdycost hy
    have hfley : f ≤ dy + hh y := by
      rw [hhp] at hey
      rcases List.mem_cons.mp hey with heq | hmem
      · have h0 : dy + hh y = f := by
          simpa using congrArg Prod.fst heq
        omega
      · have h0 := List.pairwise_cons.mp (hhp ▸ inv.sorted)
        have h2 := entryLE_fst (h0.1 _ hmem)
        simpa using h2
    have hsuf := (pathFrom_split hp hpsplit).2
    have hcons2 := chain'_heuristic_le hcons (y :: p₂) hsuf.2.2.2 y (by simp) c
      (by simpa using hsuf.2.2.1)
    have hplen : p.length = p₁.length + 1 + p₂.length := by rw [hpsplit]; simp; omega
    simp only [List.length_cons] at hcons2
    omega
  have hceq : cc = k := by omega
  rw [hceq] at hcc
  exact ⟨k, hk, hcc⟩

/-- The relaxation loop of UCS/A* preserves the invariant, only lowers
recorded costs, relaxes every processed neighbor, and does not increase the
loop potential. -/
theorem hRelax_spec (m : Maze) (start : Pos) (hh : Pos → Nat) (vis : List Pos)
    (c : Pos) (dc : Nat) (hcvis : c ∈ vis)
    (hdc : IsShortestLen m start c dc) (hdcV : dc ≤ (validCells m).length) :
    ∀ (ns : List Pos) (hp : List HEntry) (pm : PMap) (cost : CMap),
      (∀ n ∈ ns, isStep m c n) →
      HMid m start hh vis c hp pm cost →
      alookup cost c = some dc →
      HMid m start hh vis c (hRelax m hh c ns (hp, pm, cost)).1
        (hRelax m hh c ns (hp, pm, cost)).2.1 (hRelax m hh c ns (hp, pm, cost)).2.2 ∧
      costLe (hRelax m hh c ns (hp, pm, cost)).2.2 cost ∧
      alookup (hRelax m hh c ns (hp, pm, cost)).2.2 c = some dc ∧
      (∀ n ∈ ns, ∃ cn, alookup (hRelax m hh c ns (hp, pm, cost)).2.2 n = some cn ∧
        cn ≤ dc + 1) ∧
      (hRelax m hh c ns (hp, pm, cost)).1.length +
          hSlack m (hRelax m hh c ns (hp, pm, cost)).2.2 ≤ hp.length + hSlack m cost
  | [], hp, pm, cost, hns, mid, hcostC => by
    refine ⟨by simpa [hRelax] using mid, ?_, by simpa [hRelax] using hcostC, by simp, ?_⟩
    · simp only [hRelax]
      exact costLe_refl cost
    · simp [hRelax]
  | n :: ns, hp, pm, cost, hns, mid, hcostC => by
    have hstepn : isStep m c n := hns n (List.mem_cons_self _ _)
    have hnc : n ≠ c := isStep_ne hstepn
    have hnvalid : n ∈ validCells m := isStep_mem_validCells hstepn
    have hreachc : Reachable m start c := mid.reach c (by simp [hcostC])
    have hrelax_eq : hRelax m hh c (n :: ns) (hp, pm, cost) =
        hRelax m hh c ns
          (if (match alookup cost n with
               | none => true
               | some cn => decide ((alookup cost c).getD 0 + 1 < cn)) then
            (heapInsert ((alookup cost c).getD 0 + 1 + hh n,
              (alookup cost c).getD 0 + 1, n) hp,
              (n, some c) :: pm, (n, (alookup cost c).getD 0 + 1) :: cost)
          else (hp, pm, cost)) := by
      simp only [hRelax]
      split <;> rfl
    have hgetD : (alookup cost c).getD 0 = dc := by rw [hcostC]; rfl
    match hcn : alookup cost n with
    | some cn =>
      by_cases hlt : dc + 1 < cn
      · -- strict improvement: update
        have hupd : (match alookup cost n with
            | none => true
            | some cn => decide ((alookup cost c).getD 0 + 1 < cn)) = true := by
          rw [hcn, hgetD]
          simpa using hlt
        have hnvis : n ∉ vis := by
          intro hnv
          rcases mid.visDist n hnv with ⟨dn, hdnsh, hdncost⟩
          rw [hcn] at hdncost
          cases hdncost
          have := shortest_le_succ_of_step hdc hstepn hdnsh
          omega
        rw [hrelax_eq, if_pos hupd, hgetD]
        set e : HEntry := (dc + 1 + hh n, dc + 1, n) with he
        set hp' := heapInsert e hp with hhp'
        set pm' : PMap := (n, some c) :: pm with hpm'
        set cost' : CMap := (n, dc + 1) :: cost with hcost'
        have hnstart : n ≠ start := by
          intro h0
          rw [h0] at hcn
          rw [mid.startCost] at hcn
          cases hcn
          omega
        have hcostC' : alookup cost' c = some dc := by
          rw [hcost', alookup_cons_ne _ _ _ _ hnc]
          exact hcostC
        have hcostn' : alookup cost' n = some (dc + 1) := alookup_cons_self _ _ _
        have hcostOther : ∀ v, v ≠ n → alookup cost' v = alookup cost v := by
          intro v hv
          rw [hcost', alookup_cons_ne _ _ _ _ (fun h0 => hv h0.symm)]
        have hpmOther : ∀ v, v ≠ n → alookup pm' v = alookup pm v := by
          intro v hv
          rw [hpm', alookup_cons_ne _ _ _ _ (fun h0 => hv h0.symm)]
        have hpmn : alookup pm' n = some (some c) := alookup_cons_self _ _ _
        have mid' : HMid m start hh vis c hp' pm' cost' := by
          constructor
          case sorted => exact pairwise_heapInsert e hp mid.sorted
          case startCost =>
            rw [hcostOther start (fun h0 => hnstart h0.symm)]
            exact mid.startCost
          case startKey =>
            rw [hpmOther start (fun h0 => hnstart h0.symm)]
            exact mid.startKey
          case noneStart =>
            intro v hv
            by_cases hvn : v = n
            · rw [hvn, hpmn] at hv; cases hv
            · rw [hpmOther v hvn] at hv
              exact mid.noneStart v hv
          case keysEq =>
            intro v
            by_cases hvn : v = n
            · rw [hvn, hpmn, hcostn']; simp
            · rw [hpmOther v hvn, hcostOther v hvn]
              exact mid.keysEq v
          case edge =>
            intro v u hv
            by_cases hvn : v = n
            · rw [hvn, hpmn] at hv
              cases hv
              rw [hvn]
              exact hstepn
            · rw [hpmOther v hvn] at hv
              exact mid.edge v u hv
          case anchor =>
            intro v u hv
            by_cases hvn : v = n
            · rw [hvn, hpmn] at hv
              cases hv
              refine ⟨dc + 1, dc, by rw [hvn]; exact hcostn', hcostC', by omega⟩
            · rw [hpmOther v hvn] at hv
              rcases mid.anchor v u hv with ⟨cv, cu, hcv, hcu, hle⟩
              by_cases hun : u = n
              · refine ⟨cv, dc + 1, by rw [hcostOther v hvn]; exact hcv,
                  by rw [hun]; exact hcostn', ?_⟩
                rw [hun, hcn] at hcu
                cases hcu
                omega
              · exact ⟨cv, cu, by rw [hcostOther v hvn]; exact hcv,
                  by rw [hcostOther u hun]; exact hcu, hle⟩
          case reach =>
            intro v hv
            by_cases hvn : v = n
            · rw [hvn]
              exact reachable_step hreachc hstepn
            · rw [hcostOther v hvn] at hv
              exact mid.reach v hv
          case costBound =>
            intro v cv hv
            by_cases hvn : v = n
            · rw [hvn, hcostn'] at hv
              cases hv
              omega
            · rw [hcostOther v hvn] at hv
              exact mid.costBound v cv hv
          case heapWf =>
            intro e' he'
            rcases (mem_heapInsert e e' hp).mp he' with rfl | hmem
            · exact ⟨dc + 1, hcostn', by simp [he]⟩
            · rcases mid.heapWf e' hmem with ⟨cv, hcv, hle, hf⟩
              by_cases hpn : e'.2.2 = n
              · rw [hpn] at hcv
                rw [hcn] at hcv
                cases hcv
                exact ⟨dc + 1, by rw [hpn]; exact hcostn', by omega, hf⟩
              · exact ⟨cv, by rw [hcostOther _ hpn]; exact hcv, hle, hf⟩
          case visKeys =>
            intro u hu
            by_cases hun : u = n
            · rw [hun, hcostn']; simp
            · rw [hcostOther u hun]
              exact mid.visKeys u hu
          case visDist =>
            intro u hu
            have hun : u ≠ n := fun h0 => hnvis (h0 ▸ hu)
            rcases mid.visDist u hu with ⟨du, h1, h2⟩
            exact ⟨du, h1, by rw [hcostOther u hun]; exact h2⟩
          case visRelaxExc =>
            intro u hu huc du hdu nb hnb
            have hun : u ≠ n := fun h0 => hnvis (h0 ▸ hu)
            rw [hcostOther u hun] at hdu
            rcases mid.visRelaxExc u hu huc du hdu nb hnb with ⟨cnb, hcnb, hcnble⟩
            by_cases hnbn : nb = n
            · rw [hnbn, hcn] at hcnb
              cases hcnb
              exact ⟨dc + 1, by rw [hnbn]; exact hcostn', by omega⟩
            · exact ⟨cnb, by rw [hcostOther nb hnbn]; exact hcnb, hcnble⟩
          case unvisHeap =>
            intro v cv hv hnv
            by_cases hvn : v = n
            · rw [hvn, hcostn'] at hv
              cases hv
              rw [hvn]
              exact (mem_heapInsert e e hp).mpr (Or.inl rfl)
            · rw [hcostOther v hvn] at hv
              exact (mem_heapInsert e _ hp).mpr (Or.inr (mid.unvisHeap v cv hv hnv))
        have hcostLe1 : costLe cost' cost := by
          intro v cv0 hv
          by_cases hvn : v = n
          · rw [hvn, hcn] at hv
            cases hv
            exact ⟨dc + 1, by rw [hvn]; exact hcostn', by omega⟩
          · exact ⟨cv0, by rw [hcostOther v hvn]; exact hv, le_refl _⟩
        have hmeas1 : hp'.length + hSlack m cost' ≤ hp.length + hSlack m cost := by
          have hlen := length_heapInsert e hp
          have hslack : hSlack m cost' + 1 ≤ hSlack m cost := by
            unfold hSlack
            apply sum_lt_of_point (validCells_nodup m) hnvalid
            · rw [hcostn', hcn]
              show dc + 1 < cn
              omega
            · intro v hv
              rw [hcostOther v hv]
          rw [← hhp'] at hlen
          omega
        rcases hRelax_spec m start hh vis c dc hcvis hdc hdcV ns hp' pm' cost'
          (fun x hx => hns x (List.mem_cons_of_mem _ hx)) mid' hcostC' with
          ⟨hmidF, hcostLeF, hcostCF, hrelaxF, hmeasF⟩
        refine ⟨hmidF, costLe_trans hcostLe1 hcostLeF, hcostCF, ?_, by omega⟩
        intro x hx
        rcases List.mem_cons.mp hx with rfl | hx'
        · rcases hcostLeF x (dc + 1) hcostn' with ⟨cv', h1, h2⟩
          exact ⟨cv', h1, by omega⟩
        · exact hrelaxF x hx'
      · -- no improvement: skip
        have hupd : (match alookup cost n with
            | none => true
            | some cn => decide ((alookup cost c).getD 0 + 1 < cn)) = false := by
          rw [hcn, hgetD]
          simpa using hlt
        rw [hrelax_eq, if_neg (by rw [hupd]; simp)]
        rcases hRelax_spec m start hh vis c dc hcvis hdc hdcV ns hp pm cost
          (fun x hx => hns x (List.mem_cons_of_mem _ hx)) mid hcostC with
          ⟨hmidF, hcostLeF, hcostCF, hrelaxF, hmeasF⟩
        refine ⟨hmidF, hcostLeF, hcostCF, ?_, hmeasF⟩
        intro x hx
        rcases List.mem_cons.mp hx with rfl | hx'
        · rcases hcostLeF x cn hcn with ⟨cv', h1, h2⟩
          exact ⟨cv', h1, by omega⟩
        · exact hrelaxF x hx'
    | none =>
      have hupd : (match alookup cost n with
          | none => true
          | some cn => decide ((alookup cost c).getD 0 + 1 < cn)) = true := by
        rw [hcn]
      have hnvis : n ∉ vis := by
        intro hnv
        have := mid.visKeys n hnv
        rw [hcn] at this
        cases this
      rw [hrelax_eq, if_pos hupd, hgetD]
      set e : HEntry := (dc + 1 + hh n, dc + 1, n) with he
      set hp' := heapInsert e hp with hhp'
      set pm' : PMap := (n, some c) :: pm with hpm'
      set cost' : CMap := (n, dc + 1) :: cost with hcost'
      have hnstart : n ≠ start := by
        intro h0
        rw [h0] at hcn
        rw [mid.startCost] at hcn
        cases hcn
      have hcostC' : alookup cost' c = some dc := by
        rw [hcost', alookup_cons_ne _ _ _ _ hnc]
        exact hcostC
      have hcostn' : alookup cost' n = some (dc + 1) := alookup_cons_self _ _ _
      have hcostOther : ∀ v, v ≠ n → alookup cost' v = alookup cost v := by
        intro v hv
        rw [hcost', alookup_cons_ne _ _ _ _ (fun h0 => hv h0.symm)]
      have hpmOther : ∀ v, v ≠ n → alookup pm' v = alookup pm v := by
        intro v hv
        rw [hpm', alookup_cons_ne _ _ _ _ (fun h0 => hv h0.symm)]
      have hpmn : alookup pm' n = some (some c) := alookup_cons_self _ _ _
      have mid' : HMid m start hh vis c hp' pm' cost' := by
        constructor
        case sorted => exact pairwise_heapInsert e hp mid.sorted
        case startCost =>
          rw [hcostOther start (fun h0 => hnstart h0.symm)]
          exact mid.startCost
        case startKey =>
          rw [hpmOther start (fun h0 => hnstart h0.symm)]
          exact mid.startKey
        case noneStart =>
          intro v hv
          by_cases hvn : v = n
          · rw [hvn, hpmn] at hv; cases hv
          · rw [hpmOther v hvn] at hv
            exact mid.noneStart v hv
        case keysEq =>
          intro v
          by_cases hvn : v = n
          · rw [hvn, hpmn, hcostn']; simp
          · rw [hpmOther v hvn, hcostOther v hvn]
            exact mid.keysEq v
        case edge =>
          intro v u hv
          by_cases hvn : v = n
          · rw [hvn, hpmn] at hv
            cases hv
            rw [hvn]
            exact hstepn
          · rw [hpmOther v hvn] at hv
            exact mid.edge v u hv
        case anchor =>
          intro v u hv
          by_cases hvn : v = n
          · rw [hvn, hpmn] at hv
            cases hv
            refine ⟨dc + 1, dc, by rw [hvn]; exact hcostn', hcostC', by omega⟩
          · rw [hpmOther v hvn] at hv
            rcases mid.anchor v u hv with ⟨cv, cu, hcv, hcu, hle⟩
            by_cases hun : u = n
            · rw [hun, hcn] at hcu
              cases hcu
            · exact ⟨cv, cu, by rw [hcostOther v hvn]; exact hcv,
                by rw [hcostOther u hun]; exact hcu, hle⟩
        case reach =>
          intro v hv
          by_cases hvn : v = n
          · rw [hvn]
            exact reachable_step hreachc hstepn
          · rw [hcostOther v hvn] at hv
            exact mid.reach v hv
        case costBound =>
          intro v cv hv
          by_cases hvn : v = n
          · rw [hvn, hcostn'] at hv
            cases hv
            omega
          · rw [hcostOther v hvn] at hv
            exact mid.costBound v cv hv
        case heapWf =>
          intro e' he'
          rcases (mem_heapInsert e e' hp).mp he' with rfl | hmem
          · exact ⟨dc + 1, hcostn', by simp [he]⟩
          · rcases mid.heapWf e' hmem with ⟨cv, hcv, hle, hf⟩
            by_cases hpn : e'.2.2 = n
            · rw [hpn, hcn] at hcv
              cases hcv
            · exact ⟨cv, by rw [hcostOther _ hpn]; exact hcv, hle, hf⟩
        case visKeys =>
          intro u hu
          have hun : u ≠ n := fun h0 => hnvis (h0 ▸ hu)
          rw [hcostOther u hun]
          exact mid.visKeys u hu
        case visDist =>
          intro u hu
          have hun : u ≠ n := fun h0 => hnvis (h0 ▸ hu)
          rcases mid.visDist u hu with ⟨du, h1, h2⟩
          exact ⟨du, h1, by rw [hcostOther u hun]; exact h2⟩
        case visRelaxExc =>
          intro u hu huc du hdu nb hnb
          have hun : u ≠ n := fun h0 => hnvis (h0 ▸ hu)
          rw [hcostOther u hun] at hdu
          rcases mid.visRelaxExc u hu huc du hdu nb hnb with ⟨cnb, hcnb, hcnble⟩
          by_cases hnbn : nb = n
          · rw [hnbn, hcn] at hcnb
            cases hcnb
          · exact ⟨cnb, by rw [hcostOther nb hnbn]; exact hcnb, hcnble⟩
        case unvisHeap =>
          intro v cv hv hnv
          by_cases hvn : v = n
          · rw [hvn, hcostn'] at hv
            cases hv
            rw [hvn]
            exact (mem_heapInsert e e hp).mpr (Or.inl rfl)
          · rw [hcostOther v hvn] at hv
            exact (mem_heapInsert e _ hp).mpr (Or.inr (mid.unvisHeap v cv hv hnv))
      have hcostLe1 : costLe cost' cost := by
        intro v cv0 hv
        by_cases hvn : v = n
        · rw [hvn, hcn] at hv
          cases hv
        · exact ⟨cv0, by rw [hcostOther v hvn]; exact hv, le_refl _⟩
      have hmeas1 : hp'.length + hSlack m cost' ≤ hp.length + hSlack m cost := by
        have hlen := length_heapInsert e hp
        have hslack : hSlack m cost' + 1 ≤ hSlack m cost := by
          unfold hSlack
          apply sum_lt_of_point (validCells_nodup m) hnvalid
          · rw [hcostn', hcn]
            show dc + 1 < (validCells m).length + 2
            omega
          · intro v hv
            rw [hcostOther v hv]
        rw [← hhp'] at hlen
        omega
      rcases hRelax_spec m start hh vis c dc hcvis hdc hdcV ns hp' pm' cost'
        (fun x hx => hns x (List.mem_cons_of_mem _ hx)) mid' hcostC' with
        ⟨hmidF, hcostLeF, hcostCF, hrelaxF, hmeasF⟩
      refine ⟨hmidF, costLe_trans hcostLe1 hcostLeF, hcostCF, ?_, by omega⟩
      intro x hx
      rcases List.mem_cons.mp hx with rfl | hx'
      · rcases hcostLeF x (dc + 1) hcostn' with ⟨cv', h1, h2⟩
        exact ⟨cv', h1, by omega⟩
      · exact hrelaxF x hx'

theorem hLoop_empty (m : Maze) (goal : Pos) (hh : Pos → Nat) (fuel : Nat)
    (s : HState) (h : s.heap = []) : hLoop m goal hh (fuel + 1) s = s := by
  simp [hLoop, h]

theorem hLoop_break (m : Maze) (goal : Pos) (hh : Pos → Nat) (fuel : Nat)
    (s : HState) {f g : Nat} {c : Pos} {rest : List HEntry}
    (hhp : s.heap = (f, g, c) :: rest) (hc : c = goal) :
    hLoop m goal hh (fuel + 1) s =
      { s with heap := rest,
               tracePops := s.tracePops ++ [((f, g, c), decide (c ∈ s.visited), true)] } := by
  simp [hLoop, hhp, hc]

theorem hLoop_stale (m : Maze) (goal : Pos) (hh : Pos → Nat) (fuel : Nat)
    (s : HState) {f g : Nat} {c : Pos} {rest : List HEntry}
    (hhp : s.heap = (f, g, c) :: rest) (hc : c ≠ goal) (hv : c ∈ s.visited) :
    hLoop m goal hh (fuel + 1) s =
      hLoop m goal hh fuel
        { s with heap := rest,
                 tracePops := s.tracePops ++ [((f, g, c), true, false)] } := by
  simp [hLoop, hhp, hc, hv]

theorem hLoop_expand (m : Maze) (goal : Pos) (hh : Pos → Nat) (fuel : Nat)
    (s : HState) {f g : Nat} {c : Pos} {rest : List HEntry}
    (hhp : s.heap = (f, g, c) :: rest) (hc : c ≠ goal) (hv : c ∉ s.visited) :
    hLoop m goal hh (fuel + 1) s =
      hLoop m goal hh fuel
        { heap := (hRelax m hh c (get_neighbors m c.1 c.2) (rest, s.parent, s.cost)).1,
          visited := c :: s.visited,
          parent := (hRelax m hh c (get_neighbors m c.1 c.2) (rest, s.parent, s.cost)).2.1,
          cost := (hRelax m hh c (get_neighbors m c.1 c.2) (rest, s.parent, s.cost)).2.2,
          expanded := s.expanded + 1,
          tracePops := s.tracePops ++ [((f, g, c), false, false)] } := by
  simp [hLoop, hhp, hc, hv]

/-- At a state with an empty heap, the invariant rules out reaching the
goal at all. -/
theorem hInv_empty_unreach {m : Maze} {start goal : Pos} {hh : Pos → Nat}
    {s : HState} (inv : HInv m start goal hh s) (hempty : s.heap = []) :
    ¬Reachable m start goal := by
  intro hr
  rcases shortest_exists hr with ⟨k, hk⟩
  rcases hk.1 with ⟨p, hp, hpl⟩
  have hlast : goal ∈ p := List.mem_of_mem_getLast? hp.2.2.1
  rcases exists_first_not_mem (· ∈ s.visited) p ⟨goal, hlast, inv.goalNotVis⟩ with
    ⟨p₁, y, p₂, hpsplit, hall, hy⟩
  have hykey : (alookup s.cost y).isSome := by
    rcases List.eq_nil_or_concat p₁ with h1 | ⟨p₁', u, h1⟩
    · have hys : y = start := by
        rw [h1] at hpsplit
        have := hp.2.1
        rw [hpsplit] at this
        simpa using this
      rw [hys, inv.startCost]
      simp
    · rw [List.concat_eq_append] at h1
      rw [h1] at hpsplit hall
      have hsplit2 : p = p₁' ++ u :: y :: p₂ := by rw [hpsplit]; simp
      have hu : u ∈ s.visited := hall u (by simp)
      rcases inv.visDist u hu with ⟨du, hdush, hducost⟩
      have hstepuy : isStep m u y := by
        have hsuf := (pathFrom_split hp hsplit2).2
        exact (List.chain'_cons.mp hsuf.2.2.2).1
      rcases inv.visRelax u hu du hducost y hstepuy with ⟨cy, hcy, -⟩
      rw [hcy]
      simp
  match hcy : alookup s.cost y with
  | some cy =>
    have := inv.unvisHeap y cy hcy hy
    rw [hempty] at this
    cases this
  | none => rw [hcy] at hykey; cases hykey

/-- Expanding an unvisited non-goal head of the heap preserves the UCS/A*
invariant and strictly decreases the potential. -/
theorem hExpand_inv {m : Maze} {start goal : Pos} {hh : Pos → Nat} {s : HState}
    (hcons : ∀ u v, isStep m u v → hh u ≤ hh v + 1)
    (inv : HInv m start goal hh s)
    {f g : Nat} {c : Pos} {rest : List HEntry}
    (hhp : s.heap = (f, g, c) :: rest) (hcg : c ≠ goal) (hcv : c ∉ s.visited) :
    ∀ e tr, HInv m start goal hh
      { heap := (hRelax m hh c (get_neighbors m c.1 c.2) (rest, s.parent, s.cost)).1,
        visited := c :: s.visited,
        parent := (hRelax m hh c (get_neighbors m c.1 c.2) (rest, s.parent, s.cost)).2.1,
        cost := (hRelax m hh c (get_neighbors m c.1 c.2) (rest, s.parent, s.cost)).2.2,
        expanded := e, tracePops := tr } ∧
    (hRelax m hh c (get_neighbors m c.1 c.2) (rest, s.parent, s.cost)).1.length +
      hSlack m (hRelax m hh c (get_neighbors m c.1 c.2) (rest, s.parent, s.cost)).2.2 + 1 ≤
      s.heap.length + hSlack m s.cost := by
  intro e tr
  rcases hPop_dist hcons inv hhp hcv with ⟨dc, hdcs, hdccost⟩
  have hdcV : dc ≤ (validCells m).length := shortest_le_validCells hdcs
  have hrs : List.Pairwise entryLE rest := by
    have := inv.sorted
    rw [hhp] at this
    exact (List.pairwise_cons.mp this).2
  have mid0 : HMid m start hh (c :: s.visited) c rest s.parent s.cost := by
    refine ⟨hrs, inv.startCost, inv.startKey, inv.noneStart, inv.keysEq, inv.edge,
      inv.anchor, inv.reach, inv.costBound, ?_, ?_, ?_, ?_, ?_⟩
    · intro e' he'
      exact inv.heapWf e' (by rw [hhp]; exact List.mem_cons_of_mem _ he')
    · intro u hu
      rcases List.mem_cons.mp hu with rfl | hu
      · simp [hdccost]
      · exact inv.visKeys u hu
    · intro u hu
      rcases List.mem_cons.mp hu with rfl | hu
      · exact ⟨dc, hdcs, hdccost⟩
      · exact inv.visDist u hu
    · intro u hu hune du hdu n hn
      rcases List.mem_cons.mp hu with rfl | hu
      · exact absurd rfl hune
      · exact inv.visRelax u hu du hdu n hn
    · intro v cv hcvv hvv
      have hvne : v ≠ c := fun h0 => hvv (h0 ▸ List.mem_cons_self _ _)
      have hvnv : v ∉ s.visited := fun h0 => hvv (List.mem_cons_of_mem _ h0)
      have := inv.unvisHeap v cv hcvv hvnv
      rw [hhp] at this
      rcases List.mem_cons.mp this with h0 | h0
      · exact absurd (congrArg (fun x => x.2.2) h0) (by simpa using hvne)
      · exact h0
  have hns : ∀ n ∈ get_neighbors m c.1 c.2, isStep m c n := fun n hn => hn
  rcases hRelax_spec m start hh (c :: s.visited) c dc (List.mem_cons_self _ _)
      hdcs hdcV (get_neighbors m c.1 c.2) rest s.parent s.cost hns mid0 hdccost with
    ⟨mid', hcle, hcostC, hrelaxed, hmeas⟩
  constructor
  · refine ⟨mid'.sorted, mid'.startCost, mid'.startKey, mid'.noneStart, mid'.keysEq,
      mid'.edge, mid'.anchor, mid'.reach, mid'.costBound, mid'.heapWf, mid'.visKeys,
      ?_, mid'.visDist, ?_, mid'.unvisHeap, ?_⟩
    · exact List.nodup_cons.mpr ⟨hcv, inv.visNodup⟩
    · intro u hu du hdu n hn
      rcases List.mem_cons.mp hu with rfl | huv
      · have hdueq : du = dc := by
          rw [hdu] at hcostC
          exact Option.some.inj hcostC
        rcases hrelaxed n hn with ⟨cn, hcn, hcnle⟩
        exact ⟨cn, hcn, by omega⟩
      · exact mid'.visRelaxExc u (List.mem_cons_of_mem _ huv) (by
          intro h0
          exact hcv (h0 ▸ huv)) du hdu n hn
    · intro h0
      rcases List.mem_cons.mp h0 with h1 | h1
      · exact hcg h1.symm
      · exact inv.goalNotVis h1
  · rw [hhp]
    simp only [List.length_cons]
    omega

/-- At an empty heap the invariant already yields the end-state summary. -/
theorem hInv_end_empty {m : Maze} {start goal : Pos} {hh : Pos → Nat} {s : HState}
    (inv : HInv m start goal hh s) (hempty : s.heap = []) :
    HEnd m start goal s := by
  have hunreach := hInv_empty_unreach inv hempty
  exact ⟨inv.startKey, inv.noneStart, inv.keysEq, inv.edge, inv.anchor, inv.reach,
    ⟨fun hk => inv.reach goal hk, fun hr => absurd hr hunreach⟩,
    fun hk => absurd (inv.reach goal hk) hunreach⟩

/-- Running the UCS/A* loop from an invariant state with enough fuel ends in
a state satisfying the end-state summary. -/
theorem hLoop_run {m : Maze} {start goal : Pos} {hh : Pos → Nat}
    (hcons : ∀ u v, isStep m u v → hh u ≤ hh v + 1) :
    ∀ (fuel : Nat) (s : HState), HInv m start goal hh s → hPhi m s ≤ fuel →
      HEnd m start goal (hLoop m goal hh fuel s) := by
  intro fuel
  induction fuel with
  | zero =>
    intro s inv hphi
    have hempty : s.heap = [] := by
      have h0 : s.heap.length = 0 := by
        simp only [hPhi] at hphi
        omega
      exact List.length_eq_zero.mp h0
    exact hInv_end_empty inv hempty
  | succ fuel ih =>
    intro s inv hphi
    rcases hhp : s.heap with _ | ⟨⟨f, g, c⟩, rest⟩
    · rw [hLoop_empty m goal hh fuel s hhp]
      exact hInv_end_empty inv hhp
    · by_cases hcg : c = goal
      · rw [hLoop_break m goal hh fuel s hhp hcg]
        have hcv : c ∉ s.visited := by rw [hcg]; exact inv.goalNotVis
        rcases hPop_dist hcons inv hhp hcv with ⟨dg, hdgs, hdgc⟩
        rw [hcg] at hdgs hdgc
        refine ⟨inv.startKey, inv.noneStart, inv.keysEq, inv.edge, inv.anchor,
          inv.reach, ⟨fun hk => inv.reach goal hk, fun _ => by simp [hdgc]⟩,
          fun _ => ⟨dg, hdgs, hdgc⟩⟩
      · by_cases hcvis : c ∈ s.visited
        · rw [hLoop_stale m goal hh fuel s hhp hcg hcvis]
          apply ih
          · refine ⟨?_, inv.startCost, inv.startKey, inv.noneStart, inv.keysEq,
              inv.edge, inv.anchor, inv.reach, inv.costBound, ?_, inv.visKeys,
              inv.visNodup, inv.visDist, inv.visRelax, ?_, inv.goalNotVis⟩
            · have hs := inv.sorted
              rw [hhp] at hs
              exact (List.pairwise_cons.mp hs).2
            · intro e' he'
              exact inv.heapWf e' (by rw [hhp]; exact List.mem_cons_of_mem _ he')
            · intro v cv hcvv hvv
              have hvne : v ≠ c := fun h0 => hvv (h0 ▸ hcvis)
              have := inv.unvisHeap v cv hcvv hvv
              rw [hhp] at this
              rcases List.mem_cons.mp this with h0 | h0
              · exact absurd (congrArg (fun x => x.2.2) h0) (by simpa using hvne)
              · exact h0
          · simp only [hPhi] at hphi ⊢
            rw [hhp] at hphi
            simp only [List.length_cons] at hphi
            omega
        · rw [hLoop_expand m goal hh fuel s hhp hcg hcvis]
          rcases hExpand_inv hcons inv hhp hcg hcvis (s.expanded + 1)
              (s.tracePops ++ [((f, g, c), false, false)]) with ⟨inv', hmeas⟩
          apply ih _ inv'
          simp only [hPhi] at hphi ⊢
          omega

theorem hInit_inv (m : Maze) (start goal : Pos) (hh : Pos → Nat) (e : Nat) :
    HInv m start goal hh
      { heap := [(hh start, 0, start)], visited := [], parent := [(start, none)],
        cost := [(start, 0)], expanded := e, tracePops := [] } := by
  have hlook : ∀ (α : Type) (x : α) (v : Pos), alookup [(start, x)] v = some x → v = start := by
    intro α x v hv
    by_cases h : start = v
    · exact h.symm
    · rw [alookup_cons_ne _ _ _ _ h] at hv
      simp [alookup] at hv
  constructor
  case sorted => simp
  case startCost => exact alookup_cons_self _ _ _
  case startKey => exact alookup_cons_self _ _ _
  case noneStart => exact fun v hv => hlook _ none v hv
  case keysEq =>
    intro v
    by_cases h : start = v
    · subst h; simp [alookup_cons_self]
    · rw [alookup_cons_ne _ _ _ _ h, alookup_cons_ne _ _ _ _ h]
      simp [alookup]
  case edge =>
    intro v u hv
    by_cases h : start = v
    · rw [← h, alookup_cons_self] at hv
      cases hv
    · rw [alookup_cons_ne _ _ _ _ h] at hv
      simp [alookup] at hv
  case anchor =>
    intro v u hv
    by_cases h : start = v
    · rw [← h, alookup_cons_self] at hv
      cases hv
    · rw [alookup_cons_ne _ _ _ _ h] at hv
      simp [alookup] at hv
  case reach =>
    intro v hv
    have hvs : v = start := by
      by_cases h : start = v
      · exact h.symm
      · rw [alookup_cons_ne _ _ _ _ h] at hv
        simp [alookup] at hv
    rw [hvs]
    exact ⟨[start], pathFrom_singleton m start⟩
  case costBound =>
    intro v cv hv
    by_cases h : start = v
    · subst h
      rw [alookup_cons_self] at hv
      cases hv
      omega
    · rw [alookup_cons_ne _ _ _ _ h] at hv
      simp [alookup] at hv
  case heapWf =>
    intro e' he'
    simp only [List.mem_singleton] at he'
    subst he'
    exact ⟨0, alookup_cons_self _ _ _, le_refl _, by simp⟩
  case visKeys => intro u hu; simp at hu
  case visNodup => simp
  case visDist => intro u hu; simp at hu
  case visRelax => intro u hu; simp at hu
  case unvisHeap =>
    intro v cv hv _
    have hvs : v = start := by
      by_cases h : start = v
      · exact h.symm
      · rw [alookup_cons_ne _ _ _ _ h] at hv
        simp [alookup] at hv
    subst hvs
    rw [alookup_cons_self] at hv
    cases hv
    simp
  case goalNotVis => simp

theorem hInit_phi (m : Maze) (start : Pos) (hh : Pos → Nat) (e : Nat) :
    hPhi m
      { heap := [(hh start, 0, start)], visited := [], parent := [(start, none)],
        cost := [(start, 0)], expanded := e, tracePops := [] } ≤ hFuel m := by
  simp only [hPhi, hFuel, List.length_singleton]
  have hsum : hSlack m [(start, 0)] ≤
      (validCells m).length * ((validCells m).length + 2) := by
    unfold hSlack
    refine le_trans (List.sum_le_card_nsmul _ ((validCells m).length + 2) ?_) ?_
    · intro x hx
      rcases List.mem_map.mp hx with ⟨v, -, hvx⟩
      by_cases h : start = v
      · rw [← h, alookup_cons_self] at hvx
        have hx0 : (0 : Nat) = x := hvx
        omega
      · rw [alookup_cons_ne _ _ _ _ h] at hvx
        simp only [alookup] at hvx
        have hx0 : (validCells m).length + 2 = x := hvx
        omega
    · simp [smul_eq_mul]
  nlinarith [hsum]

theorem hRun_end (G : Maze) (hh : Pos → Nat) (e : Nat) (start goal : Pos)
    (hcons : ∀ u v, isStep G u v → hh u ≤ hh v + 1) :
    HEnd G start goal (hRun G hh e start goal) :=
  hLoop_run hcons (hFuel G) _ (hInit_inv G start goal hh e) (hInit_phi G start hh e)

theorem hEnd_walk {m : Maze} {start goal : Pos} {s : HState}
    (e : HEnd m start goal s) (h : (alookup s.parent goal).isSome) :
    ∃ l, PChain s.parent start goal l ∧
      walkParents s.parent s.parent.length goal = l ∧
      PathFrom m start goal l.reverse ∧ l.reverse.Nodup ∧
      ∀ cg, alookup s.cost goal = some cg → l.length ≤ cg + 1 := by
  have hrank := hInv_rank e.anchor
  have hclosed : ∀ v u, alookup s.parent v = some (some u) →
      (alookup s.parent u).isSome := by
    intro v u hv
    rcases e.anchor v u hv with ⟨_, cu, _, hcu, _⟩
    exact (e.keysEq u).mpr (by simp [hcu])
  rcases pchain_exists hrank hclosed e.noneStart goal h with ⟨l, hl⟩
  refine ⟨l, hl, ?_, pchain_pathFrom e.edge hl, ?_, ?_⟩
  · exact pchain_walk hl s.parent.length (by
      have := pchain_length_le hrank hl
      omega)
  · rw [List.nodup_reverse]
    exact (pchain_nodup hrank hl).1
  · intro cg hcg
    exact pchain_cost_le e.anchor hl cg hcg

theorem hSearch_path_eq (G : Maze) (hh : Pos → Nat) (a : SearchAlgorithm)
    (tdelta mdelta : Int) (start goal : Pos) :
    (hSearch G hh a tdelta mdelta start goal).1 =
      (if (alookup (hRun G hh a.expanded_nodes start goal).parent goal).isSome then
        (walkParents (hRun G hh a.expanded_nodes start goal).parent
          (hRun G hh a.expanded_nodes start goal).parent.length goal).reverse
      else []) := rfl

theorem hSearch_nonempty_iff (G : Maze) (hh : Pos → Nat) (a : SearchAlgorithm)
    (tdelta mdelta : Int) (start goal : Pos)
    (hcons : ∀ u v, isStep G u v → hh u ≤ hh v + 1) :
    (hSearch G hh a tdelta mdelta start goal).1 ≠ [] ↔ Reachable G start goal := by
  have hend := hRun_end G hh a.expanded_nodes start goal hcons
  rw [hSearch_path_eq]
  by_cases h : (alookup (hRun G hh a.expanded_nodes start goal).parent goal).isSome
  · rw [if_pos h]
    constructor
    · intro _
      exact hend.keyIffReach.mp ((hend.keysEq goal).mp h)
    · intro _
      simp only [ne_eq, List.reverse_eq_nil_iff]
      exact walkParents_ne_nil _ _ _
  · rw [if_neg h]
    constructor
    · intro h0
      exact absurd rfl h0
    · intro hr
      exact absurd ((hend.keysEq goal).mpr (hend.keyIffReach.mpr hr)) h

theorem hSearch_path_sound (G : Maze) (hh : Pos → Nat) (a : SearchAlgorithm)
    (tdelta mdelta : Int) (start goal : Pos)
    (hcons : ∀ u v, isStep G u v → hh u ≤ hh v + 1)
    (hne : (hSearch G hh a tdelta mdelta start goal).1 ≠ []) :
    PathFrom G start goal (hSearch G hh a tdelta mdelta start goal).1 ∧
      (hSearch G hh a tdelta mdelta start goal).1.Nodup := by
  have hend := hRun_end G hh a.expanded_nodes start goal hcons
  have hr := (hSearch_nonempty_iff G hh a tdelta mdelta start goal hcons).mp hne
  have hsome := (hend.keysEq goal).mpr (hend.keyIffReach.mpr hr)
  rcases hEnd_walk hend hsome with ⟨l, hch, hwalk, hpath, hnd, -⟩
  rw [hSearch_path_eq, if_pos hsome, hwalk]
  exact ⟨hpath, hnd⟩

theorem hSearch_path_shortest (G : Maze) (hh : Pos → Nat) (a : SearchAlgorithm)
    (tdelta mdelta : Int) (start goal : Pos)
    (hcons : ∀ u v, isStep G u v → hh u ≤ hh v + 1)
    {k : Nat} (hk : IsShortestLen G start goal k) :
    (hSearch G hh a tdelta mdelta start goal).1.length = k + 1 := by
  have hend := hRun_end G hh a.expanded_nodes start goal hcons
  have hr : Reachable G start goal := shortest_reachable hk
  have hsome := (hend.keysEq goal).mpr (hend.keyIffReach.mpr hr)
  rcases hEnd_walk hend hsome with ⟨l, hch, hwalk, hpath, hnd, hlen⟩
  rcases hend.goalKeyDist ((hend.keysEq goal).mp hsome) with ⟨dg, hdgs, hdgc⟩
  have hdgk : dg = k := shortest_unique hdgs hk
  have hub := hlen dg hdgc
  have hlb := hk.2 _ hpath
  rw [hSearch_path_eq, if_pos hsome, hwalk]
  simp only [List.length_reverse] at hlb ⊢
  omega

theorem hLoop_canon (m : Maze) (goal : Pos) (hh : Pos → Nat) :
    ∀ (fuel : Nat) (hp : List HEntry) (vis : List Pos) (pm : PMap) (cost : CMap),
      ∃ (hp2 : List HEntry) (vis2 : List Pos) (pm2 : PMap) (cost2 : CMap)
        (dtr : List (HEntry × Bool × Bool)),
        ∀ (e : Nat) (t : List (HEntry × Bool × Bool)),
          hLoop m goal hh fuel ⟨hp, vis, pm, cost, e, t⟩ =
            ⟨hp2, vis2, pm2, cost2, e + hCountNew dtr, t ++ dtr⟩ := by
  intro fuel
  induction fuel with
  | zero =>
    intro hp vis pm cost
    exact ⟨hp, vis, pm, cost, [], by intro e t; simp [hLoop, hCountNew]⟩
  | succ fuel ih =>
    intro hp vis pm cost
    rcases hhp : hp with _ | ⟨⟨f, g, c⟩, rest⟩
    · refine ⟨[], vis, pm, cost, [], ?_⟩
      intro e t
      rw [hLoop_empty m goal hh fuel _ rfl]
      simp [hCountNew]
    · by_cases hcg : c = goal
      · refine ⟨rest, vis, pm, cost, [((f, g, c), decide (c ∈ vis), true)], ?_⟩
        intro e t
        rw [hLoop_break m goal hh fuel _ rfl hcg]
        simp [hCountNew]
      · by_cases hcv : c ∈ vis
        · rcases ih rest vis pm cost with ⟨hp2, vis2, pm2, cost2, dtr, hIH⟩
          refine ⟨hp2, vis2, pm2, cost2, ((f, g, c), true, false) :: dtr, ?_⟩
          intro e t
          rw [hLoop_stale m goal hh fuel _ rfl hcg hcv]
          rw [hIH e (t ++ [((f, g, c), true, false)])]
          simp [hCountNew]
        · rcases ih (hRelax m hh c (get_neighbors m c.1 c.2) (rest, pm, cost)).1
            (c :: vis)
            (hRelax m hh c (get_neighbors m c.1 c.2) (rest, pm, cost)).2.1
            (hRelax m hh c (get_neighbors m c.1 c.2) (rest, pm, cost)).2.2 with
            ⟨hp2, vis2, pm2, cost2, dtr, hIH⟩
          refine ⟨hp2, vis2, pm2, cost2, ((f, g, c), false, false) :: dtr, ?_⟩
          intro e t
          rw [hLoop_expand m goal hh fuel _ rfl hcg hcv]
          rw [hIH (e + 1) (t ++ [((f, g, c), false, false)])]
          simp only [hCountNew, List.filter_cons, Bool.not_true, Bool.not_false,
            Bool.and_self, if_true, List.length_cons, HState.mk.injEq]
          exact ⟨trivial, trivial, trivial, trivial, by omega, by simp⟩

theorem bdRun_canon (G : Maze) (lifo : Bool) (start goal : Pos) :
    ∃ (found : Bool) (f2 vis2 : List Pos) (pm2 : PMap) (dtr : List Pos),
      ∀ e : Nat, bdRun G lifo e start goal =
        (found, ⟨f2, vis2, pm2, e + dtr.length, dtr⟩) := by
  rcases bdLoop_canon G goal lifo (bdFuel G) [start] [start] [(start, none)] with
    ⟨found, f2, vis2, pm2, dtr, h⟩
  exact ⟨found, f2, vis2, pm2, dtr, fun e => by simpa [bdRun] using h e []⟩

theorem hRun_canon (G : Maze) (hh : Pos → Nat) (start goal : Pos) :
    ∃ (hp2 : List HEntry) (vis2 : List Pos) (pm2 : PMap) (cost2 : CMap)
      (dtr : List (HEntry × Bool × Bool)),
      ∀ e : Nat, hRun G hh e start goal =
        ⟨hp2, vis2, pm2, cost2, e + hCountNew dtr, dtr⟩ := by
  rcases hLoop_canon G goal hh (hFuel G) [(hh start, 0, start)] [] [(start, none)]
      [(start, 0)] with ⟨hp2, vis2, pm2, cost2, dtr, h⟩
  exact ⟨hp2, vis2, pm2, cost2, dtr, fun e => by simpa [hRun] using h e []⟩

theorem BFS_expanded_shift (G : Maze) (start goal : Pos) :
    ∃ d : Nat, ∀ (a : SearchAlgorithm) (tdelta mdelta : Int),
      (BFSAlgorithm.search G a tdelta mdelta start goal).2.2.expanded_nodes =
        a.expanded_nodes + d := by
  rcases bdRun_canon G false start goal with ⟨found, f2, vis2, pm2, dtr, h⟩
  refine ⟨dtr.length, fun a t m => ?_⟩
  show (bdRun G false a.expanded_nodes start goal).2.expanded = _
  rw [h a.expanded_nodes]

theorem DFS_expanded_shift (G : Maze) (start goal : Pos) :
    ∃ d : Nat, ∀ (a : SearchAlgorithm) (tdelta mdelta : Int),
      (DFSAlgorithm.search G a tdelta mdelta start goal).2.2.expanded_nodes =
        a.expanded_nodes + d := by
  rcases bdRun_canon G true start goal with ⟨found, f2, vis2, pm2, dtr, h⟩
  refine ⟨dtr.length, fun a t m => ?_⟩
  show (bdRun G true a.expanded_nodes start goal).2.expanded = _
  rw [h a.expanded_nodes]

theorem hSearch_expanded_shift (G : Maze) (hh : Pos → Nat) (start goal : Pos) :
    ∃ d : Nat, ∀ (a : SearchAlgorithm) (tdelta mdelta : Int),
      (hSearch G hh a tdelta mdelta start goal).2.2.expanded_nodes =
        a.expanded_nodes + d := by
  rcases hRun_canon G hh start goal with ⟨hp2, vis2, pm2, cost2, dtr, h⟩
  refine ⟨hCountNew dtr, fun a t m => ?_⟩
  show (hRun G hh a.expanded_nodes start goal).expanded = _
  rw [h a.expanded_nodes]

theorem BFS_path_indep (G : Maze) (start goal : Pos) (a1 a2 : SearchAlgorithm)
    (t1 m1 t2 m2 : Int) :
    (BFSAlgorithm.search G a1 t1 m1 start goal).1 =
      (BFSAlgorithm.search G a2 t2 m2 start goal).1 := by
  rcases bdRun_canon G false start goal with ⟨found, f2, vis2, pm2, dtr, h⟩
  rw [BFS_search_path_eq, BFS_search_path_eq, h a1.expanded_nodes, h a2.expanded_nodes]

theorem DFS_path_indep (G : Maze) (start goal : Pos) (a1 a2 : SearchAlgorithm)
    (t1 m1 t2 m2 : Int) :
    (DFSAlgorithm.search G a1 t1 m1 start goal).1 =
      (DFSAlgorithm.search G a2 t2 m2 start goal).1 := by
  rcases bdRun_canon G true start goal with ⟨found, f2, vis2, pm2, dtr, h⟩
  rw [DFS_search_path_eq, DFS_search_path_eq, h a1.expanded_nodes, h a2.expanded_nodes]

theorem hSearch_path_indep (G : Maze) (hh : Pos → Nat) (start goal : Pos)
    (a1 a2 : SearchAlgorithm) (t1 m1 t2 m2 : Int) :
    (hSearch G hh a1 t1 m1 start goal).1 =
      (hSearch G hh a2 t2 m2 start goal).1 := by
  rcases hRun_canon G hh start goal with ⟨hp2, vis2, pm2, cost2, dtr, h⟩
  rw [hSearch_path_eq, hSearch_path_eq, h a1.expanded_nodes, h a2.expanded_nodes]

/-! ### The game scheduler (`src/game.py`)

We embed the parts of `PacmanGame` that the claims mention: the per-tick
ghost updates of levels 1, 5 and 6 (the bodies executed once the movement
timer fires), `reset_game` and `find_initial_positions`.  The module-level
constants `MAZE_LAYOUT` and `ACTIVE_GHOSTS` live in
`constants/game_constants.py` (not part of the sources), so the maze and
the active ghost list are parameters.  Positions are stored as `Option Pos`
exactly as Python stores `None` before `find_initial_positions` finds a
spawn; a tick returns `none` when Python would raise (reading a `None`
position). -/

/-! ### Instantiations for UCS (zero heuristic) and A* (Manhattan) -/

theorem astar_consistent (G : Maze) (goal : Pos) :
    ∀ u v, isStep G u v →
      (fun p => AStarAlgorithm.heuristic p goal) u ≤
        (fun p => AStarAlgorithm.heuristic p goal) v + 1 :=
  fun _ _ h => manhattan_consistent h

theorem UCS_nonempty_iff (G : Maze) (a : SearchAlgorithm) (tdelta mdelta : Int)
    (start goal : Pos) :
    (UCSAlgorithm.search G a tdelta mdelta start goal).1 ≠ [] ↔
      Reachable G start goal :=
  hSearch_nonempty_iff G (fun _ => 0) a tdelta mdelta start goal (zero_consistent G)

theorem AStar_nonempty_iff (G : Maze) (a : SearchAlgorithm) (tdelta mdelta : Int)
    (start goal : Pos) :
    (AStarAlgorithm.search G a tdelta mdelta start goal).1 ≠ [] ↔
      Reachable G start goal :=
  hSearch_nonempty_iff G (fun p => AStarAlgorithm.heuristic p goal) a tdelta mdelta
    start goal (astar_consistent G goal)

theorem UCS_path_sound (G : Maze) (a : SearchAlgorithm) (tdelta mdelta : Int)
    (start goal : Pos)
    (hne : (UCSAlgorithm.search G a tdelta mdelta start goal).1 ≠ []) :
    PathFrom G start goal (UCSAlgorithm.search G a tdelta mdelta start goal).1 ∧
      (UCSAlgorithm.search G a tdelta mdelta start goal).1.Nodup :=
  hSearch_path_sound G (fun _ => 0) a tdelta mdelta start goal (zero_consistent G) hne

theorem AStar_path_sound (G : Maze) (a : SearchAlgorithm) (tdelta mdelta : Int)
    (start goal : Pos)
    (hne : (AStarAlgorithm.search G a tdelta mdelta start goal).1 ≠ []) :
    PathFrom G start goal (AStarAlgorithm.search G a tdelta mdelta start goal).1 ∧
      (AStarAlgorithm.search G a tdelta mdelta start goal).1.Nodup :=
  hSearch_path_sound G (fun p => AStarAlgorithm.heuristic p goal) a tdelta mdelta
    start goal (astar_consistent G goal) hne

theorem UCS_path_shortest (G : Maze) (a : SearchAlgorithm) (tdelta mdelta : Int)
    (start goal : Pos) {k : Nat} (hk : IsShortestLen G start goal k) :
    (UCSAlgorithm.search G a tdelta mdelta start goal).1.length = k + 1 :=
  hSearch_path_shortest G (fun _ => 0) a tdelta mdelta start goal (zero_consistent G) hk

theorem AStar_path_shortest (G : Maze) (a : SearchAlgorithm) (tdelta mdelta : Int)
    (start goal : Pos) {k : Nat} (hk : IsShortestLen G start goal k) :
    (AStarAlgorithm.search G a tdelta mdelta start goal).1.length = k + 1 :=
  hSearch_path_shortest G (fun p => AStarAlgorithm.heuristic p goal) a tdelta mdelta
    start goal (astar_consistent G goal) hk

/-! ### Small path and list helpers for the claim statements -/

theorem pathFrom_two_le {m : Maze} {s t : Pos} {p : List Pos}
    (h : PathFrom m s t p) (hne : s ≠ t) : 2 ≤ p.length := by
  rcases h with ⟨h1, h2, h3, -⟩
  match p with
  | [] => exact absurd rfl h1
  | [x] =>
    simp only [List.head?_cons, Option.some.injEq] at h2
    simp only [List.getLast?_singleton, Option.some.injEq] at h3
    exact absurd (h2.symm.trans h3) hne
  | x :: y :: rest => simp

theorem tail_head_get {α : Type} (l : List α) (h : 1 < l.length) :
    l.tail.head? = some (l.get ⟨1, h⟩) := by
  match l, h with
  | x :: y :: rest, _ => rfl

theorem DFS_path_shortest_le (G : Maze) (a : SearchAlgorithm) (tdelta mdelta : Int)
    (start goal : Pos) {k : Nat} (hk : IsShortestLen G start goal k) :
    k + 1 ≤ (DFSAlgorithm.search G a tdelta mdelta start goal).1.length := by
  have hne := (DFS_nonempty_iff G a tdelta mdelta start goal).mpr (shortest_reachable hk)
  exact hk.2 _ (DFS_path_sound G a tdelta mdelta start goal hne).1

/-- Non-empty returned paths of all four algorithms start at `start` (used
for the scheduler's head invariant). -/
theorem ghost_search_head (c : GhostColor) (G : Maze) (a : SearchAlgorithm)
    (tdelta mdelta : Int) (start goal : Pos)
    (hne : (ghost_algorithm_search c G a tdelta mdelta start goal).1 ≠ []) :
    (ghost_algorithm_search c G a tdelta mdelta start goal).1.head? = some start := by
  cases c with
  | blue => exact (BFS_path_sound G a tdelta mdelta start goal hne).1.2.1
  | pink => exact (DFS_path_sound G a tdelta mdelta start goal hne).1.2.1
  | orange => exact (UCS_path_sound G a tdelta mdelta start goal hne).1.2.1
  | red => exact (AStar_path_sound G a tdelta mdelta start goal hne).1.2.1

/-! ### Scheduler invariants (spec side) and commit-phase lemmas -/

theorem setG_self {α : Type} (c : GhostColor) (v : α) (f : GhostColor → α) :
    setG c v f c = v := by simp [setG]

theorem setG_ne {α : Type} (c : GhostColor) (v : α) (f : GhostColor → α)
    (c' : GhostColor) (h : c' ≠ c) : setG c v f c' = f c' := by simp [setG, h]

theorem commitAll_untouched :
    ∀ (props : List (GhostColor × Pos)) (s : GameState) (c : GhostColor),
      c ∉ props.map Prod.fst →
      (level5_commitAll props s).ghost_positions c = s.ghost_positions c ∧
      (level5_commitAll props s).ghost_paths c = s.ghost_paths c
  | [], s, c, _ => ⟨rfl, rfl⟩
  | (c0, np) :: rest, s, c, h => by
    have hc : c ≠ c0 := by
      intro h0
      exact h (by simp [h0])
    have hrest : c ∉ rest.map Prod.fst := by
      intro h0
      exact h (by simp [h0])
    rcases commitAll_untouched rest _ c hrest with ⟨h1, h2⟩
    refine ⟨?_, ?_⟩
    · rw [level5_commitAll, h1]
      exact setG_ne _ _ _ _ hc
    · rw [level5_commitAll, h2]
      exact setG_ne _ _ _ _ hc

theorem commitAll_spec :
    ∀ (props : List (GhostColor × Pos)) (s : GameState),
      (props.map Prod.fst).Nodup →
      ∀ cp ∈ props,
        (level5_commitAll props s).ghost_positions cp.1 = some cp.2 ∧
        (level5_commitAll props s).ghost_paths cp.1 = (s.ghost_paths cp.1).tail
  | [], s, _, cp, hcp => by simp at hcp
  | (c0, np) :: rest, s, hnd, cp, hcp => by
    rw [List.map_cons] at hnd
    have hnd' := List.nodup_cons.mp hnd
    rcases List.mem_cons.mp hcp with rfl | hcp'
    · rcases commitAll_untouched rest _ c0 hnd'.1 with ⟨h1, h2⟩
      rw [level5_commitAll]
      refine ⟨?_, ?_⟩
      · rw [h1]; exact setG_self _ _ _
      · rw [h2]; exact setG_self _ _ _
    · have hcne : cp.1 ≠ c0 := by
        intro h0
        have hm : cp.1 ∈ rest.map Prod.fst := List.mem_map_of_mem Prod.fst hcp'
        rw [h0] at hm
        exact hnd'.1 hm
      rcases commitAll_spec rest _ hnd'.2 cp hcp' with ⟨h1, h2⟩
      rw [level5_commitAll]
      refine ⟨h1, ?_⟩
      rw [h2]
      simp only [setG_ne _ _ _ _ hcne]

theorem commitConflict_untouched :
    ∀ (props : List (GhostColor × Pos)) (earlier : List Pos) (s : GameState)
      (c : GhostColor), c ∉ props.map Prod.fst →
      (level5_commitConflict props earlier s).ghost_positions c =
        s.ghost_positions c ∧
      (level5_commitConflict props earlier s).ghost_paths c = s.ghost_paths c
  | [], _, s, c, _ => ⟨rfl, rfl⟩
  | (c0, np) :: rest, earlier, s, c, h => by
    have hc : c ≠ c0 := by
      intro h0
      exact h (by simp [h0])
    have hrest : c ∉ rest.map Prod.fst := by
      intro h0
      exact h (by simp [h0])
    rw [level5_commitConflict]
    by_cases hmem : np ∈ earlier
    · simp only [if_pos hmem]
      exact commitConflict_untouched rest (earlier ++ [np]) s c hrest
    · simp only [if_neg hmem]
      have hr := commitConflict_untouched rest (earlier ++ [np])
        { s with ghost_positions := setG c0 (some np) s.ghost_positions,
                 ghost_paths := setG c0 (s.ghost_paths c0).tail s.ghost_paths } c hrest
      rw [hr.1, hr.2]
      exact ⟨setG_ne _ _ _ _ hc, setG_ne _ _ _ _ hc⟩

theorem commitConflict_cases :
    ∀ (props : List (GhostColor × Pos)) (earlier : List Pos) (s : GameState),
      (props.map Prod.fst).Nodup →
      ∀ cp ∈ props,
        ((level5_commitConflict props earlier s).ghost_positions cp.1 =
            s.ghost_positions cp.1 ∧
          (level5_commitConflict props earlier s).ghost_paths cp.1 =
            s.ghost_paths cp.1) ∨
        ((level5_commitConflict props earlier s).ghost_positions cp.1 = some cp.2 ∧
          (level5_commitConflict props earlier s).ghost_paths cp.1 =
            (s.ghost_paths cp.1).tail)
  | [], _, s, _, cp, hcp => by simp at hcp
  | (c0, np) :: rest, earlier, s, hnd, cp, hcp => by
    rw [List.map_cons] at hnd
    have hnd' := List.nodup_cons.mp hnd
    rcases List.mem_cons.mp hcp with rfl | hcp'
    · rw [level5_commitConflict]
      by_cases hmem : np ∈ earlier
      · simp only [if_pos hmem]
        exact Or.inl (commitConflict_untouched rest (earlier ++ [np]) s c0 hnd'.1)
      · simp only [if_neg hmem]
        have hr := commitConflict_untouched rest (earlier ++ [np])
          { s with ghost_positions := setG c0 (some np) s.ghost_positions,
                   ghost_paths := setG c0 (s.ghost_paths c0).tail s.ghost_paths }
          c0 hnd'.1
        refine Or.inr ⟨?_, ?_⟩
        · rw [hr.1]; exact setG_self _ _ _
        · rw [hr.2]; exact setG_self _ _ _
    · have hcne : cp.1 ≠ c0 := by
        intro h0
        have hm : cp.1 ∈ rest.map Prod.fst := List.mem_map_of_mem Prod.fst hcp'
        rw [h0] at hm
        exact hnd'.1 hm
      rw [level5_commitConflict]
      by_cases hmem : np ∈ earlier
      · simp only [if_pos hmem]
        exact commitConflict_cases rest (earlier ++ [np]) s hnd'.2 cp hcp'
      · simp only [if_neg hmem]
        rcases commitConflict_cases rest (earlier ++ [np])
          { s with ghost_positions := setG c0 (some np) s.ghost_positions,
                   ghost_paths := setG c0 (s.ghost_paths c0).tail s.ghost_paths }
          hnd'.2 cp hcp' with ⟨h1, h2⟩ | ⟨h1, h2⟩
        · refine Or.inl ⟨?_, ?_⟩
          · rw [h1]; exact setG_ne _ _ _ _ hcne
          · rw [h2]; exact setG_ne _ _ _ _ hcne
        · refine Or.inr ⟨h1, ?_⟩
          rw [h2]
          simp only [setG_ne _ _ _ _ hcne]

theorem commitConflict_indexed :
    ∀ (props : List (GhostColor × Pos)) (earlier : List Pos) (s : GameState),
      (props.map Prod.fst).Nodup →
      ∀ i (hi : i < props.length),
        ((props.get ⟨i, hi⟩).2 ∈ earlier ++ (props.map Prod.snd).take i →
          (level5_commitConflict props earlier s).ghost_positions
              (props.get ⟨i, hi⟩).1 = s.ghost_positions (props.get ⟨i, hi⟩).1 ∧
          (level5_commitConflict props earlier s).ghost_paths
              (props.get ⟨i, hi⟩).1 = s.ghost_paths (props.get ⟨i, hi⟩).1) ∧
        ((props.get ⟨i, hi⟩).2 ∉ earlier ++ (props.map Prod.snd).take i →
          (level5_commitConflict props earlier s).ghost_positions
              (props.get ⟨i, hi⟩).1 = some (props.get ⟨i, hi⟩).2 ∧
          (level5_commitConflict props earlier s).ghost_paths
              (props.get ⟨i, hi⟩).1 =
            (s.ghost_paths (props.get ⟨i, hi⟩).1).tail)
  | [], _, s, _, i, hi => by simp at hi
  | (c0, np) :: rest, earlier, s, hnd, i, hi => by
    rw [List.map_cons] at hnd
    have hnd' := List.nodup_cons.mp hnd
    match i with
    | 0 =>
      simp only [List.get, List.take_zero, List.append_nil]
      rw [level5_commitConflict]
      constructor
      · intro hmem
        simp only [if_pos hmem]
        exact commitConflict_untouched rest (earlier ++ [np]) s c0 hnd'.1
      · intro hmem
        simp only [if_neg hmem]
        have hr := commitConflict_untouched rest (earlier ++ [np])
          { s with ghost_positions := setG c0 (some np) s.ghost_positions,
                   ghost_paths := setG c0 (s.ghost_paths c0).tail s.ghost_paths }
          c0 hnd'.1
        refine ⟨?_, ?_⟩
        · rw [hr.1]; exact setG_self _ _ _
        · rw [hr.2]; exact setG_self _ _ _
    | j + 1 =>
      have hj : j < rest.length := by simpa using hi
      have hget : ((c0, np) :: rest).get ⟨j + 1, hi⟩ = rest.get ⟨j, hj⟩ := rfl
      have hcne : (rest.get ⟨j, hj⟩).1 ≠ c0 := by
        intro h0
        have hm : (rest.get ⟨j, hj⟩).1 ∈ rest.map Prod.fst :=
          List.mem_map_of_mem Prod.fst (rest.get_mem _ _)
        rw [h0] at hm
        exact hnd'.1 hm
      have htake : earlier ++ (((c0, np) :: rest).map Prod.snd).take (j + 1) =
          (earlier ++ [np]) ++ (rest.map Prod.snd).take j := by
        simp
      rw [hget, htake, level5_commitConflict]
      by_cases hmem : np ∈ earlier
      · simp only [if_pos hmem]
        exact commitConflict_indexed rest (earlier ++ [np]) s hnd'.2 j hj
      · simp only [if_neg hmem]
        have hIH := commitConflict_indexed rest (earlier ++ [np])
          { s with ghost_positions := setG c0 (some np) s.ghost_positions,
                   ghost_paths := setG c0 (s.ghost_paths c0).tail s.ghost_paths }
          hnd'.2 j hj
        constructor
        · intro hm
          rcases hIH.1 hm with ⟨h1, h2⟩
          rw [h1, h2]
          exact ⟨setG_ne _ _ _ _ hcne, setG_ne _ _ _ _ hcne⟩
        · intro hm
          rcases hIH.2 hm with ⟨h1, h2⟩
          refine ⟨h1, ?_⟩
          rw [h2]
          simp only [setG_ne _ _ _ _ hcne]

theorem commitAll_inv (props : List (GhostColor × Pos)) (s : GameState)
    (hnd : (props.map Prod.fst).Nodup) (hcons : propsConsistent s props)
    (hinv : PathsHeadInv s) : PathsHeadInv (level5_commitAll props s) := by
  intro c hne
  by_cases hc : c ∈ props.map Prod.fst
  · rcases List.mem_map.mp hc with ⟨cp, hcp, hcp1⟩
    rcases commitAll_spec props s hnd cp hcp with ⟨h1, h2⟩
    rcases hcons cp hcp with ⟨hlen, hnp⟩
    rw [← hcp1] at hne ⊢
    rw [h1, h2, tail_head_get _ hlen]
    rw [hnp]
  · rcases commitAll_untouched props s c hc with ⟨h1, h2⟩
    rw [h1, h2]
    rw [h2] at hne
    exact hinv c hne

theorem commitConflict_inv (props : List (GhostColor × Pos)) (earlier : List Pos)
    (s : GameState) (hnd : (props.map Prod.fst).Nodup)
    (hcons : propsConsistent s props) (hinv : PathsHeadInv s) :
    PathsHeadInv (level5_commitConflict props earlier s) := by
  intro c hne
  by_cases hc : c ∈ props.map Prod.fst
  · rcases List.mem_map.mp hc with ⟨cp, hcp, hcp1⟩
    rcases hcons cp hcp with ⟨hlen, hnp⟩
    rw [← hcp1] at hne ⊢
    rcases commitConflict_cases props earlier s hnd cp hcp with ⟨h1, h2⟩ | ⟨h1, h2⟩
    · rw [h1, h2]
      rw [h2] at hne
      exact hinv cp.1 hne
    · rw [h1, h2, tail_head_get _ hlen]
      rw [hnp]
  · rcases commitConflict_untouched props earlier s c hc with ⟨h1, h2⟩
    rw [h1, h2]
    rw [h2] at hne
    exact hinv c hne

theorem level5_phase1_cons_long (tm : GhostColor → Int × Int) (c : GhostColor)
    (cs : List GhostColor) (s : GameState) (props : List (GhostColor × Pos))
    (h : 1 < (s.ghost_paths c).length) :
    level5_phase1 tm (c :: cs) s props =
      level5_phase1 tm cs s (props ++ [(c, (s.ghost_paths c).get ⟨1, h⟩)]) := by
  have hn : ¬ (s.ghost_paths c).length ≤ 1 := by omega
  simp [level5_phase1, hn, h]

theorem level5_phase1_cons_short (tm : GhostColor → Int × Int) (c : GhostColor)
    (cs : List GhostColor) (s : GameState) (props : List (GhostColor × Pos))
    (hle : (s.ghost_paths c).length ≤ 1)
    {gp pp : Pos} (hgp : s.ghost_positions c = some gp) (hpp : s.pacman_pos = some pp) :
    level5_phase1 tm (c :: cs) s props =
      (let r := ghost_algorithm_search c s.maze (s.ghost_algorithms c)
        (tm c).1 (tm c).2 gp pp
      let s' : GameState :=
        { s with ghost_paths := setG c r.1 s.ghost_paths,
                 ghost_algorithms := setG c r.2.2 s.ghost_algorithms,
                 stats := if c = .blue then r.2.1 else s.stats }
      level5_phase1 tm cs s'
        (if h : 1 < (s'.ghost_paths c).length then
          props ++ [(c, (s'.ghost_paths c).get ⟨1, h⟩)]
        else props)) := by
  simp [level5_phase1, hle, hgp, hpp]

theorem level5_phase1_noreplan (tm : GhostColor → Int × Int) :
    ∀ (active : List GhostColor) (s : GameState) (props : List (GhostColor × Pos)),
      (∀ c ∈ active, 1 < (s.ghost_paths c).length) →
      level5_phase1 tm active s props =
        some (s, props ++ active.map (fun c => (c, (s.ghost_paths c).getD 1 (0, 0))))
  | [], s, props, _ => by simp [level5_phase1]
  | c :: cs, s, props, h => by
    have hc := h c (List.mem_cons_self _ _)
    rw [level5_phase1_cons_long tm c cs s props hc]
    rw [level5_phase1_noreplan tm cs s _
      (fun c' hc' => h c' (List.mem_cons_of_mem _ hc'))]
    simp [hc, List.getElem?_eq_getElem hc]

theorem level5_phase1_inv (tm : GhostColor → Int × Int) :
    ∀ (active : List GhostColor) (s : GameState) (props : List (GhostColor × Pos))
      (s1 : GameState) (props1 : List (GhostColor × Pos)),
      (props.map Prod.fst ++ active).Nodup →
      level5_phase1 tm active s props = some (s1, props1) →
      (PathsHeadInv s → propsConsistent s props →
        PathsHeadInv s1 ∧ propsConsistent s1 props1) ∧
      (props1.map Prod.fst).Sublist (props.map Prod.fst ++ active)
  | [], s, props, s1, props1, hnd, heq => by
    simp only [level5_phase1, Option.some.injEq, Prod.mk.injEq] at heq
    rw [← heq.1, ← heq.2]
    exact ⟨fun h1 h2 => ⟨h1, h2⟩, by simp⟩
  | c :: cs, s, props, s1, props1, hnd, heq => by
    have hcprops : c ∉ props.map Prod.fst := by
      rw [List.nodup_append] at hnd
      intro h0
      exact hnd.2.2 h0 (List.mem_cons_self _ _)
    by_cases hc : 1 < (s.ghost_paths c).length
    · rw [level5_phase1_cons_long tm c cs s props hc] at heq
      have hnd' : ((props ++ [(c, (s.ghost_paths c).get ⟨1, hc⟩)]).map Prod.fst
          ++ cs).Nodup := by
        simpa [List.append_assoc] using hnd
      rcases level5_phase1_inv tm cs s _ s1 props1 hnd' heq with ⟨hmain, hsub⟩
      refine ⟨?_, ?_⟩
      · intro hinv hcons
        refine hmain hinv ?_
        intro cp hcp
        rcases List.mem_append.mp hcp with hcp' | hcp'
        · exact hcons cp hcp'
        · simp only [List.mem_singleton] at hcp'
          subst hcp'
          exact ⟨hc, rfl⟩
      · refine hsub.trans ?_
        simp [List.append_assoc]
    · have hle : (s.ghost_paths c).length ≤ 1 := by omega
      have hgps : (s.ghost_positions c).isSome := by
        by_contra h0
        rw [Option.not_isSome_iff_eq_none] at h0
        rw [show level5_phase1 tm (c :: cs) s props = none by
          simp [level5_phase1, hle, h0]] at heq
        cases heq
      obtain ⟨gp, hgp⟩ := Option.isSome_iff_exists.mp hgps
      have hpps : s.pacman_pos.isSome := by
        by_contra h0
        rw [Option.not_isSome_iff_eq_none] at h0
        rw [show level5_phase1 tm (c :: cs) s props = none by
          simp [level5_phase1, hle, hgp, h0]] at heq
        cases heq
      obtain ⟨pp, hpp⟩ := Option.isSome_iff_exists.mp hpps
      rw [level5_phase1_cons_short tm c cs s props hle hgp hpp] at heq
      simp only at heq
      have hpaths' : ∀ c', c' ≠ c →
          (setG c (ghost_algorithm_search c s.maze (s.ghost_algorithms c)
            (tm c).1 (tm c).2 gp pp).1 s.ghost_paths) c' = s.ghost_paths c' :=
        fun c' hne => setG_ne _ _ _ _ hne
      have hpathc : (setG c (ghost_algorithm_search c s.maze (s.ghost_algorithms c)
          (tm c).1 (tm c).2 gp pp).1 s.ghost_paths) c =
          (ghost_algorithm_search c s.maze (s.ghost_algorithms c)
            (tm c).1 (tm c).2 gp pp).1 :=
        setG_self _ _ _
      have hinv' : PathsHeadInv s → PathsHeadInv
          { s with
            ghost_paths := setG c (ghost_algorithm_search c s.maze
              (s.ghost_algorithms c) (tm c).1 (tm c).2 gp pp).1 s.ghost_paths,
            ghost_algorithms := setG c (ghost_algorithm_search c s.maze
              (s.ghost_algorithms c) (tm c).1 (tm c).2 gp pp).2.2 s.ghost_algorithms,
            stats := if c = .blue then (ghost_algorithm_search c s.maze
              (s.ghost_algorithms c) (tm c).1 (tm c).2 gp pp).2.1 else s.stats } := by
        intro hinv c' hne
        show ((setG c (ghost_algorithm_search c s.maze (s.ghost_algorithms c)
          (tm c).1 (tm c).2 gp pp).1 s.ghost_paths) c').head? = s.ghost_positions c'
        have hne' : ((setG c (ghost_algorithm_search c s.maze (s.ghost_algorithms c)
          (tm c).1 (tm c).2 gp pp).1 s.ghost_paths) c') ≠ [] := hne
        by_cases hcc : c' = c
        · rw [hcc] at hne' ⊢
          rw [hpathc] at hne' ⊢
          rw [ghost_search_head c s.maze (s.ghost_algorithms c)
            (tm c).1 (tm c).2 gp pp hne', hgp]
        · rw [hpaths' c' hcc] at hne' ⊢
          exact hinv c' hne'
      have hcons' : propsConsistent s props → ∀ cp ∈ props,
          ∃ h : 1 < ((setG c (ghost_algorithm_search c s.maze (s.ghost_algorithms c)
            (tm c).1 (tm c).2 gp pp).1 s.ghost_paths) cp.1).length,
            cp.2 = ((setG c (ghost_algorithm_search c s.maze (s.ghost_algorithms c)
              (tm c).1 (tm c).2 gp pp).1 s.ghost_paths) cp.1).get ⟨1, h⟩ := by
        intro hcons cp hcp
        have hne : cp.1 ≠ c := by
          intro h0
          exact hcprops (h0 ▸ List.mem_map_of_mem Prod.fst hcp)
        rw [hpaths' cp.1 hne]
        exact hcons cp hcp
      by_cases hlen' : 1 < ((setG c (ghost_algorithm_search c s.maze
          (s.ghost_algorithms c) (tm c).1 (tm c).2 gp pp).1 s.ghost_paths) c).length
      · rw [dif_pos hlen'] at heq
        have hnd' : ((props ++ [(c, ((setG c (ghost_algorithm_search c s.maze
            (s.ghost_algorithms c) (tm c).1 (tm c).2 gp pp).1 s.ghost_paths) c).get
            ⟨1, hlen'⟩)]).map Prod.fst ++ cs).Nodup := by
          simpa [List.append_assoc] using hnd
        rcases level5_phase1_inv tm cs _ _ s1 props1 hnd' heq with ⟨hmain, hsub⟩
        refine ⟨?_, ?_⟩
        · intro hinv hcons
          refine hmain (hinv' hinv) ?_
          intro cp hcp
          rcases List.mem_append.mp hcp with hcp' | hcp'
          · exact hcons' hcons cp hcp'
          · simp only [List.mem_singleton] at hcp'
            subst hcp'
            exact ⟨hlen', rfl⟩
        · refine hsub.trans ?_
          simp [List.append_assoc]
      · rw [dif_neg hlen'] at heq
        have hnd' : (props.map Prod.fst ++ cs).Nodup := by
          have hsubnd : (props.map Prod.fst ++ cs).Sublist
              (props.map Prod.fst ++ c :: cs) :=
            List.Sublist.append_left (List.sublist_cons_self c cs) _
          exact hsubnd.nodup hnd
        rcases level5_phase1_inv tm cs _ props s1 props1 hnd' heq with ⟨hmain, hsub⟩
        refine ⟨?_, ?_⟩
        · intro hinv hcons
          exact hmain (hinv' hinv) (hcons' hcons)
        · refine hsub.trans ?_
          exact List.Sublist.append_left (List.sublist_cons_self c cs) _

theorem update1_long (td md : Int) (s : GameState)
    (h2 : 1 < s.current_path.length) :
    update_ghosts_level1 td md s = some
      { s with
        ghost_positions :=
          setG .blue (some (s.current_path.get ⟨1, h2⟩)) s.ghost_positions,
        current_path := s.current_path.tail } := by
  have h : ¬ s.current_path.length ≤ 1 := by omega
  simp [update_ghosts_level1, h, h2]

theorem update1_short (td md : Int) (s : GameState) {gp pp : Pos}
    (hle : s.current_path.length ≤ 1)
    (hgp : s.ghost_positions .blue = some gp) (hpp : s.pacman_pos = some pp) :
    update_ghosts_level1 td md s =
      (let r := BFSAlgorithm.search s.maze (SearchAlgorithm.init s.maze) td md gp pp
      let sA : GameState := { s with current_path := r.1, stats := r.2.1 }
      if h : 1 < sA.current_path.length then
        some { sA with
          ghost_positions :=
            setG .blue (some (sA.current_path.get ⟨1, h⟩)) sA.ghost_positions,
          current_path := sA.current_path.tail }
      else some sA) := by
  simp [update_ghosts_level1, hle, hgp, hpp]

theorem update1_head_inv (td md : Int) (s s1 : GameState)
    (h : update_ghosts_level1 td md s = some s1) : CurrentHeadInv s1 := by
  by_cases hle : s.current_path.length ≤ 1
  · have hgps : (s.ghost_positions .blue).isSome := by
      by_contra h0
      rw [Option.not_isSome_iff_eq_none] at h0
      rw [show update_ghosts_level1 td md s = none by
        simp [update_ghosts_level1, hle, h0]] at h
      cases h
    obtain ⟨gp, hgp⟩ := Option.isSome_iff_exists.mp hgps
    have hpps : s.pacman_pos.isSome := by
      by_contra h0
      rw [Option.not_isSome_iff_eq_none] at h0
      rw [show update_ghosts_level1 td md s = none by
        simp [update_ghosts_level1, hle, hgp, h0]] at h
      cases h
    obtain ⟨pp, hpp⟩ := Option.isSome_iff_exists.mp hpps
    rw [update1_short td md s hle hgp hpp] at h
    simp only at h
    by_cases hlen : 1 <
        (BFSAlgorithm.search s.maze (SearchAlgorithm.init s.maze) td md gp pp).1.length
    · rw [dif_pos hlen] at h
      cases h
      intro hne
      rw [tail_head_get _ hlen]
      exact (setG_self GhostColor.blue
        (some ((BFSAlgorithm.search s.maze (SearchAlgorithm.init s.maze)
          td md gp pp).1.get ⟨1, hlen⟩)) s.ghost_positions).symm
    · rw [dif_neg hlen] at h
      cases h
      intro hne
      show (BFSAlgorithm.search s.maze (SearchAlgorithm.init s.maze)
        td md gp pp).1.head? = s.ghost_positions GhostColor.blue
      rw [(BFS_path_sound s.maze (SearchAlgorithm.init s.maze) td md gp pp hne).1.2.1,
        hgp]
  · have h2 : 1 < s.current_path.length := by omega
    rw [update1_long td md s h2] at h
    cases h
    intro hne
    rw [tail_head_get _ h2]
    exact (setG_self GhostColor.blue
      (some (s.current_path.get ⟨1, h2⟩)) s.ghost_positions).symm

theorem update1_replan (td md : Int) (s s1 : GameState)
    (hle : s.current_path.length ≤ 1)
    (h : update_ghosts_level1 td md s = some s1) :
    ∃ gp pp, s.ghost_positions .blue = some gp ∧ s.pacman_pos = some pp ∧
      s1.stats = (BFSAlgorithm.search s.maze (SearchAlgorithm.init s.maze)
        td md gp pp).2.1 ∧
      s1.current_path =
        (if 1 < (BFSAlgorithm.search s.maze (SearchAlgorithm.init s.maze)
            td md gp pp).1.length then
          (BFSAlgorithm.search s.maze (SearchAlgorithm.init s.maze) td md gp pp).1.tail
        else
          (BFSAlgorithm.search s.maze (SearchAlgorithm.init s.maze) td md gp pp).1) := by
  have hgps : (s.ghost_positions .blue).isSome := by
    by_contra h0
    rw [Option.not_isSome_iff_eq_none] at h0
    rw [show update_ghosts_level1 td md s = none by
      simp [update_ghosts_level1, hle, h0]] at h
    cases h
  obtain ⟨gp, hgp⟩ := Option.isSome_iff_exists.mp hgps
  have hpps : s.pacman_pos.isSome := by
    by_contra h0
    rw [Option.not_isSome_iff_eq_none] at h0
    rw [show update_ghosts_level1 td md s = none by
      simp [update_ghosts_level1, hle, hgp, h0]] at h
    cases h
  obtain ⟨pp, hpp⟩ := Option.isSome_iff_exists.mp hpps
  refine ⟨gp, pp, hgp, hpp, ?_⟩
  rw [update1_short td md s hle hgp hpp] at h
  simp only at h
  by_cases hlen : 1 <
      (BFSAlgorithm.search s.maze (SearchAlgorithm.init s.maze) td md gp pp).1.length
  · rw [dif_pos hlen] at h
    cases h
    exact ⟨rfl, by rw [if_pos hlen]⟩
  · rw [dif_neg hlen] at h
    cases h
    exact ⟨rfl, by rw [if_neg hlen]⟩

theorem update5_inv (active : List GhostColor) (tm : GhostColor → Int × Int)
    (s s2 : GameState) (hnd : active.Nodup)
    (h : update_ghosts_level5 active tm s = some s2) (hinv : PathsHeadInv s) :
    PathsHeadInv s2 := by
  unfold update_ghosts_level5 at h
  cases hp : level5_phase1 tm active s [] with
  | none => rw [hp] at h; cases h
  | some sp =>
    rw [hp] at h
    obtain ⟨s1, props⟩ := sp
    have h2 : (if (props.map Prod.snd).Nodup then
        some (level5_commitAll props s1) else
        some (level5_commitConflict props [] s1)) = some s2 := h
    clear h
    rcases level5_phase1_inv tm active s [] s1 props (by simpa using hnd) hp with
      ⟨hmain, hsub⟩
    rcases hmain hinv (fun cp hcp => absurd hcp (List.not_mem_nil cp)) with
      ⟨hinv1, hcons1⟩
    have hknd : (props.map Prod.fst).Nodup := hsub.nodup (by simpa using hnd)
    split at h2
    next hdup =>
      cases h2
      exact commitAll_inv props s1 hknd hcons1 hinv1
    next hdup =>
      cases h2
      exact commitConflict_inv props [] s1 hknd hcons1 hinv1

theorem update5_noreplan (active : List GhostColor) (tm : GhostColor → Int × Int)
    (s : GameState)
    (hlong : ∀ c ∈ active, 1 < (s.ghost_paths c).length) :
    update_ghosts_level5 active tm s =
      (let props := active.map (fun c => (c, (s.ghost_paths c).getD 1 (0, 0)))
      if (props.map Prod.snd).Nodup then some (level5_commitAll props s)
      else some (level5_commitConflict props [] s)) := by
  unfold update_ghosts_level5
  rw [level5_phase1_noreplan tm active s [] hlong]
  simp

theorem getD_one_eq_get {α : Type} (l : List α) (d : α) (h : 1 < l.length) :
    l.getD 1 d = l.get ⟨1, h⟩ := by
  rw [List.getD_eq_getElem?_getD, List.getElem?_eq_getElem h]
  rfl

/-- C1: for every maze and valid start/goal with the goal reachable (at true
shortest edge count `k`), UCS, A* and BFS return a path of `k + 1` cells
(edge count `k`), and DFS returns a path of at least that many cells. -/
theorem C1_shortest_paths (G : Maze) (a : SearchAlgorithm) (tdelta mdelta : Int)
    (start goal : Pos) (hs : is_valid_move G start.1 start.2 = true)
    (hg : is_valid_move G goal.1 goal.2 = true)
    {k : Nat} (hk : IsShortestLen G start goal k) :
    (UCSAlgorithm.search G a tdelta mdelta start goal).1.length = k + 1 ∧
    (AStarAlgorithm.search G a tdelta mdelta start goal).1.length = k + 1 ∧
    (BFSAlgorithm.search G a tdelta mdelta start goal).1.length = k + 1 ∧
    k + 1 ≤ (DFSAlgorithm.search G a tdelta mdelta start goal).1.length :=
  ⟨UCS_path_shortest G a tdelta mdelta start goal hk,
   AStar_path_shortest G a tdelta mdelta start goal hk,
   BFS_path_shortest G a tdelta mdelta start goal hk,
   DFS_path_shortest_le G a tdelta mdelta start goal hk⟩

theorem C1_shortest_paths_witness :
    is_valid_move [[0, 0]] 0 0 = true ∧ is_valid_move [[0, 0]] 1 0 = true ∧
    IsShortestLen [[0, 0]] (0, 0) (1, 0) 1 ∧
    ((UCSAlgorithm.search [[0, 0]] (SearchAlgorithm.init [[0, 0]]) 0 0
        (0, 0) (1, 0)).1.length = 1 + 1 ∧
      (AStarAlgorithm.search [[0, 0]] (SearchAlgorithm.init [[0, 0]]) 0 0
        (0, 0) (1, 0)).1.length = 1 + 1 ∧
      (BFSAlgorithm.search [[0, 0]] (SearchAlgorithm.init [[0, 0]]) 0 0
        (0, 0) (1, 0)).1.length = 1 + 1 ∧
      1 + 1 ≤ (DFSAlgorithm.search [[0, 0]] (SearchAlgorithm.init [[0, 0]]) 0 0
        (0, 0) (1, 0)).1.length) := by
  have hk : IsShortestLen [[0, 0]] (0, 0) (1, 0) 1 :=
    ⟨⟨[(0, 0), (1, 0)], by decide, rfl⟩,
     fun p hp => pathFrom_two_le hp (by decide)⟩
  exact ⟨by decide, by decide, hk,
    C1_shortest_paths [[0, 0]] (SearchAlgorithm.init [[0, 0]]) 0 0 (0, 0) (1, 0)
      (by decide) (by decide) hk⟩

theorem path_wellformed_of_sound {G : Maze} {start goal : Pos} {p : List Pos}
    (hs : is_valid_move G start.1 start.2 = true)
    (hsound : p ≠ [] → PathFrom G start goal p ∧ p.Nodup)
    (hiff : p ≠ [] ↔ Reachable G start goal) :
    (p ≠ [] → p.head? = some start ∧ p.getLast? = some goal ∧
      List.Chain' (isStep G) p ∧ (∀ x ∈ p, is_valid_move G x.1 x.2 = true) ∧
      p.Nodup) ∧
    (p = [] ↔ ¬Reachable G start goal) := by
  constructor
  · intro hne
    rcases hsound hne with ⟨hp, hnd⟩
    refine ⟨hp.2.1, hp.2.2.1, hp.2.2.2, ?_, hnd⟩
    intro x hx
    rcases pathFrom_mem_valid hp x hx with rfl | hv
    · exact hs
    · exact (mem_validCells G x).mp hv
  · rw [← hiff, not_not]

/-- C2: for every maze and valid start/goal, a non-empty returned path of
each of the four algorithms starts at `start`, ends at `goal`, moves only
between 4-adjacent valid cells and repeats no cell; the path is empty
exactly when the goal is unreachable. -/
theorem C2_path_wellformed (G : Maze) (a : SearchAlgorithm) (tdelta mdelta : Int)
    (start goal : Pos) (hs : is_valid_move G start.1 start.2 = true)
    (hg : is_valid_move G goal.1 goal.2 = true) :
    ∀ p ∈ [(BFSAlgorithm.search G a tdelta mdelta start goal).1,
           (DFSAlgorithm.search G a tdelta mdelta start goal).1,
           (UCSAlgorithm.search G a tdelta mdelta start goal).1,
           (AStarAlgorithm.search G a tdelta mdelta start goal).1],
      (p ≠ [] → p.head? = some start ∧ p.getLast? = some goal ∧
        List.Chain' (isStep G) p ∧ (∀ x ∈ p, is_valid_move G x.1 x.2 = true) ∧
        p.Nodup) ∧
      (p = [] ↔ ¬Reachable G start goal) := by
  intro p hp
  simp only [List.mem_cons, List.mem_singleton, List.not_mem_nil, or_false] at hp
  rcases hp with rfl | rfl | rfl | rfl
  · exact path_wellformed_of_sound hs
      (BFS_path_sound G a tdelta mdelta start goal)
      (BFS_nonempty_iff G a tdelta mdelta start goal)
  · exact path_wellformed_of_sound hs
      (DFS_path_sound G a tdelta mdelta start goal)
      (DFS_nonempty_iff G a tdelta mdelta start goal)
  · exact path_wellformed_of_sound hs
      (UCS_path_sound G a tdelta mdelta start goal)
      (UCS_nonempty_iff G a tdelta mdelta start goal)
  · exact path_wellformed_of_sound hs
      (AStar_path_sound G a tdelta mdelta start goal)
      (AStar_nonempty_iff G a tdelta mdelta start goal)

theorem C2_path_wellformed_witness :
    is_valid_move [[0, 0]] 0 0 = true ∧ is_valid_move [[0, 0]] 1 0 = true ∧
    (∀ p ∈ [(BFSAlgorithm.search [[0, 0]] (SearchAlgorithm.init [[0, 0]]) 0 0
              (0, 0) (1, 0)).1,
            (DFSAlgorithm.search [[0, 0]] (SearchAlgorithm.init [[0, 0]]) 0 0
              (0, 0) (1, 0)).1,
            (UCSAlgorithm.search [[0, 0]] (SearchAlgorithm.init [[0, 0]]) 0 0
              (0, 0) (1, 0)).1,
            (AStarAlgorithm.search [[0, 0]] (SearchAlgorithm.init [[0, 0]]) 0 0
              (0, 0) (1, 0)).1],
      (p ≠ [] → p.head? = some (0, 0) ∧ p.getLast? = some (1, 0) ∧
        List.Chain' (isStep [[0, 0]]) p ∧
        (∀ x ∈ p, is_valid_move [[0, 0]] x.1 x.2 = true) ∧ p.Nodup) ∧
      (p = [] ↔ ¬Reachable [[0, 0]] (0, 0) (1, 0))) :=
  ⟨by decide, by decide,
   C2_path_wellformed [[0, 0]] (SearchAlgorithm.init [[0, 0]]) 0 0 (0, 0) (1, 0)
     (by decide) (by decide)⟩

/-- C3 counterexample: the claim says two successive identical `search`
calls on the same object return equal `expanded_nodes`; in fact
`expanded_nodes` is only ever incremented (`self.expanded_nodes += 1`,
never reset), so the second identical BFS call on a 1x2 maze reports 4
while the first reports 2. -/
theorem C3_counterexample :
    (BFSAlgorithm.search [[0, 0]]
        (BFSAlgorithm.search [[0, 0]] (SearchAlgorithm.init [[0, 0]]) 0 0
          (0, 0) (1, 0)).2.2 0 0 (0, 0) (1, 0)).2.1.expanded_nodes = 4 ∧
    (BFSAlgorithm.search [[0, 0]] (SearchAlgorithm.init [[0, 0]]) 0 0
      (0, 0) (1, 0)).2.1.expanded_nodes = 2 ∧
    ¬((BFSAlgorithm.search [[0, 0]]
        (BFSAlgorithm.search [[0, 0]] (SearchAlgorithm.init [[0, 0]]) 0 0
          (0, 0) (1, 0)).2.2 0 0 (0, 0) (1, 0)).2.1.expanded_nodes =
      (BFSAlgorithm.search [[0, 0]] (SearchAlgorithm.init [[0, 0]]) 0 0
        (0, 0) (1, 0)).2.1.expanded_nodes) := by decide

/-- C3 amended: `expanded_nodes` accumulates across calls.  For each of the
four algorithms, a second identical call adds the same per-call increment
again: writing `e₀` for the object's incoming counter, the first call
reports `e₀ + d` and the second `e₀ + 2d`, so `second + e₀ = 2 * first`. -/
theorem C3_amended_accumulation (G : Maze) (start goal : Pos)
    (a : SearchAlgorithm) (t1 m1 t2 m2 : Int) :
    (BFSAlgorithm.search G
        (BFSAlgorithm.search G a t1 m1 start goal).2.2 t2 m2 start
        goal).2.1.expanded_nodes + a.expanded_nodes =
      2 * (BFSAlgorithm.search G a t1 m1 start goal).2.1.expanded_nodes ∧
    (DFSAlgorithm.search G
        (DFSAlgorithm.search G a t1 m1 start goal).2.2 t2 m2 start
        goal).2.1.expanded_nodes + a.expanded_nodes =
      2 * (DFSAlgorithm.search G a t1 m1 start goal).2.1.expanded_nodes ∧
    (UCSAlgorithm.search G
        (UCSAlgorithm.search G a t1 m1 start goal).2.2 t2 m2 start
        goal).2.1.expanded_nodes + a.expanded_nodes =
      2 * (UCSAlgorithm.search G a t1 m1 start goal).2.1.expanded_nodes ∧
    (AStarAlgorithm.search G
        (AStarAlgorithm.search G a t1 m1 start goal).2.2 t2 m2 start
        goal).2.1.expanded_nodes + a.expanded_nodes =
      2 * (AStarAlgorithm.search G a t1 m1 start goal).2.1.expanded_nodes := by
  obtain ⟨d1, hd1⟩ := BFS_expanded_shift G start goal
  obtain ⟨d2, hd2⟩ := DFS_expanded_shift G start goal
  obtain ⟨d3, hd3⟩ := hSearch_expanded_shift G (fun _ => 0) start goal
  obtain ⟨d4, hd4⟩ := hSearch_expanded_shift G
    (fun p => AStarAlgorithm.heuristic p goal) start goal
  refine ⟨?_, ?_, ?_, ?_⟩
  · have ha := hd1 a t1 m1
    have hb := hd1 (BFSAlgorithm.search G a t1 m1 start goal).2.2 t2 m2
    show (BFSAlgorithm.search G _ t2 m2 start goal).2.2.expanded_nodes +
      a.expanded_nodes = 2 * (BFSAlgorithm.search G a t1 m1 start
        goal).2.2.expanded_nodes
    rw [hb, ha]
    omega
  · have ha := hd2 a t1 m1
    have hb := hd2 (DFSAlgorithm.search G a t1 m1 start goal).2.2 t2 m2
    show (DFSAlgorithm.search G _ t2 m2 start goal).2.2.expanded_nodes +
      a.expanded_nodes = 2 * (DFSAlgorithm.search G a t1 m1 start
        goal).2.2.expanded_nodes
    rw [hb, ha]
    omega
  · show (hSearch G (fun _ => 0)
        (hSearch G (fun _ => 0) a t1 m1 start goal).2.2 t2 m2 start
        goal).2.2.expanded_nodes + a.expanded_nodes =
      2 * (hSearch G (fun _ => 0) a t1 m1 start goal).2.2.expanded_nodes
    rw [hd3 (hSearch G (fun _ => 0) a t1 m1 start goal).2.2 t2 m2, hd3 a t1 m1]
    omega
  · show (hSearch G (fun p => AStarAlgorithm.heuristic p goal)
        (hSearch G (fun p => AStarAlgorithm.heuristic p goal) a t1 m1 start
          goal).2.2 t2 m2 start goal).2.2.expanded_nodes + a.expanded_nodes =
      2 * (hSearch G (fun p => AStarAlgorithm.heuristic p goal) a t1 m1 start
        goal).2.2.expanded_nodes
    rw [hd4 (hSearch G (fun p => AStarAlgorithm.heuristic p goal) a t1 m1 start
      goal).2.2 t2 m2, hd4 a t1 m1]
    omega

/-- C4 counterexample: in the level-5 conflict tick both blue and pink
propose `(2, 0)`.  Blue (first in order) is committed, pink is held at
`(3, 0)` — but pink's cached path is NOT cleared: it still holds its full
path `[(3,0), (2,0)]`, contradicting the claim that a blocked agent "has
its cached path cleared (emptied)". -/
theorem C4_counterexample :
    (update_ghosts_level5 [GhostColor.blue, GhostColor.pink] (fun _ => (0, 0))
        tick5Example).map
      (fun s1 => (s1.ghost_positions .blue, s1.ghost_paths .blue,
        s1.ghost_positions .pink, s1.ghost_paths .pink)) =
      some (some (2, 0), [(2, 0)], some (3, 0), [(3, 0), (2, 0)]) ∧
    [((3 : Int), (0 : Int)), (2, 0)] ≠ ([] : List Pos) := by decide

/-- C4 amended: in a level-5 tick in which no agent replans (all active
cached paths are longer than 1), the agent at position `i` of the active
order with proposal `path[1]` is committed (moves there and pops its path
head) exactly when its proposal differs from every earlier agent's
proposal; otherwise it keeps its prior position AND its cached path
unchanged (the path is kept, not cleared). -/
theorem C4_amended_conflict_commit (active : List GhostColor)
    (tm : GhostColor → Int × Int) (s : GameState) (hnd : active.Nodup)
    (hlong : ∀ c ∈ active, 1 < (s.ghost_paths c).length) :
    ∃ s1, update_ghosts_level5 active tm s = some s1 ∧
      ∀ i (hi : i < active.length),
        ((s.ghost_paths (active.get ⟨i, hi⟩)).getD 1 (0, 0) ∈
            (active.take i).map (fun c => (s.ghost_paths c).getD 1 (0, 0)) →
          s1.ghost_positions (active.get ⟨i, hi⟩) =
            s.ghost_positions (active.get ⟨i, hi⟩) ∧
          s1.ghost_paths (active.get ⟨i, hi⟩) =
            s.ghost_paths (active.get ⟨i, hi⟩)) ∧
        ((s.ghost_paths (active.get ⟨i, hi⟩)).getD 1 (0, 0) ∉
            (active.take i).map (fun c => (s.ghost_paths c).getD 1 (0, 0)) →
          s1.ghost_positions (active.get ⟨i, hi⟩) =
            some ((s.ghost_paths (active.get ⟨i, hi⟩)).getD 1 (0, 0)) ∧
          s1.ghost_paths (active.get ⟨i, hi⟩) =
            (s.ghost_paths (active.get ⟨i, hi⟩)).tail) := by
  rw [update5_noreplan active tm s hlong]
  simp only
  have hkeys : ((active.map (fun c => (c, (s.ghost_paths c).getD 1 (0, 0)))).map
      Prod.fst) = active := by
    rw [List.map_map]
    exact List.map_id'' (fun _ => rfl) active
  have hkeysnd : ((active.map (fun c => (c, (s.ghost_paths c).getD 1 (0, 0)))).map
      Prod.fst).Nodup := by
    rw [hkeys]
    exact hnd
  have hvals : ((active.map (fun c => (c, (s.ghost_paths c).getD 1 (0, 0)))).map
      Prod.snd) = active.map (fun c => (s.ghost_paths c).getD 1 (0, 0)) := by
    rw [List.map_map]
    rfl
  by_cases hdup : ((active.map (fun c => (c, (s.ghost_paths c).getD 1 (0, 0)))).map
      Prod.snd).Nodup
  · rw [if_pos hdup]
    refine ⟨_, rfl, ?_⟩
    intro i hi
    constructor
    · intro hmem
      exfalso
      rw [hvals] at hdup
      obtain ⟨j, hj, hjv⟩ := List.getElem_of_mem hmem
      have hjlen : j < active.length ∧ j < i := by
        rw [List.length_map, List.length_take] at hj
        omega
      rw [List.getElem_map, List.getElem_take] at hjv
      have hVj : (active.map (fun c => (s.ghost_paths c).getD 1 (0, 0))).get
          ⟨j, by simpa using hjlen.1⟩ =
          (s.ghost_paths (active.get ⟨i, hi⟩)).getD 1 (0, 0) := by
        rw [List.get_map]
        exact hjv
      have hVi : (active.map (fun c => (s.ghost_paths c).getD 1 (0, 0))).get
          ⟨i, by simpa using hi⟩ =
          (s.ghost_paths (active.get ⟨i, hi⟩)).getD 1 (0, 0) := List.get_map _
      have heqf := (List.Nodup.get_inj_iff hdup).mp (hVj.trans hVi.symm)
      have : j = i := by simpa using heqf
      omega
    · intro _
      have hcp : (active.get ⟨i, hi⟩,
          (s.ghost_paths (active.get ⟨i, hi⟩)).getD 1 (0, 0)) ∈
          active.map (fun c => (c, (s.ghost_paths c).getD 1 (0, 0))) :=
        List.mem_map_of_mem _ (active.get_mem i hi)
      exact commitAll_spec _ s hkeysnd _ hcp
  · rw [if_neg hdup]
    refine ⟨_, rfl, ?_⟩
    intro i hi
    have hi' : i < (active.map (fun c => (c, (s.ghost_paths c).getD 1 (0, 0)))).length := by
      rw [List.length_map]
      exact hi
    have hidx := commitConflict_indexed _ [] s hkeysnd i hi'
    have hgg : (active.map (fun c => (c, (s.ghost_paths c).getD 1 (0, 0)))).get
        ⟨i, hi'⟩ =
        (active.get ⟨i, hi⟩, (s.ghost_paths (active.get ⟨i, hi⟩)).getD 1 (0, 0)) :=
      List.get_map _
    rw [hgg] at hidx
    have htk : (((active.map (fun c => (c, (s.ghost_paths c).getD 1 (0, 0)))).map
        Prod.snd).take i) =
        (active.take i).map (fun c => (s.ghost_paths c).getD 1 (0, 0)) := by
      rw [hvals, List.map_take]
    rw [htk] at hidx
    simp only [List.nil_append] at hidx
    exact hidx

theorem C4_amended_conflict_commit_witness :
    [GhostColor.blue, GhostColor.pink].Nodup ∧
    (∀ c ∈ [GhostColor.blue, GhostColor.pink],
      1 < (tick5Example.ghost_paths c).length) ∧
    (∃ s1, update_ghosts_level5 [GhostColor.blue, GhostColor.pink]
        (fun _ => (0, 0)) tick5Example = some s1 ∧
      ∀ i (hi : i < [GhostColor.blue, GhostColor.pink].length),
        ((tick5Example.ghost_paths ([GhostColor.blue, GhostColor.pink].get
            ⟨i, hi⟩)).getD 1 (0, 0) ∈
            ([GhostColor.blue, GhostColor.pink].take i).map
              (fun c => (tick5Example.ghost_paths c).getD 1 (0, 0)) →
          s1.ghost_positions ([GhostColor.blue, GhostColor.pink].get ⟨i, hi⟩) =
            tick5Example.ghost_positions
              ([GhostColor.blue, GhostColor.pink].get ⟨i, hi⟩) ∧
          s1.ghost_paths ([GhostColor.blue, GhostColor.pink].get ⟨i, hi⟩) =
            tick5Example.ghost_paths
              ([GhostColor.blue, GhostColor.pink].get ⟨i, hi⟩)) ∧
        ((tick5Example.ghost_paths ([GhostColor.blue, GhostColor.pink].get
            ⟨i, hi⟩)).getD 1 (0, 0) ∉
            ([GhostColor.blue, GhostColor.pink].take i).map
              (fun c => (tick5Example.ghost_paths c).getD 1 (0, 0)) →
          s1.ghost_positions ([GhostColor.blue, GhostColor.pink].get ⟨i, hi⟩) =
            some ((tick5Example.ghost_paths ([GhostColor.blue,
              GhostColor.pink].get ⟨i, hi⟩)).getD 1 (0, 0)) ∧
          s1.ghost_paths ([GhostColor.blue, GhostColor.pink].get ⟨i, hi⟩) =
            (tick5Example.ghost_paths ([GhostColor.blue,
              GhostColor.pink].get ⟨i, hi⟩)).tail)) :=
  ⟨by decide, by decide,
   C4_amended_conflict_commit [GhostColor.blue, GhostColor.pink]
     (fun _ => (0, 0)) tick5Example (by decide) (by decide)⟩

/-- C5 counterexample: in a level-6 capture tick (blue's committed proposal
equals Pac-Man's position) the scheduler itself calls `reset_game()` and
returns: afterwards Pac-Man is back at its spawn `(0,0)`, blue is at its
spawn `(0,1)`, every cached path is cleared, the maze is restored and the
stats are zeroed — contradicting the claim that the scheduler reports the
capture distinctly while leaving positions, cached paths and the maze
unchanged. -/
theorem C5_counterexample :
    (update_ghosts_level6 [GhostColor.blue] (fun _ => (0, 0)) tick6Example).map
      (fun s1 => s1.pacman_pos) = some (some (0, 0)) ∧
    (update_ghosts_level6 [GhostColor.blue] (fun _ => (0, 0)) tick6Example).map
      (fun s1 => s1.ghost_positions .blue) = some (some (0, 1)) ∧
    (update_ghosts_level6 [GhostColor.blue] (fun _ => (0, 0)) tick6Example).map
      (fun s1 => s1.ghost_paths .blue) = some [] ∧
    (update_ghosts_level6 [GhostColor.blue] (fun _ => (0, 0)) tick6Example).map
      (fun s1 => s1.maze) = some [[5, 0], [4, 1]] ∧
    (update_ghosts_level6 [GhostColor.blue] (fun _ => (0, 0)) tick6Example).map
      (fun s1 => s1.current_path) = some [] ∧
    (update_ghosts_level6 [GhostColor.blue] (fun _ => (0, 0)) tick6Example).map
      (fun s1 => s1.stats.expanded_nodes) = some 0 ∧
    tick6Example.ghost_paths .blue ≠ [] ∧
    tick6Example.pacman_pos ≠ some (0, 0) ∧
    tick6Example.maze ≠ [[5, 0], [4, 1]] := by decide

/-- C5 amended: when the first active ghost's proposed cell (its cached
`path[1]`) equals Pac-Man's current position, the level-6 tick itself
resets the game and returns the reset state: maze restored from the stored
original, spawn positions re-derived, all cached paths and the current
path cleared; the persistent algorithm objects are kept; no separate
capture signal is produced. -/
theorem C5_amended_capture_reset (c : GhostColor) (cs : List GhostColor)
    (tm : GhostColor → Int × Int) (s : GameState) {pp : Pos}
    (hpp : s.pacman_pos = some pp)
    (hlen : 1 < (s.ghost_paths c).length)
    (hcap : (s.ghost_paths c).getD 1 (0, 0) = pp) :
    update_ghosts_level6 (c :: cs) tm s = some (reset_game s) ∧
    (reset_game s).maze = s.original_maze ∧
    (∀ c', (reset_game s).ghost_paths c' = []) ∧
    (reset_game s).current_path = [] ∧
    (reset_game s).pacman_pos = (find_initial_positions s.original_maze).1 ∧
    (∀ c', (reset_game s).ghost_positions c' =
      (find_initial_positions s.original_maze).2 c') ∧
    (∀ c', (reset_game s).ghost_algorithms c' = s.ghost_algorithms c') := by
  have hnle : ¬ (s.ghost_paths c).length ≤ 1 := by omega
  have hnp : (s.ghost_paths c)[1] = pp := by
    rw [← hcap, getD_one_eq_get _ _ hlen]
    rfl
  refine ⟨?_, rfl, fun c' => rfl, rfl, rfl, fun c' => rfl, fun c' => rfl⟩
  simp [update_ghosts_level6, level6_loop, hpp, hnle, hlen, hnp]

theorem C5_amended_capture_reset_witness :
    tick6Example.pacman_pos = some (1, 0) ∧
    1 < (tick6Example.ghost_paths .blue).length ∧
    (tick6Example.ghost_paths .blue).getD 1 (0, 0) = (1, 0) ∧
    (update_ghosts_level6 [GhostColor.blue] (fun _ => (0, 0)) tick6Example =
        some (reset_game tick6Example) ∧
      (reset_game tick6Example).maze = tick6Example.original_maze ∧
      (∀ c', (reset_game tick6Example).ghost_paths c' = []) ∧
      (reset_game tick6Example).current_path = [] ∧
      (reset_game tick6Example).pacman_pos =
        (find_initial_positions tick6Example.original_maze).1 ∧
      (∀ c', (reset_game tick6Example).ghost_positions c' =
        (find_initial_positions tick6Example.original_maze).2 c') ∧
      (∀ c', (reset_game tick6Example).ghost_algorithms c' =
        tick6Example.ghost_algorithms c')) :=
  ⟨rfl, by decide, by decide,
   C5_amended_capture_reset GhostColor.blue [] (fun _ => (0, 0)) tick6Example
     rfl (by decide) (by decide)⟩

/-- C6: the head of a non-empty cached path always equals its agent's
current position: the level-1 tick establishes this for the shared
`current_path` (whose agent is the blue ghost), and the level-5 tick
preserves it for every ghost's cached path; moreover whenever the level-1
cached path has length at most 1 the tick replans — it runs a fresh BFS
search from the ghost's current position to Pac-Man's current position and
the new path (advanced by one step when longer than 1) replaces the old
one, so no advance ever reads past the end of a path. -/
theorem C6_path_head_invariant (tdelta mdelta : Int) (active : List GhostColor)
    (tm : GhostColor → Int × Int) (s t1 t5 : GameState)
    (h1 : update_ghosts_level1 tdelta mdelta s = some t1)
    (h5 : update_ghosts_level5 active tm s = some t5)
    (hnd : active.Nodup) (hinv : PathsHeadInv s) :
    CurrentHeadInv t1 ∧ PathsHeadInv t5 ∧
    (s.current_path.length ≤ 1 →
      ∃ gp pp, s.ghost_positions .blue = some gp ∧ s.pacman_pos = some pp ∧
        t1.stats = (BFSAlgorithm.search s.maze (SearchAlgorithm.init s.maze)
          tdelta mdelta gp pp).2.1 ∧
        t1.current_path =
          (if 1 < (BFSAlgorithm.search s.maze (SearchAlgorithm.init s.maze)
              tdelta mdelta gp pp).1.length then
            (BFSAlgorithm.search s.maze (SearchAlgorithm.init s.maze)
              tdelta mdelta gp pp).1.tail
          else
            (BFSAlgorithm.search s.maze (SearchAlgorithm.init s.maze)
              tdelta mdelta gp pp).1)) :=
  ⟨update1_head_inv tdelta mdelta s t1 h1,
   update5_inv active tm s t5 hnd h5 hinv,
   fun hle => update1_replan tdelta mdelta s t1 hle h1⟩

theorem C6_path_head_invariant_witness :
    update_ghosts_level1 0 0 c6Example = some c6ExampleT1 ∧
    update_ghosts_level5 [GhostColor.blue] (fun _ => (0, 0)) c6Example =
      some c6ExampleT5 ∧
    [GhostColor.blue].Nodup ∧ PathsHeadInv c6Example ∧
    (CurrentHeadInv c6ExampleT1 ∧ PathsHeadInv c6ExampleT5 ∧
      (c6Example.current_path.length ≤ 1 →
        ∃ gp pp, c6Example.ghost_positions .blue = some gp ∧
          c6Example.pacman_pos = some pp ∧
          c6ExampleT1.stats = (BFSAlgorithm.search c6Example.maze
            (SearchAlgorithm.init c6Example.maze) 0 0 gp pp).2.1 ∧
          c6ExampleT1.current_path =
            (if 1 < (BFSAlgorithm.search c6Example.maze
                (SearchAlgorithm.init c6Example.maze) 0 0 gp pp).1.length then
              (BFSAlgorithm.search c6Example.maze
                (SearchAlgorithm.init c6Example.maze) 0 0 gp pp).1.tail
            else
              (BFSAlgorithm.search c6Example.maze
                (SearchAlgorithm.init c6Example.maze) 0 0 gp pp).1))) := by
  have e1 : update_ghosts_level1 0 0 c6Example = some c6ExampleT1 := rfl
  have e5 : update_ghosts_level5 [GhostColor.blue] (fun _ => (0, 0)) c6Example =
      some c6ExampleT5 := rfl
  exact ⟨e1, e5, by decide, by decide,
    C6_path_head_invariant 0 0 [GhostColor.blue] (fun _ => (0, 0)) c6Example
      c6ExampleT1 c6ExampleT5 e1 e5 (by decide) (by decide)⟩

/-- C7: with an unreachable goal, each of the four algorithms returns an
empty path together with the stats dictionary of its (updated) object —
the reconstruction guards make the unreachable case a normal return, and
the embedding is total (no error branch exists). -/
theorem C7_unreachable_empty (G : Maze) (a : SearchAlgorithm)
    (tdelta mdelta : Int) (start goal : Pos)
    (hunreach : ¬Reachable G start goal) :
    (BFSAlgorithm.search G a tdelta mdelta start goal).1 = [] ∧
    (DFSAlgorithm.search G a tdelta mdelta start goal).1 = [] ∧
    (UCSAlgorithm.search G a tdelta mdelta start goal).1 = [] ∧
    (AStarAlgorithm.search G a tdelta mdelta start goal).1 = [] ∧
    (BFSAlgorithm.search G a tdelta mdelta start goal).2.1 =
      (BFSAlgorithm.search G a tdelta mdelta start goal).2.2.get_stats ∧
    (DFSAlgorithm.search G a tdelta mdelta start goal).2.1 =
      (DFSAlgorithm.search G a tdelta mdelta start goal).2.2.get_stats ∧
    (UCSAlgorithm.search G a tdelta mdelta start goal).2.1 =
      (UCSAlgorithm.search G a tdelta mdelta start goal).2.2.get_stats ∧
    (AStarAlgorithm.search G a tdelta mdelta start goal).2.1 =
      (AStarAlgorithm.search G a tdelta mdelta start goal).2.2.get_stats := by
  refine ⟨?_, ?_, ?_, ?_, rfl, rfl, rfl, rfl⟩
  · by_contra h
    exact hunreach ((BFS_nonempty_iff G a tdelta mdelta start goal).mp h)
  · by_contra h
    exact hunreach ((DFS_nonempty_iff G a tdelta mdelta start goal).mp h)
  · by_contra h
    exact hunreach ((UCS_nonempty_iff G a tdelta mdelta start goal).mp h)
  · by_contra h
    exact hunreach ((AStar_nonempty_iff G a tdelta mdelta start goal).mp h)

theorem C7_unreachable_empty_witness :
    ¬Reachable [[0, 1], [1, 0]] (0, 0) (1, 1) ∧
    ((BFSAlgorithm.search [[0, 1], [1, 0]] (SearchAlgorithm.init [[0, 1], [1, 0]])
        0 0 (0, 0) (1, 1)).1 = [] ∧
      (DFSAlgorithm.search [[0, 1], [1, 0]] (SearchAlgorithm.init [[0, 1], [1, 0]])
        0 0 (0, 0) (1, 1)).1 = [] ∧
      (UCSAlgorithm.search [[0, 1], [1, 0]] (SearchAlgorithm.init [[0, 1], [1, 0]])
        0 0 (0, 0) (1, 1)).1 = [] ∧
      (AStarAlgorithm.search [[0, 1], [1, 0]] (SearchAlgorithm.init [[0, 1], [1, 0]])
        0 0 (0, 0) (1, 1)).1 = [] ∧
      (BFSAlgorithm.search [[0, 1], [1, 0]] (SearchAlgorithm.init [[0, 1], [1, 0]])
        0 0 (0, 0) (1, 1)).2.1 =
        (BFSAlgorithm.search [[0, 1], [1, 0]] (SearchAlgorithm.init [[0, 1], [1, 0]])
          0 0 (0, 0) (1, 1)).2.2.get_stats ∧
      (DFSAlgorithm.search [[0, 1], [1, 0]] (SearchAlgorithm.init [[0, 1], [1, 0]])
        0 0 (0, 0) (1, 1)).2.1 =
        (DFSAlgorithm.search [[0, 1], [1, 0]] (SearchAlgorithm.init [[0, 1], [1, 0]])
          0 0 (0, 0) (1, 1)).2.2.get_stats ∧
      (UCSAlgorithm.search [[0, 1], [1, 0]] (SearchAlgorithm.init [[0, 1], [1, 0]])
        0 0 (0, 0) (1, 1)).2.1 =
        (UCSAlgorithm.search [[0, 1], [1, 0]] (SearchAlgorithm.init [[0, 1], [1, 0]])
          0 0 (0, 0) (1, 1)).2.2.get_stats ∧
      (AStarAlgorithm.search [[0, 1], [1, 0]] (SearchAlgorithm.init [[0, 1], [1, 0]])
        0 0 (0, 0) (1, 1)).2.1 =
        (AStarAlgorithm.search [[0, 1], [1, 0]] (SearchAlgorithm.init [[0, 1], [1, 0]])
          0 0 (0, 0) (1, 1)).2.2.get_stats) := by
  have hunreach : ¬Reachable [[0, 1], [1, 0]] (0, 0) (1, 1) := by
    intro hr
    have h := (BFS_nonempty_iff [[0, 1], [1, 0]]
      (SearchAlgorithm.init [[0, 1], [1, 0]]) 0 0 (0, 0) (1, 1)).mpr hr
    exact h (by decide)
  exact ⟨hunreach,
    C7_unreachable_empty [[0, 1], [1, 0]] (SearchAlgorithm.init [[0, 1], [1, 0]])
      0 0 (0, 0) (1, 1) hunreach⟩

/-- C8 counterexample: on the 1x2 maze, the UCS run pops two heap entries,
neither of which is stale (both pops are of not-yet-visited cells), yet the
reported `expanded_nodes` is 1: the goal pop hits the `break` before the
visited bookkeeping, so this pop of a not-yet-visited node is not counted,
contradicting the claim that "only the pop of a not-yet-visited node counts
as an expansion" describes the counter. -/
theorem C8_counterexample :
    (UCSAlgorithm.search [[0, 0]] (SearchAlgorithm.init [[0, 0]]) 0 0
      (0, 0) (1, 0)).2.1.expanded_nodes = 1 ∧
    ((hRun [[0, 0]] (fun _ => 0) 0 (0, 0) (1, 0)).tracePops.filter
      (fun x => !x.2.1)).length = 2 ∧
    (hRun [[0, 0]] (fun _ => 0) 0 (0, 0) (1, 0)).tracePops.length = 2 := by
  decide

/-- C8 amended: for BFS and DFS, `expanded_nodes` grows by the number of
frontier pops of the call (every pop counts, including the final goal pop);
for UCS and A*, it grows by the number of pops that are neither stale
(already-visited cell, lazily discarded) nor the terminating goal pop. -/
theorem C8_amended_expansion_count (G : Maze) (start goal : Pos)
    (a : SearchAlgorithm) (tdelta mdelta : Int) :
    (BFSAlgorithm.search G a tdelta mdelta start goal).2.1.expanded_nodes =
      a.expanded_nodes +
        (bdRun G false a.expanded_nodes start goal).2.tracePops.length ∧
    (DFSAlgorithm.search G a tdelta mdelta start goal).2.1.expanded_nodes =
      a.expanded_nodes +
        (bdRun G true a.expanded_nodes start goal).2.tracePops.length ∧
    (UCSAlgorithm.search G a tdelta mdelta start goal).2.1.expanded_nodes =
      a.expanded_nodes +
        hCountNew (hRun G (fun _ => 0) a.expanded_nodes start goal).tracePops ∧
    (AStarAlgorithm.search G a tdelta mdelta start goal).2.1.expanded_nodes =
      a.expanded_nodes +
        hCountNew (hRun G (fun p => AStarAlgorithm.heuristic p goal)
          a.expanded_nodes start goal).tracePops := by
  refine ⟨?_, ?_, ?_, ?_⟩
  · rcases bdRun_canon G false start goal with ⟨found, f2, vis2, pm2, dtr, h⟩
    show (bdRun G false a.expanded_nodes start goal).2.expanded = _
    rw [h a.expanded_nodes]
  · rcases bdRun_canon G true start goal with ⟨found, f2, vis2, pm2, dtr, h⟩
    show (bdRun G true a.expanded_nodes start goal).2.expanded = _
    rw [h a.expanded_nodes]
  · rcases hRun_canon G (fun _ => 0) start goal with ⟨hp2, vis2, pm2, cost2, dtr, h⟩
    show (hRun G (fun _ => 0) a.expanded_nodes start goal).expanded = _
    rw [h a.expanded_nodes]
  · rcases hRun_canon G (fun p => AStarAlgorithm.heuristic p goal) start goal with
      ⟨hp2, vis2, pm2, cost2, dtr, h⟩
    show (hRun G (fun p => AStarAlgorithm.heuristic p goal)
      a.expanded_nodes start goal).expanded = _
    rw [h a.expanded_nodes]

/-- C9: the returned path of each algorithm is a function of the maze,
start and goal alone: two calls with identical `(grid, start, goal)` return
identical paths, whatever the object's prior counters and whatever timing
or memory deltas the calls observe. -/
theorem C9_deterministic_paths (G : Maze) (start goal : Pos)
    (a1 a2 : SearchAlgorithm) (t1 m1 t2 m2 : Int) :
    (BFSAlgorithm.search G a1 t1 m1 start goal).1 =
      (BFSAlgorithm.search G a2 t2 m2 start goal).1 ∧
    (DFSAlgorithm.search G a1 t1 m1 start goal).1 =
      (DFSAlgorithm.search G a2 t2 m2 start goal).1 ∧
    (UCSAlgorithm.search G a1 t1 m1 start goal).1 =
      (UCSAlgorithm.search G a2 t2 m2 start goal).1 ∧
    (AStarAlgorithm.search G a1 t1 m1 start goal).1 =
      (AStarAlgorithm.search G a2 t2 m2 start goal).1 :=
  ⟨BFS_path_indep G start goal a1 a2 t1 m1 t2 m2,
   DFS_path_indep G start goal a1 a2 t1 m1 t2 m2,
   hSearch_path_indep G (fun _ => 0) start goal a1 a2 t1 m1 t2 m2,
   hSearch_path_indep G (fun p => AStarAlgorithm.heuristic p goal) start goal
     a1 a2 t1 m1 t2 m2⟩

/-- C10: the maze passed to the constructor is dead state: searches on
objects constructed from different mazes, run against the same module-level
maze `G`, return identical paths and identical `expanded_nodes`. -/
theorem C10_constructor_maze_ignored (G m1 m2 : Maze) (t1 md1 t2 md2 : Int)
    (start goal : Pos) :
    ((BFSAlgorithm.search G (SearchAlgorithm.init m1) t1 md1 start goal).1 =
        (BFSAlgorithm.search G (SearchAlgorithm.init m2) t2 md2 start goal).1 ∧
      (BFSAlgorithm.search G (SearchAlgorithm.init m1) t1 md1 start
          goal).2.1.expanded_nodes =
        (BFSAlgorithm.search G (SearchAlgorithm.init m2) t2 md2 start
          goal).2.1.expanded_nodes) ∧
    ((DFSAlgorithm.search G (SearchAlgorithm.init m1) t1 md1 start goal).1 =
        (DFSAlgorithm.search G (SearchAlgorithm.init m2) t2 md2 start goal).1 ∧
      (DFSAlgorithm.search G (SearchAlgorithm.init m1) t1 md1 start
          goal).2.1.expanded_nodes =
        (DFSAlgorithm.search G (SearchAlgorithm.init m2) t2 md2 start
          goal).2.1.expanded_nodes) ∧
    ((UCSAlgorithm.search G (SearchAlgorithm.init m1) t1 md1 start goal).1 =
        (UCSAlgorithm.search G (SearchAlgorithm.init m2) t2 md2 start goal).1 ∧
      (UCSAlgorithm.search G (SearchAlgorithm.init m1) t1 md1 start
          goal).2.1.expanded_nodes =
        (UCSAlgorithm.search G (SearchAlgorithm.init m2) t2 md2 start
          goal).2.1.expanded_nodes) ∧
    ((AStarAlgorithm.search G (SearchAlgorithm.init m1) t1 md1 start goal).1 =
        (AStarAlgorithm.search G (SearchAlgorithm.init m2) t2 md2 start goal).1 ∧
      (AStarAlgorithm.search G (SearchAlgorithm.init m1) t1 md1 start
          goal).2.1.expanded_nodes =
        (AStarAlgorithm.search G (SearchAlgorithm.init m2) t2 md2 start
          goal).2.1.expanded_nodes) := by
  obtain ⟨d1, hd1⟩ := BFS_expanded_shift G start goal
  obtain ⟨d2, hd2⟩ := DFS_expanded_shift G start goal
  obtain ⟨d3, hd3⟩ := hSearch_expanded_shift G (fun _ => 0) start goal
  obtain ⟨d4, hd4⟩ := hSearch_expanded_shift G
    (fun p => AStarAlgorithm.heuristic p goal) start goal
  refine ⟨⟨BFS_path_indep G start goal _ _ t1 md1 t2 md2, ?_⟩,
    ⟨DFS_path_indep G start goal _ _ t1 md1 t2 md2, ?_⟩,
    ⟨hSearch_path_indep G (fun _ => 0) start goal _ _ t1 md1 t2 md2, ?_⟩,
    ⟨hSearch_path_indep G (fun p => AStarAlgorithm.heuristic p goal) start goal
      _ _ t1 md1 t2 md2, ?_⟩⟩
  · show (BFSAlgorithm.search G (SearchAlgorithm.init m1) t1 md1 start
        goal).2.2.expanded_nodes =
      (BFSAlgorithm.search G (SearchAlgorithm.init m2) t2 md2 start
        goal).2.2.expanded_nodes
    rw [hd1 (SearchAlgorithm.init m1) t1 md1, hd1 (SearchAlgorithm.init m2) t2 md2]
    rfl
  · show (DFSAlgorithm.search G (SearchAlgorithm.init m1) t1 md1 start
        goal).2.2.expanded_nodes =
      (DFSAlgorithm.search G (SearchAlgorithm.init m2) t2 md2 start
        goal).2.2.expanded_nodes
    rw [hd2 (SearchAlgorithm.init m1) t1 md1, hd2 (SearchAlgorithm.init m2) t2 md2]
    rfl
  · show (hSearch G (fun _ => 0) (SearchAlgorithm.init m1) t1 md1 start
        goal).2.2.expanded_nodes =
      (hSearch G (fun _ => 0) (SearchAlgorithm.init m2) t2 md2 start
        goal).2.2.expanded_nodes
    rw [hd3 (SearchAlgorithm.init m1) t1 md1, hd3 (SearchAlgorithm.init m2) t2 md2]
    rfl
  · show (hSearch G (fun p => AStarAlgorithm.heuristic p goal)
        (SearchAlgorithm.init m1) t1 md1 start goal).2.2.expanded_nodes =
      (hSearch G (fun p => AStarAlgorithm.heuristic p goal)
        (SearchAlgorithm.init m2) t2 md2 start goal).2.2.expanded_nodes
    rw [hd4 (SearchAlgorithm.init m1) t1 md1, hd4 (SearchAlgorithm.init m2) t2 md2]
    rfl
